import Mathlib

/-!
Verification of the sorted-slice library (template/slices.go and the
timsort engine).  Go slices are modelled as `List α`, the caller-supplied
comparator `less` as `lt : α → α → Bool`, and Go `int` values as `Int`
(Go panics on out-of-range accesses are modelled by `Option`/`Except`).
-/

namespace Slices

/-- A strict weak order presented on a boolean comparator: irreflexive,
transitive, and with transitive incomparability.  This is the contract the
spec demands of the caller-supplied `less`. -/
structure SWOrd {α : Type} (lt : α → α → Bool) : Prop where
  irrefl : ∀ a, lt a a = false
  lt_trans : ∀ a b c, lt a b = true → lt b c = true → lt a c = true
  incomp_trans : ∀ a b c, lt a b = false → lt b a = false →
    lt b c = false → lt c b = false → lt a c = false ∧ lt c a = false

variable {α : Type} {lt : α → α → Bool}

theorem SWOrd.asymm (h : SWOrd lt) {a b : α} (hab : lt a b = true) :
    lt b a = false := by
  by_contra hba
  rw [Bool.not_eq_false] at hba
  have := h.lt_trans a b a hab hba
  rw [h.irrefl a] at this
  simp at this

/-- From a < b and b ≤ c (that is, ¬ c < b) conclude a < c. -/
theorem SWOrd.lt_of_lt_of_nlt (h : SWOrd lt) {a b c : α}
    (hab : lt a b = true) (hcb : lt c b = false) : lt a c = true := by
  by_contra hac
  rw [Bool.not_eq_true] at hac
  cases hca : lt c a with
  | true =>
    have := h.lt_trans c a b hca hab
    rw [hcb] at this
    simp at this
  | false =>
    cases hbc : lt b c with
    | true =>
      have := h.lt_trans a b c hab hbc
      rw [hac] at this
      simp at this
    | false =>
      have := (h.incomp_trans a c b hac hca hcb hbc).1
      rw [hab] at this
      simp at this

/-- From a ≤ b (that is, ¬ b < a) and b < c conclude a < c. -/
theorem SWOrd.lt_of_nlt_of_lt (h : SWOrd lt) {a b c : α}
    (hba : lt b a = false) (hbc : lt b c = true) : lt a c = true := by
  by_contra hac
  rw [Bool.not_eq_true] at hac
  cases hca : lt c a with
  | true =>
    have := h.lt_trans b c a hbc hca
    rw [hba] at this
    simp at this
  | false =>
    cases hab : lt a b with
    | true =>
      have := h.lt_trans a b c hab hbc
      rw [hac] at this
      simp at this
    | false =>
      have := (h.incomp_trans c a b hca hac hab hba).2
      rw [hbc] at this
      simp at this

/-- Transitivity of the associated reflexive order: from a ≤ b and b ≤ c
(encoded as the comparator failing in the opposite direction) infer a ≤ c. -/
theorem SWOrd.nlt_trans (h : SWOrd lt) {a b c : α}
    (hba : lt b a = false) (hcb : lt c b = false) : lt c a = false := by
  by_contra hca
  rw [Bool.not_eq_false] at hca
  have := h.lt_of_lt_of_nlt hca hba
  rw [hcb] at this
  simp at this

/-- The comparator used by every concrete `int` instantiation in the
repository (`generic.Number` specialised to `int` compares with `<`). -/
def intLt (a b : Int) : Bool := decide (a < b)

theorem swo_intLt : SWOrd intLt := by
  constructor
  · intro a; simp [intLt]
  · intro a b c hab hbc
    simp only [intLt, decide_eq_true_eq] at *
    omega
  · intro a b c hab hba hbc hcb
    simp only [intLt, decide_eq_true_eq, decide_eq_false_iff_not] at *
    omega

/-- Sortedness of a Go slice under the comparator: no element is less than
its predecessor (this is exactly what the library's own run detector and
sort establish). -/
def SortedRun (lt : α → α → Bool) (l : List α) : Prop :=
  List.Chain' (fun x y => lt y x = false) l

/-- Executable check for `SortedRun`, used to let `decide` evaluate
sortedness hypotheses at concrete inputs. -/
def sortedRunB (lt : α → α → Bool) : List α → Bool
  | [] => true
  | [_] => true
  | x :: y :: t => (! lt y x) && sortedRunB lt (y :: t)

theorem sortedRun_iff (lt : α → α → Bool) (l : List α) :
    SortedRun lt l ↔ sortedRunB lt l = true := by
  induction l with
  | nil => simp [SortedRun, sortedRunB]
  | cons x t ih =>
    cases t with
    | nil => simp [SortedRun, sortedRunB]
    | cons y s =>
      rw [SortedRun, List.chain'_cons, sortedRunB, Bool.and_eq_true,
        Bool.not_eq_true']
      rw [SortedRun] at ih
      exact and_congr Iff.rfl ih

instance (l : List α) : Decidable (SortedRun lt l) :=
  decidable_of_iff _ (sortedRun_iff lt l).symm

theorem SortedRun.pairwise_nlt (h : SWOrd lt) {l : List α} (hs : SortedRun lt l) :
    List.Pairwise (fun x y => lt y x = false) l := by
  induction l with
  | nil => exact List.Pairwise.nil
  | cons a l ih =>
    cases l with
    | nil => simp
    | cons b t =>
      rw [SortedRun, List.chain'_cons] at hs
      have hp := ih hs.2
      rw [List.pairwise_cons]
      refine ⟨?_, hp⟩
      intro c hc
      rcases List.mem_cons.1 hc with rfl | hc
      · exact hs.1
      · have hbc := (List.pairwise_cons.1 hp).1 c hc
        exact h.nlt_trans hs.1 hbc

theorem SortedRun.getD_nlt (h : SWOrd lt) {l : List α} (hs : SortedRun lt l)
    {i j : Nat} (hij : i ≤ j) (hj : j < l.length) (d d' : α) :
    lt (l.getD j d) (l.getD i d') = false := by
  rcases Nat.eq_or_lt_of_le hij with rfl | hlt
  · rw [List.getD_eq_getElem _ _ hj, List.getD_eq_getElem _ _ hj]
    exact h.irrefl _
  · have hp := (List.pairwise_iff_getElem).1 (hs.pairwise_nlt h) i j (by omega) hj hlt
    rw [List.getD_eq_getElem _ _ hj, List.getD_eq_getElem _ _ (by omega : i < l.length)]
    exact hp

/-! ### `ValueTypeBinarySearch` (template/slices.go lines 22-37)

The Go loop
```
i, j := 0, len(sorted)-1
for i < j {
    h := int(uint(i+j) >> 1)
    if lt(sorted[h], item) { i = h + 1 } else { j = h }
}
return i
```
is the recursion `bsLoop`; note that `j` starts at `len-1`, not `len`.
All indices stay non-negative so they are modelled as `Nat`
(`int(uint(i+j) >> 1)` is `(i+j)/2` for non-negative `i`, `j`). -/

def bsLoop (lt : α → α → Bool) (sorted : List α) (item : α) (i j : Nat) : Nat :=
  if i < j then
    let m := (i + j) / 2
    if lt (sorted.getD m item) item then bsLoop lt sorted item (m + 1) j
    else bsLoop lt sorted item i m
  else i
termination_by j - i
decreasing_by
  · omega
  · have : (i + j) / 2 < j := by omega
    omega

/-- Embedding of `ValueTypeBinarySearch`. -/
def ValueTypeBinarySearch (sorted : List α) (item : α) (lt : α → α → Bool) : Nat :=
  bsLoop lt sorted item 0 (sorted.length - 1)

/-- Reference definition taken from the spec's words: the smallest index `i`
such that `sorted[i]` is not less than `item`, or the length when every
element is less than `item`. -/
def lowerBoundIdx (lt : α → α → Bool) (sorted : List α) (item : α) : Nat :=
  sorted.findIdx (fun e => ! lt e item)

theorem findIdx_le_of_getD {p : α → Bool} {l : List α} {m : Nat} (d : α)
    (hm : m < l.length) (hp : p (l.getD m d) = true) : l.findIdx p ≤ m := by
  by_contra hgt
  push_neg at hgt
  have hle : l.findIdx p ≤ l.length := List.findIdx_le_length p
  rw [List.getD_eq_getElem _ _ hm] at hp
  rcases Nat.lt_or_ge (l.findIdx p) l.length with hflt | hfge
  · have hchar := (List.findIdx_eq hflt).1 rfl
    have := hchar.2 m hgt
    rw [hp] at this
    simp at this
  · have hfeq : l.findIdx p = l.length := le_antisymm hle hfge
    have hall := List.findIdx_eq_length.1 hfeq
    have := hall (l[m]) (List.getElem_mem hm)
    rw [hp] at this
    simp at this

theorem le_findIdx_of_getD {p : α → Bool} {l : List α} {i : Nat} (d : α)
    (hi : i ≤ l.length) (h : ∀ k, k < i → p (l.getD k d) = false) :
    i ≤ l.findIdx p := by
  by_contra hgt
  push_neg at hgt
  have hflt : l.findIdx p < l.length := by omega
  have htrue : p (l[l.findIdx p]) = true := List.findIdx_getElem
  have hfalse := h _ hgt
  rw [List.getD_eq_getElem _ _ hflt] at hfalse
  rw [hfalse] at htrue
  simp at htrue

/-- The loop invariant proof for the binary-search loop: provided the range
below `i` is entirely less than `item`, the loop computes the lower bound
clamped to the initial upper index `j`. -/
theorem bsLoop_eq (hswo : SWOrd lt) {sorted : List α} (hs : SortedRun lt sorted)
    (item : α) (i j : Nat) (hij : i ≤ j) (hj : j < sorted.length)
    (hlow : ∀ k, k < i → lt (sorted.getD k item) item = true) :
    bsLoop lt sorted item i j = min (lowerBoundIdx lt sorted item) j := by
  rw [bsLoop]
  by_cases hlt : i < j
  · rw [if_pos hlt]
    have hmi : i ≤ (i + j) / 2 := by omega
    have hmj : (i + j) / 2 < j := by omega
    have hmlen : (i + j) / 2 < sorted.length := by omega
    by_cases hcmp : lt (sorted.getD ((i + j) / 2) item) item = true
    · rw [if_pos hcmp]
      have hlow' : ∀ k, k < (i + j) / 2 + 1 →
          lt (sorted.getD k item) item = true := by
        intro k hk
        have hkm : k ≤ (i + j) / 2 := by omega
        exact hswo.lt_of_nlt_of_lt (hs.getD_nlt hswo hkm hmlen item item) hcmp
      exact bsLoop_eq hswo hs item ((i + j) / 2 + 1) j (by omega) hj hlow'
    · rw [if_neg hcmp]
      have hrec := bsLoop_eq hswo hs item i ((i + j) / 2) hmi hmlen hlow
      rw [hrec]
      have hub : lowerBoundIdx lt sorted item ≤ (i + j) / 2 := by
        apply findIdx_le_of_getD item hmlen
        rw [Bool.not_eq_true'] 
        exact Bool.eq_false_iff.2 hcmp
      omega
  · rw [if_neg hlt]
    have hieq : i = j := by omega
    have hge : i ≤ lowerBoundIdx lt sorted item := by
      apply le_findIdx_of_getD item (by omega)
      intro k hk
      rw [Bool.not_eq_false']
      exact hlow k hk
    omega
termination_by j - i

/-- C3 counterexample: the claim states that `binarySearch` returns the
array's length when every element is less than `item`; on `[1,2,3]` with
item `10` every element is less than `10` and the smallest not-less index
is the length `3`, yet the code returns `2` (the loop starts with
`j = len-1`, so the result is clamped to `len-1`). -/
theorem C3_binarySearch_counterexample :
    ValueTypeBinarySearch [1, 2, 3] (10 : Int) intLt = 2 ∧
    lowerBoundIdx intLt [1, 2, 3] (10 : Int) = 3 ∧
    ([1, 2, 3] : List Int).all (fun x => intLt x 10) = true := by
  refine ⟨?_, by decide, by decide⟩
  simp [ValueTypeBinarySearch, bsLoop, intLt]

/-- Shared characterisation of the binary search: the result is the lower
bound clamped to `length - 1`. -/
theorem binarySearch_eq_min (hswo : SWOrd lt) {sorted : List α}
    (hs : SortedRun lt sorted) (item : α) :
    ValueTypeBinarySearch sorted item lt =
      min (lowerBoundIdx lt sorted item) (sorted.length - 1) := by
  cases hsor : sorted with
  | nil => simp [ValueTypeBinarySearch, bsLoop, lowerBoundIdx]
  | cons x t =>
    rw [ValueTypeBinarySearch]
    subst hsor
    have hj : (x :: t).length - 1 < (x :: t).length := by simp
    exact bsLoop_eq hswo hs item 0 ((x :: t).length - 1) (by omega) hj
      (by intro k hk; omega)

/-- C3 (amended): for every strict-weak-order comparator and every sorted
array, `binarySearch` returns the smallest index whose element is not less
than `item`, clamped to `length - 1`: it never returns the length, and when
every element is less than `item` it returns `length - 1` instead.  (The
concrete scenario `binarySearch([1,3,3,5,7], 3) = 1` is unaffected, see the
witness.) -/
theorem C3_binarySearch_clamped (hswo : SWOrd lt) {sorted : List α}
    (hs : SortedRun lt sorted) (item : α) :
    ValueTypeBinarySearch sorted item lt =
      min (lowerBoundIdx lt sorted item) (sorted.length - 1) :=
  binarySearch_eq_min hswo hs item

/-- C3 witness: the amended theorem applied to the spec's concrete scenario
`binarySearch([1,3,3,5,7], 3) = 1`. -/
theorem C3_binarySearch_witness :
    SortedRun intLt [1, 3, 3, 5, 7] ∧
    ValueTypeBinarySearch [1, 3, 3, 5, 7] (3 : Int) intLt = 1 := by
  refine ⟨by decide, ?_⟩
  rw [C3_binarySearch_clamped swo_intLt (by decide) 3]
  decide

/-! ### Point operations on sorted slices (template/slices.go lines 39-75)

`ValueTypeIndexOf`, `ValueTypeContains` and `ValueTypeRemove` read
`sorted[i]` at the index returned by the binary search without any emptiness
guard; on an empty slice that access panics in Go, which is modelled by
returning `none`. -/

/-- Equivalence under the comparator: neither argument is less than the
other. -/
def eqvB (lt : α → α → Bool) (a b : α) : Bool := ! lt a b && ! lt b a

/-- Embedding of `ValueTypeIndexOf` (returns `-1` when the element at the
binary-search index is not equivalent to `item`; `none` models the Go panic
on the out-of-range read). -/
def ValueTypeIndexOf (sorted : List α) (item : α) (lt : α → α → Bool) :
    Option Int :=
  let i := ValueTypeBinarySearch sorted item lt
  if h : i < sorted.length then
    if eqvB lt (sorted.get ⟨i, h⟩) item then some (i : Int) else some (-1)
  else none

/-- Embedding of `ValueTypeContains`. -/
def ValueTypeContains (sorted : List α) (item : α) (lt : α → α → Bool) :
    Option Bool :=
  let i := ValueTypeBinarySearch sorted item lt
  if h : i < sorted.length then some (eqvB lt (sorted.get ⟨i, h⟩) item)
  else none

/-- Embedding of `ValueTypeInsert`.  The Go test `i == len(sorted)-1` is an
`int` comparison, so it is modelled over `Int` (on an empty slice
`len(sorted)-1` is `-1` and the test is false); when the test is false the
short-circuited `lt(sorted[i], item)` is irrelevant, so the bounds-safe
`getD` read is observationally identical. -/
def ValueTypeInsert (sorted : List α) (item : α) (lt : α → α → Bool) :
    List α :=
  let i := ValueTypeBinarySearch sorted item lt
  if (i : Int) = (sorted.length : Int) - 1 ∧ lt (sorted.getD i item) item = true
  then sorted ++ [item]
  else sorted.take i ++ item :: sorted.drop i

/-- Embedding of `ValueTypeRemoveAt` (`append(sorted[:i], sorted[i+1:]...)`). -/
def ValueTypeRemoveAt (sorted : List α) (i : Nat) : List α :=
  sorted.take i ++ sorted.drop (i + 1)

/-- Embedding of `ValueTypeRemove` (`none` models the Go panic on the
out-of-range read on empty input). -/
def ValueTypeRemove (sorted : List α) (item : α) (lt : α → α → Bool) :
    Option (List α) :=
  let i := ValueTypeBinarySearch sorted item lt
  if h : i < sorted.length then
    if eqvB lt (sorted.get ⟨i, h⟩) item then some (ValueTypeRemoveAt sorted i)
    else some sorted
  else none

/-! ### `ValueTypeDifference` (template/slices.go lines 171-188)

The two-cursor loop over `sorted1`, `sorted2` is written as a recursion on
the two remaining suffixes (cursor `i`/`j` advancing corresponds to taking
the tail); when either side is exhausted the loop stops and the remainder
of `sorted1` is appended. -/

def ValueTypeDifference (lt : α → α → Bool) : List α → List α → List α
  | sorted1, [] => sorted1
  | [], _ :: _ => []
  | x :: xs, y :: ys =>
    if lt x y then x :: ValueTypeDifference lt xs (y :: ys)
    else if lt y x then ValueTypeDifference lt (x :: xs) ys
    else ValueTypeDifference lt xs ys
termination_by s1 s2 => s1.length + s2.length

/-- Strict ascent under the comparator: every element is strictly less than
its successor (equivalently, a sorted slice without equivalent duplicates). -/
def StrictAsc (lt : α → α → Bool) (l : List α) : Prop :=
  List.Chain' (fun x y => lt x y = true) l

/-- Executable check for `StrictAsc`. -/
def strictAscB (lt : α → α → Bool) : List α → Bool
  | [] => true
  | [_] => true
  | x :: y :: t => lt x y && strictAscB lt (y :: t)

theorem strictAsc_iff (lt : α → α → Bool) (l : List α) :
    StrictAsc lt l ↔ strictAscB lt l = true := by
  induction l with
  | nil => simp [StrictAsc, strictAscB]
  | cons x t ih =>
    cases t with
    | nil => simp [StrictAsc, strictAscB]
    | cons y s =>
      rw [StrictAsc, List.chain'_cons, strictAscB, Bool.and_eq_true]
      rw [StrictAsc] at ih
      exact and_congr Iff.rfl ih

instance (l : List α) : Decidable (StrictAsc lt l) :=
  decidable_of_iff _ (strictAsc_iff lt l).symm

/-- Transitive chains are pairwise. -/
theorem chain'_pairwise_of_trans {R : α → α → Prop}
    (htr : ∀ a b c, R a b → R b c → R a c) :
    ∀ {l : List α}, List.Chain' R l → List.Pairwise R l := by
  intro l
  induction l with
  | nil => intro _; exact List.Pairwise.nil
  | cons a l ih =>
    intro hc
    cases l with
    | nil => simp
    | cons b t =>
      rw [List.chain'_cons] at hc
      have hp := ih hc.2
      rw [List.pairwise_cons]
      refine ⟨?_, hp⟩
      intro c hcmem
      rcases List.mem_cons.1 hcmem with rfl | hcmem
      · exact hc.1
      · exact htr a b c hc.1 ((List.pairwise_cons.1 hp).1 c hcmem)

theorem StrictAsc.pairwise (h : SWOrd lt) {l : List α} (hs : StrictAsc lt l) :
    List.Pairwise (fun x y => lt x y = true) l :=
  chain'_pairwise_of_trans (fun a b c hab hbc => h.lt_trans a b c hab hbc) hs

/-- In a sorted slice, no later element is less than the head. -/
theorem SortedRun.head_nlt (h : SWOrd lt) {y : α} {ys : List α}
    (hs : SortedRun lt (y :: ys)) {z : α} (hz : z ∈ ys) : lt z y = false :=
  (List.pairwise_cons.1 (hs.pairwise_nlt h)).1 z hz

/-- In a strictly ascending slice, the head is less than every later
element. -/
theorem StrictAsc.head_lt (h : SWOrd lt) {x : α} {xs : List α}
    (hs : StrictAsc lt (x :: xs)) {w : α} (hw : w ∈ xs) : lt x w = true :=
  (List.pairwise_cons.1 (hs.pairwise h)).1 w hw

theorem StrictAsc.tail (hs : StrictAsc lt (x :: xs)) : StrictAsc lt xs :=
  List.Chain'.tail hs

theorem SortedRun.tail_run (hs : SortedRun lt (x :: xs)) : SortedRun lt xs :=
  List.Chain'.tail hs

/-- C10 counterexample: none of the four operations checks for an empty
input or returns an error value.  On the empty slice, `binarySearch`
returns the ordinary index `0` (no error), while `indexOf`, `contains` and
`remove` dereference `sorted[0]` out of range, which panics in Go (modelled
by `none`) rather than returning a typed `InvalidRange` error. -/
theorem C10_empty_counterexample :
    ValueTypeBinarySearch ([] : List Int) 5 intLt = 0 ∧
    ValueTypeIndexOf ([] : List Int) 5 intLt = none ∧
    ValueTypeContains ([] : List Int) 5 intLt = none ∧
    ValueTypeRemove ([] : List Int) 5 intLt = none := by
  have hb : ValueTypeBinarySearch ([] : List Int) 5 intLt = 0 := by
    rw [ValueTypeBinarySearch, bsLoop]
    simp
  refine ⟨hb, ?_, ?_, ?_⟩ <;>
    simp [ValueTypeIndexOf, ValueTypeContains, ValueTypeRemove, hb]

/-- C10 (amended): the operations perform no precondition check at entry and
return no typed error.  For every element type, item and comparator, on the
empty slice `binarySearch` returns the ordinary value `0`, and `indexOf`,
`contains` and `remove` hit the out-of-range read `sorted[0]` (a Go panic,
modelled by `none`); no `InvalidRange` error value exists in these
signatures. -/
theorem C10_empty_behaviour {β : Type} (item : β) (ltb : β → β → Bool) :
    ValueTypeBinarySearch ([] : List β) item ltb = 0 ∧
    ValueTypeIndexOf ([] : List β) item ltb = none ∧
    ValueTypeContains ([] : List β) item ltb = none ∧
    ValueTypeRemove ([] : List β) item ltb = none := by
  have hb : ValueTypeBinarySearch ([] : List β) item ltb = 0 := by
    rw [ValueTypeBinarySearch, bsLoop]
    simp
  refine ⟨hb, ?_, ?_, ?_⟩ <;>
    simp [ValueTypeIndexOf, ValueTypeContains, ValueTypeRemove, hb]

/-- The two-cursor difference scan computes the set difference whenever the
left input has no equivalent duplicates: a shared helper for C8. -/
theorem difference_eq_filter (hswo : SWOrd lt) :
    ∀ (n : Nat) (a b : List α), a.length + b.length ≤ n →
    StrictAsc lt a → SortedRun lt b →
    ValueTypeDifference lt a b =
      a.filter (fun x => ! b.any (fun y => eqvB lt x y)) := by
  intro n
  induction n with
  | zero =>
    intro a b hlen _ _
    have ha : a = [] := by
      cases a <;> simp_all
    have hb : b = [] := by
      cases b <;> simp_all
    subst ha hb
    simp [ValueTypeDifference]
  | succ n ih =>
    intro a b hlen ha hb
    cases b with
    | nil =>
      cases a with
      | nil => simp [ValueTypeDifference]
      | cons x xs => simp [ValueTypeDifference]
    | cons y ys =>
      cases a with
      | nil => simp [ValueTypeDifference]
      | cons x xs =>
        rw [ValueTypeDifference]
        simp only [List.length_cons] at hlen
        by_cases hxy : lt x y = true
        · rw [if_pos hxy]
          have hxall : ((y :: ys).any (fun z => eqvB lt x z)) = false := by
            rw [List.any_eq_false]
            intro z hz
            have hxz : lt x z = true := by
              rcases List.mem_cons.1 hz with rfl | hz
              · exact hxy
              · exact hswo.lt_of_lt_of_nlt hxy (hb.head_nlt hswo hz)
            simp [eqvB, hxz]
          rw [List.filter_cons_of_pos (by simp [hxall])]
          rw [ih xs (y :: ys) (by simp only [List.length_cons]; omega) ha.tail hb]
        · rw [if_neg hxy]
          rw [Bool.not_eq_true] at hxy
          by_cases hyx : lt y x = true
          · rw [if_pos hyx]
            rw [ih (x :: xs) ys (by simp only [List.length_cons]; omega) ha hb.tail_run]
            apply List.filter_congr
            intro w hw
            have hyw : lt y w = true := by
              rcases List.mem_cons.1 hw with rfl | hw
              · exact hyx
              · exact hswo.lt_trans y x w hyx (ha.head_lt hswo hw)
            have hwy : eqvB lt w y = false := by
              simp [eqvB, hyw]
            simp only [List.any_cons, hwy, Bool.false_or]
          · rw [if_neg hyx]
            rw [Bool.not_eq_true] at hyx
            rw [ih xs ys (by omega) ha.tail hb.tail_run]
            rw [List.filter_cons_of_neg (by simp [List.any_cons, eqvB, hxy, hyx])]
            apply List.filter_congr
            intro w hw
            have hyw : lt y w = true :=
              hswo.lt_of_nlt_of_lt hxy (ha.head_lt hswo hw)
            have hwy : eqvB lt w y = false := by
              simp [eqvB, hyw]
            simp only [List.any_cons, hwy, Bool.false_or]

/-- C8 counterexample: on `a = [1,1]`, `b = [1]` the scan cancels only one
of the two equal elements of `a` and then appends the trailing remainder,
returning `[1]`; the claim ("exactly the elements of `a` not equivalent to
any element of `b`") predicts the empty list. -/
theorem C8_difference_counterexample :
    ValueTypeDifference intLt [1, 1] [1] = [1] ∧
    ([1, 1] : List Int).filter
      (fun x => ! ([1] : List Int).any (fun y => eqvB intLt x y)) = [] := by
  constructor
  · rw [ValueTypeDifference]
    simp [intLt, ValueTypeDifference]
  · decide

/-- C8 (amended): for sorted `a` and `b`, provided no two elements of `a`
are equivalent (for example any strictly ascending `a`), `difference(a, b)`
returns exactly the elements of `a` not equivalent to any element of `b`,
kept in their original order (with the trailing remainder of `a` appended
once `b` is exhausted).  In general each element of `b` cancels at most one
equivalent element of `a`.  The concrete scenario
`difference([10,20,30,40], [20,30]) = [10,40]` is unaffected (witness). -/
theorem C8_difference_filter (hswo : SWOrd lt) {a b : List α}
    (ha : StrictAsc lt a) (hb : SortedRun lt b) :
    ValueTypeDifference lt a b =
      a.filter (fun x => ! b.any (fun y => eqvB lt x y)) :=
  difference_eq_filter hswo (a.length + b.length) a b le_rfl ha hb

/-- C8 witness: the amended theorem applied to the spec's concrete scenario
`difference([10,20,30,40], [20,30]) = [10,40]`. -/
theorem C8_difference_witness :
    StrictAsc intLt [10, 20, 30, 40] ∧ SortedRun intLt [20, 30] ∧
    ValueTypeDifference intLt [10, 20, 30, 40] [20, 30] = [10, 40] := by
  refine ⟨by decide, by decide, ?_⟩
  rw [C8_difference_filter swo_intLt (by decide) (by decide)]
  decide

theorem getD_false_of_lt_findIdx {p : α → Bool} {l : List α} {k : Nat}
    (d : α) (hk : k < l.findIdx p) : p (l.getD k d) = false := by
  have hle : l.findIdx p ≤ l.length := List.findIdx_le_length p
  have hklen : k < l.length := by omega
  rw [List.getD_eq_getElem _ _ hklen]
  rcases Nat.lt_or_ge (l.findIdx p) l.length with hflt | hfge
  · exact ((List.findIdx_eq hflt).1 rfl).2 k hk
  · have hfeq : l.findIdx p = l.length := by omega
    exact List.findIdx_eq_length.1 hfeq l[k] (List.getElem_mem hklen)

/-- Every element strictly below the lower bound is less than `item`. -/
theorem lowB_lt_true {sorted : List α} {item : α} {k : Nat} (d : α)
    (hk : k < lowerBoundIdx lt sorted item) :
    lt (sorted.getD k d) item = true := by
  have := getD_false_of_lt_findIdx d hk
  simpa using this

/-- The element at the lower bound (when in range) is not less than `item`. -/
theorem lowB_nlt {sorted : List α} {item : α} (d : α)
    (hl : lowerBoundIdx lt sorted item < sorted.length) :
    lt (sorted.getD (lowerBoundIdx lt sorted item) d) item = false := by
  rw [lowerBoundIdx] at hl ⊢
  have hx := @List.findIdx_getElem _ (fun e => ! lt e item) sorted hl
  rw [List.getD_eq_getElem _ _ hl]
  simpa using hx

theorem mem_take_lowB (hswo : SWOrd lt) {sorted : List α} {item w : α}
    (hw : w ∈ sorted.take (lowerBoundIdx lt sorted item)) : lt w item = true := by
  rcases List.mem_iff_getElem.1 hw with ⟨i, hi, hget⟩
  rw [List.length_take] at hi
  have hi1 : i < lowerBoundIdx lt sorted item := by omega
  have hi2 : i < sorted.length := by omega
  rw [List.getElem_take] at hget
  have hx := @lowB_lt_true α lt sorted item i w hi1
  rw [List.getD_eq_getElem _ _ hi2, hget] at hx
  exact hx

theorem mem_drop_lowB (hswo : SWOrd lt) {sorted : List α} {item y : α}
    (hs : SortedRun lt sorted)
    (hy : y ∈ sorted.drop (lowerBoundIdx lt sorted item)) : lt y item = false := by
  rcases List.mem_iff_getElem.1 hy with ⟨i, hi, hget⟩
  rw [List.length_drop] at hi
  have hlb : lowerBoundIdx lt sorted item < sorted.length := by omega
  have hk : lowerBoundIdx lt sorted item + i < sorted.length := by omega
  rw [List.getElem_drop] at hget
  by_contra hcon
  rw [Bool.not_eq_false] at hcon
  have hnlt : lt (sorted.getD (lowerBoundIdx lt sorted item + i) item)
      (sorted.getD (lowerBoundIdx lt sorted item) item) = false :=
    hs.getD_nlt hswo (Nat.le_add_right _ _) hk item item
  have hcontra : lt (sorted.getD (lowerBoundIdx lt sorted item) item) item = true := by
    apply hswo.lt_of_nlt_of_lt hnlt
    rw [List.getD_eq_getElem _ _ hk, hget]
    exact hcon
  rw [lowB_nlt item hlb] at hcontra
  simp at hcontra

/-- The insert operation always places `item` exactly at the lower bound:
the clamped binary search together with the special-cased append reproduce
the unclamped insertion point. -/
theorem insert_eq (hswo : SWOrd lt) {sorted : List α}
    (hs : SortedRun lt sorted) (item : α) :
    ValueTypeInsert sorted item lt =
      sorted.take (lowerBoundIdx lt sorted item) ++
        item :: sorted.drop (lowerBoundIdx lt sorted item) := by
  have hlble : lowerBoundIdx lt sorted item ≤ sorted.length :=
    List.findIdx_le_length _
  rw [ValueTypeInsert, binarySearch_eq_min hswo hs item]
  rcases Nat.lt_or_ge (lowerBoundIdx lt sorted item) sorted.length with hlt | hge
  · have hmin : min (lowerBoundIdx lt sorted item) (sorted.length - 1) =
        lowerBoundIdx lt sorted item := by omega
    rw [hmin, if_neg]
    intro hcond
    rw [lowB_nlt item hlt] at hcond
    simp at hcond
  · have hfeq : lowerBoundIdx lt sorted item = sorted.length := by omega
    rcases Nat.eq_zero_or_pos sorted.length with hzero | hpos
    · have hsnil : sorted = [] := List.length_eq_zero.1 hzero
      subst hsnil
      rw [if_neg]
      · rw [lowerBoundIdx] at hfeq
        simp at hfeq
        simp [hfeq]
      · intro hcond
        rcases hcond with ⟨hcond, _⟩
        simp at hcond
    · have hmin : min (lowerBoundIdx lt sorted item) (sorted.length - 1) =
          sorted.length - 1 := by omega
      rw [hmin, if_pos]
      · rw [hfeq, List.take_length, List.drop_length]
      · constructor
        · omega
        · exact lowB_lt_true item (by omega)

/-- Helper: findIdx on a list assembled around a first hit. -/
theorem findIdx_append_cons {p : α → Bool} {l1 : List α} (x : α) (l2 : List α)
    (h1 : ∀ y ∈ l1, p y = false) (hx : p x = true) :
    (l1 ++ x :: l2).findIdx p = l1.length := by
  induction l1 with
  | nil => simp [List.findIdx_cons, hx]
  | cons a t ih =>
    have ha := h1 a (by simp)
    rw [List.cons_append, List.findIdx_cons, ha]
    simp only [cond_false, List.length_cons]
    rw [ih (fun y hy => h1 y (by simp [hy]))]

/-- C9: for every strict-weak-order comparator and every sorted sequence,
`insert(sorted, x)` yields a sorted sequence containing `x` (placed at the
lower bound of its equivalence class), and `remove(insert(sorted, x), x)`
reproduces the original sequence exactly. -/
theorem C9_insert_remove_roundtrip (hswo : SWOrd lt) {sorted : List α}
    (hs : SortedRun lt sorted) (item : α) :
    SortedRun lt (ValueTypeInsert sorted item lt) ∧
    item ∈ ValueTypeInsert sorted item lt ∧
    ValueTypeRemove (ValueTypeInsert sorted item lt) item lt = some sorted := by
  have hlble : lowerBoundIdx lt sorted item ≤ sorted.length :=
    List.findIdx_le_length _
  have hins := insert_eq hswo hs item
  have hlen1 : (sorted.take (lowerBoundIdx lt sorted item)).length =
      lowerBoundIdx lt sorted item := by
    rw [List.length_take]
    omega
  have hpsorted : List.Pairwise (fun x y => lt y x = false) sorted :=
    hs.pairwise_nlt hswo
  have hsplit := List.take_append_drop (lowerBoundIdx lt sorted item) sorted
  have hpdecomp : List.Pairwise (fun x y => lt y x = false)
      (sorted.take (lowerBoundIdx lt sorted item) ++
        sorted.drop (lowerBoundIdx lt sorted item)) := by
    rw [hsplit]
    exact hpsorted
  rw [List.pairwise_append] at hpdecomp
  have hpnew : List.Pairwise (fun x y => lt y x = false)
      (sorted.take (lowerBoundIdx lt sorted item) ++
        item :: sorted.drop (lowerBoundIdx lt sorted item)) := by
    rw [List.pairwise_append]
    refine ⟨hpdecomp.1, ?_, ?_⟩
    · rw [List.pairwise_cons]
      exact ⟨fun y hy => mem_drop_lowB hswo hs hy, hpdecomp.2.1⟩
    · intro a ha b hb
      rcases List.mem_cons.1 hb with rfl | hb
      · exact hswo.asymm (mem_take_lowB hswo ha)
      · exact hpdecomp.2.2 a ha b hb
  have hsortednew : SortedRun lt (ValueTypeInsert sorted item lt) := by
    rw [hins]
    exact hpnew.chain'
  refine ⟨hsortednew, by rw [hins]; simp, ?_⟩
  have hlow' : lowerBoundIdx lt (ValueTypeInsert sorted item lt) item =
      lowerBoundIdx lt sorted item := by
    rw [hins, lowerBoundIdx, findIdx_append_cons item _
      (fun y hy => by simp [mem_take_lowB hswo hy])
      (by simp [hswo.irrefl item]), hlen1]
  have hlennew : (ValueTypeInsert sorted item lt).length = sorted.length + 1 := by
    rw [hins]
    simp
    omega
  rw [ValueTypeRemove, binarySearch_eq_min hswo hsortednew item, hlow']
  have hmin : lowerBoundIdx lt sorted item ⊓
      ((ValueTypeInsert sorted item lt).length - 1) =
      lowerBoundIdx lt sorted item := by
    rw [hlennew]
    omega
  simp only [hmin]
  have hidx : lowerBoundIdx lt sorted item <
      (ValueTypeInsert sorted item lt).length := by omega
  rw [dif_pos hidx]
  have hgetD : (ValueTypeInsert sorted item lt).getD
      (lowerBoundIdx lt sorted item) item = item := by
    rw [hins, List.getD_append_right _ _ _ _ (le_of_eq hlen1)]
    simp [hlen1]
  have hgetitem : (ValueTypeInsert sorted item lt).get
      ⟨lowerBoundIdx lt sorted item, hidx⟩ = item := by
    rw [List.get_eq_getElem, ← List.getD_eq_getElem _ item hidx]
    exact hgetD
  rw [hgetitem]
  have heqv : eqvB lt item item = true := by
    simp [eqvB, hswo.irrefl item]
  rw [if_pos heqv]
  rw [ValueTypeRemoveAt]
  congr 1
  rw [hins]
  have htake : (sorted.take (lowerBoundIdx lt sorted item) ++
      item :: sorted.drop (lowerBoundIdx lt sorted item)).take
        (lowerBoundIdx lt sorted item) =
      sorted.take (lowerBoundIdx lt sorted item) := by
    rw [List.take_append_eq_append_take, hlen1]
    simp
  have hdrop : (sorted.take (lowerBoundIdx lt sorted item) ++
      item :: sorted.drop (lowerBoundIdx lt sorted item)).drop
        (lowerBoundIdx lt sorted item + 1) =
      sorted.drop (lowerBoundIdx lt sorted item) := by
    rw [List.append_cons, List.drop_append_eq_append_drop]
    have hl : (sorted.take (lowerBoundIdx lt sorted item) ++ [item]).length =
        lowerBoundIdx lt sorted item + 1 := by
      simp [hlen1]
    rw [List.drop_eq_nil_of_le (by rw [hl]), hl]
    simp
  rw [htake, hdrop, hsplit]

/-! ### `ValueTypeIterateOver` (template/slices.go lines 77-126)

The Go function keeps three parallel arrays: the filtered non-empty input
slices, one cursor per slice, and `sliceIndex` recording each slice's
position in the filtered list (note: not its position in the original
argument list).  A slice together with its cursor is equivalent to the
remaining suffix, so the state is modelled as `List (List α × Nat)` of
(remaining suffix, sliceIndex) pairs; advancing a cursor is taking the
tail.  The callback trace (value, srcIndex) is returned as a list.

The inner `for i := 1; ...` scan for the minimal current element keeps
both `minSlice` and `minItem`; `scanMinLoop` returns that pair.  Go reads
`sourceSlices[i][indexes[i]]`, which is in bounds because every slice on
the work list is non-empty (the enclosing loop removes exhausted slices);
the embedding reads `s.1.headD minItem`, whose default is never used for
the same reason.  The main loop consumes one unit of fuel per emission;
the top-level call supplies the total element count, which the
correctness lemmas show is sufficient. -/

def scanMinLoop (lt : α → α → Bool) :
    List (List α × Nat) → α → Nat → Nat → Nat × α
  | [], minItem, minPos, _ => (minPos, minItem)
  | s :: rest, minItem, minPos, i =>
    let v := s.1.headD minItem
    if lt v minItem then scanMinLoop lt rest v i (i + 1)
    else scanMinLoop lt rest minItem minPos (i + 1)

def iterLoop (lt : α → α → Bool) : Nat → List (List α × Nat) → List (α × Nat)
  | 0, _ => []
  | _ + 1, [] => []
  | _ + 1, ([], _) :: _ => []
  | fuel + 1, (v0 :: s0t, k0) :: rest =>
    let pm := scanMinLoop lt rest v0 0 1
    let chosen := (((v0 :: s0t, k0) :: rest).getD pm.1 ([], 0))
    let out : α × Nat := (pm.2, chosen.2)
    out ::
      (let tl := chosen.1.tail
       if tl.isEmpty then
         match (((v0 :: s0t, k0) :: rest).eraseIdx pm.1) with
         | [last] => last.1.map (fun w => (w, last.2))
         | rem => iterLoop lt fuel rem
       else iterLoop lt fuel ((((v0 :: s0t, k0) :: rest).set pm.1 (tl, chosen.2))))

/-- Embedding of `ValueTypeIterateOver`, returning the callback trace.  In
the single-non-empty-source shortcut the Go code passes the element index
`i` as `srcIndex` (`for i, value := range sourceSlices[0]`), and in the
general path `sliceIndex` holds positions within the filtered list.  The
`([], _) :: _` case of `iterLoop` is unreachable (slices on the work list
are never empty). -/
def ValueTypeIterateOver (lt : α → α → Bool)
    (sorted : List (List α)) : List (α × Nat) :=
  let sourceSlices := sorted.filter (fun src => ! src.isEmpty)
  match sourceSlices with
  | [] => []
  | [s] => s.enum.map (fun p => (p.2, p.1))
  | more =>
    iterLoop lt ((more.map List.length).sum)
      (more.enum.map (fun p => (p.2, p.1)))

/-- Everything the minimum scan guarantees: the returned position is in
range, carries the returned value, the value is a minimum of all candidate
heads, and it strictly beats every earlier candidate (ties keep the
earliest position). -/
structure ScanSpec (lt : α → α → Bool) (rest : List (List α × Nat))
    (minItem : α) (minPos i : Nat) (r : Nat × α) : Prop where
  pos_bound : r.1 = minPos ∨ (i ≤ r.1 ∧ r.1 < i + rest.length)
  val_keep : r.1 = minPos → r.2 = minItem
  val_at : ∀ j (hj : j < rest.length), r.1 = i + j → (rest[j]).1.head? = some r.2
  min_rest : ∀ s ∈ rest, ∀ x, s.1.head? = some x → lt x r.2 = false
  min_keep : lt minItem r.2 = false
  strict_keep : r.1 ≠ minPos → lt r.2 minItem = true
  strict_before : ∀ j (hj : j < rest.length), i + j < r.1 →
    ∀ x, (rest[j]).1.head? = some x → lt r.2 x = true

theorem scanMinLoop_spec (hswo : SWOrd lt) :
    ∀ (rest : List (List α × Nat)) (minItem : α) (minPos i : Nat),
    (∀ s ∈ rest, s.1 ≠ []) → minPos < i →
    ScanSpec lt rest minItem minPos i (scanMinLoop lt rest minItem minPos i) := by
  intro rest
  induction rest with
  | nil =>
    intro minItem minPos i _ hlt
    refine ⟨Or.inl rfl, fun _ => rfl, ?_, ?_, hswo.irrefl minItem, ?_, ?_⟩
    · intro j hj
      simp at hj
    · intro s hs
      simp at hs
    · intro hne
      exact absurd rfl hne
    · intro j hj
      simp at hj
  | cons s rest ih =>
    intro minItem minPos i hne hlt
    obtain ⟨v, st, hsv⟩ : ∃ v st, s.1 = v :: st := by
      cases hs1 : s.1 with
      | nil => exact absurd hs1 (hne s (by simp))
      | cons v st => exact ⟨v, st, rfl⟩
    have hhd : s.1.headD minItem = v := by rw [hsv]; rfl
    have hhd? : s.1.head? = some v := by rw [hsv]; rfl
    have hne' : ∀ t ∈ rest, t.1 ≠ [] := fun t ht => hne t (by simp [ht])
    rw [scanMinLoop, hhd]
    by_cases hvm : lt v minItem = true
    · rw [if_pos hvm]
      have hspec := ih v i (i + 1) hne' (by omega)
      refine ⟨?_, ?_, ?_, ?_, ?_, ?_, ?_⟩
      · rcases hspec.pos_bound with h | h
        · right
          constructor
          · omega
          · simp
            omega
        · right
          simp at h ⊢
          omega
      · intro hmp
        rcases hspec.pos_bound with h | h <;> omega
      · intro j hj hrj
        cases j with
        | zero =>
          have hri : (scanMinLoop lt rest v i (i + 1)).1 = i := by omega
          rw [List.getElem_cons_zero, hhd?, hspec.val_keep hri]
        | succ j =>
          have hj' : j < rest.length := by simpa using hj
          rw [List.getElem_cons_succ]
          exact hspec.val_at j hj' (by omega)
      · intro t ht x hx
        rcases List.mem_cons.1 ht with rfl | ht
        · rw [hhd?] at hx
          injection hx with hx
          subst hx
          exact hspec.min_keep
        · exact hspec.min_rest t ht x hx
      · -- lt minItem result = false
        by_contra hcon
        rw [Bool.not_eq_false] at hcon
        have := hswo.lt_trans v minItem _ hvm hcon
        rw [hspec.min_keep] at this
        simp at this
      · intro _
        rcases hspec.pos_bound with h | h
        · rw [hspec.val_keep h]
          exact hvm
        · have hr : (scanMinLoop lt rest v i (i + 1)).1 ≠ i := by omega
          exact hswo.lt_trans _ v minItem (hspec.strict_keep hr) hvm
      · intro j hj hij x hx
        cases j with
        | zero =>
          rw [List.getElem_cons_zero, hhd?] at hx
          injection hx with hx
          subst hx
          have hr : (scanMinLoop lt rest v i (i + 1)).1 ≠ i := by omega
          exact hspec.strict_keep hr
        | succ j =>
          have hj' : j < rest.length := by simpa using hj
          rw [List.getElem_cons_succ] at hx
          exact hspec.strict_before j hj' (by omega) x hx
    · rw [if_neg hvm]
      rw [Bool.not_eq_true] at hvm
      have hspec := ih minItem minPos (i + 1) hne' (by omega)
      refine ⟨?_, hspec.val_keep, ?_, ?_, hspec.min_keep, hspec.strict_keep, ?_⟩
      · rcases hspec.pos_bound with h | h
        · exact Or.inl h
        · right
          simp at h ⊢
          omega
      · intro j hj hrj
        cases j with
        | zero =>
          exfalso
          rcases hspec.pos_bound with h | h <;> omega
        | succ j =>
          have hj' : j < rest.length := by simpa using hj
          rw [List.getElem_cons_succ]
          exact hspec.val_at j hj' (by omega)
      · intro t ht x hx
        rcases List.mem_cons.1 ht with rfl | ht
        · rw [hhd?] at hx
          injection hx with hx
          subst hx
          exact hswo.nlt_trans hspec.min_keep hvm
        · exact hspec.min_rest t ht x hx
      · intro j hj hij x hx
        cases j with
        | zero =>
          rw [List.getElem_cons_zero, hhd?] at hx
          injection hx with hx
          subst hx
          have hr : (scanMinLoop lt rest minItem minPos (i + 1)).1 ≠ minPos := by
            omega
          exact hswo.lt_of_lt_of_nlt (hspec.strict_keep hr) hvm
        | succ j =>
          have hj' : j < rest.length := by simpa using hj
          rw [List.getElem_cons_succ] at hx
          exact hspec.strict_before j hj' (by omega) x hx

/-- All slices on the work list are non-empty (the loop's invariant). -/
def allNE (srcs : List (List α × Nat)) : Prop := ∀ s ∈ srcs, s.1 ≠ []

/-- Total number of elements left on the work list. -/
def totalLen (srcs : List (List α × Nat)) : Nat :=
  (srcs.map (fun s => s.1.length)).sum

/-- Emission order: values ascend, and emissions with equivalent values have
non-decreasing source indices (the first-listed source wins ties). -/
def pairLe (lt : α → α → Bool) (e1 e2 : α × Nat) : Prop :=
  lt e2.1 e1.1 = false ∧ (lt e1.1 e2.1 = false → e1.2 ≤ e2.2)

/-- The remaining content of the source tagged `k` (empty when no source
carries the tag). -/
def tagSource (srcs : List (List α × Nat)) (k : Nat) : List α :=
  ((srcs.filter (fun s => s.2 = k)).headD ([], k)).1

theorem totalLen_append (l1 l2 : List (List α × Nat)) :
    totalLen (l1 ++ l2) = totalLen l1 + totalLen l2 := by
  simp [totalLen]

theorem totalLen_cons (s : List α × Nat) (l : List (List α × Nat)) :
    totalLen (s :: l) = s.1.length + totalLen l := by
  simp [totalLen]

/-- On a single source the loop plays out the remaining elements in order,
tagged with that source's index. -/
theorem iterLoop_single (lt : α → α → Bool) :
    ∀ (s : List α) (k : Nat) (fuel : Nat), s.length ≤ fuel →
    iterLoop lt fuel [(s, k)] = s.map (fun w => (w, k)) := by
  intro s
  induction s with
  | nil =>
    intro k fuel _
    cases fuel with
    | zero => rfl
    | succ fuel => rfl
  | cons v tl ih =>
    intro k fuel hfuel
    cases fuel with
    | zero => simp at hfuel
    | succ fuel =>
      rw [iterLoop]
      simp only [scanMinLoop, List.getD_cons_zero, List.map_cons]
      cases htl : tl with
      | nil =>
        simp only [htl, List.tail_cons, List.isEmpty_nil, if_true, List.eraseIdx]
        cases fuel <;> rfl
      | cons w tw =>
        simp only [List.tail_cons, htl, List.isEmpty_cons, List.set]
        rw [if_neg (by simp)]
        have hrec := ih k fuel (by simp at hfuel; omega)
        rw [htl] at hrec
        rw [hrec]

/-- A list decomposes around any in-range position. -/
theorem list_decomp {l : List (List α × Nat)} {p : Nat} (hp : p < l.length) :
    l = l.take p ++ l[p] :: l.drop (p + 1) := by
  conv_lhs => rw [← List.take_append_drop p l]
  congr 1
  exact List.drop_eq_getElem_cons hp

theorem set_decomp {l : List (List α × Nat)} {p : Nat} (hp : p < l.length)
    (x : List α × Nat) :
    l.set p x = l.take p ++ x :: l.drop (p + 1) := by
  rw [List.set_eq_take_append_cons_drop, if_pos hp]

theorem eraseIdx_decomp (l : List (List α × Nat)) (p : Nat) :
    l.eraseIdx p = l.take p ++ l.drop (p + 1) :=
  List.eraseIdx_eq_take_drop_succ l p

/-- In a sorted slice no element is less than the head. -/
theorem SortedRun.nlt_head (hswo : SWOrd lt) {l : List α} (hs : SortedRun lt l)
    {h : α} (hh : l.head? = some h) {x : α} (hx : x ∈ l) : lt x h = false := by
  cases l with
  | nil => simp at hh
  | cons a t =>
    injection hh with hh
    subst hh
    rcases List.mem_cons.1 hx with rfl | hx
    · exact hswo.irrefl x
    · exact (List.pairwise_cons.1 (hs.pairwise_nlt hswo)).1 x hx

/-- The scan facts at the level of the whole work list: the scan result is
an in-range position, the returned value is the head there, it is a global
minimum of the current heads, and it strictly beats every earlier head. -/
theorem scan_srcs_facts (hswo : SWOrd lt) (v0 : α) (s0t : List α) (k0 : Nat)
    (rest : List (List α × Nat)) (hne : allNE ((v0 :: s0t, k0) :: rest)) :
    (scanMinLoop lt rest v0 0 1).1 < ((v0 :: s0t, k0) :: rest).length ∧
    (((v0 :: s0t, k0) :: rest).getD (scanMinLoop lt rest v0 0 1).1
        ([], 0)).1.head? = some (scanMinLoop lt rest v0 0 1).2 ∧
    (∀ q (hq : q < ((v0 :: s0t, k0) :: rest).length) (x : α),
      (((v0 :: s0t, k0) :: rest)[q]).1.head? = some x →
      lt x (scanMinLoop lt rest v0 0 1).2 = false) ∧
    (∀ q (hq : q < ((v0 :: s0t, k0) :: rest).length),
      q < (scanMinLoop lt rest v0 0 1).1 → ∀ x : α,
      (((v0 :: s0t, k0) :: rest)[q]).1.head? = some x →
      lt (scanMinLoop lt rest v0 0 1).2 x = true) := by
  have hner : ∀ s ∈ rest, s.1 ≠ [] := fun s hs => hne s (by simp [hs])
  have hsp := scanMinLoop_spec hswo rest v0 0 1 hner (by omega)
  have hlt : (scanMinLoop lt rest v0 0 1).1 < ((v0 :: s0t, k0) :: rest).length := by
    rcases hsp.pos_bound with h | h
    · simp [h]
    · simp
      omega
  refine ⟨hlt, ?_, ?_, ?_⟩
  · rcases hsp.pos_bound with h | h
    · rw [List.getD_eq_getElem _ _ hlt]
      simp only [h, List.getElem_cons_zero]
      rw [hsp.val_keep h]
      rfl
    · obtain ⟨j, hj, hj2⟩ : ∃ j, j < rest.length ∧
          (scanMinLoop lt rest v0 0 1).1 = j + 1 := by
        refine ⟨(scanMinLoop lt rest v0 0 1).1 - 1, by omega, by omega⟩
      rw [hj2, List.getD_cons_succ, List.getD_eq_getElem _ _ hj]
      exact hsp.val_at j hj (by omega)
  · intro q hq x hx
    cases q with
    | zero =>
      rw [List.getElem_cons_zero] at hx
      injection hx with hx
      subst hx
      exact hsp.min_keep
    | succ q =>
      have hq' : q < rest.length := by simpa using hq
      rw [List.getElem_cons_succ] at hx
      exact hsp.min_rest _ (List.getElem_mem hq') x hx
  · intro q hq hqlt x hx
    cases q with
    | zero =>
      rw [List.getElem_cons_zero] at hx
      injection hx with hx
      subst hx
      exact hsp.strict_keep (by omega)
    | succ q =>
      have hq' : q < rest.length := by simpa using hq
      rw [List.getElem_cons_succ] at hx
      exact hsp.strict_before q hq' (by omega) x hx

theorem mem_take_pos {l : List (List α × Nat)} {p : Nat}
    {s : List α × Nat} (hs : s ∈ l.take p) :
    ∃ q, q < p ∧ ∃ hq : q < l.length, l[q] = s := by
  rcases List.mem_iff_getElem.1 hs with ⟨q, hq, hget⟩
  rw [List.length_take] at hq
  refine ⟨q, by omega, by omega, ?_⟩
  rw [← hget, List.getElem_take]

theorem mem_drop_pos {l : List (List α × Nat)} {p : Nat}
    {s : List α × Nat} (hs : s ∈ l.drop (p + 1)) :
    ∃ q, p < q ∧ ∃ hq : q < l.length, l[q] = s := by
  rcases List.mem_iff_getElem.1 hs with ⟨i, hi, hget⟩
  rw [List.length_drop] at hi
  refine ⟨p + 1 + i, by omega, by omega, ?_⟩
  rw [← hget, List.getElem_drop]

/-- Lower bound for a work list: every remaining element is at least `b.1`,
and elements equivalent to `b.1` live in sources with index at least
`b.2`. -/
def LBnd (lt : α → α → Bool) (b : α × Nat) (srcs : List (List α × Nat)) : Prop :=
  ∀ s ∈ srcs, ∀ x ∈ s.1, lt x b.1 = false ∧ (lt b.1 x = false → b.2 ≤ s.2)

/-- The four correctness facts about an emission trace `tr` produced from
the work list `srcs`: the values are a permutation of the remaining
elements; emissions ascend with ties ordered by source index; the
emissions attributed to tag `k` are exactly the remaining content of the
source tagged `k`, in order; and every emission respects a lower bound of
the work list. -/
def IterConcl (lt : α → α → Bool) (srcs : List (List α × Nat))
    (tr : List (α × Nat)) : Prop :=
  (tr.map Prod.fst).Perm ((srcs.map (fun s => s.1)).join) ∧
  List.Chain' (pairLe lt) tr ∧
  (∀ k : Nat, (tr.filter (fun e => e.2 = k)).map Prod.fst = tagSource srcs k) ∧
  (∀ b : α × Nat, LBnd lt b srcs → ∀ e ∈ tr, pairLe lt b e)

theorem totalLen_eq_join_length (l : List (List α × Nat)) :
    totalLen l = ((l.map (fun s => s.1)).join).length := by
  induction l with
  | nil => simp [totalLen]
  | cons m t iht => simp [totalLen_cons, iht]

theorem IterConcl_nil (lt : α → α → Bool) : IterConcl lt [] [] := by
  refine ⟨?_, ?_, ?_, ?_⟩
  · simp only [List.map_nil, List.join_nil]
    exact List.Perm.nil
  · exact List.chain'_nil
  · intro k
    simp [tagSource]
  · intro b _ e he
    simp at he

/-- The heart of the `mergeIterate` proof: one emission step.  `p` is the
position selected by the scan, `v` the head there (a global minimum of the
current heads that strictly beats every earlier head), and `mid` is what
replaces the selected source on the work list (its non-empty tail, or
nothing when it is exhausted). -/
theorem iterLoop_next_spec (hswo : SWOrd lt) (fuel : Nat)
    (IH : ∀ srcs : List (List α × Nat), totalLen srcs ≤ fuel → allNE srcs →
      List.Pairwise (fun a b => a.2 < b.2) srcs →
      (∀ s ∈ srcs, SortedRun lt s.1) →
      IterConcl lt srcs (iterLoop lt fuel srcs))
    {S : List (List α × Nat)} {p : Nat} {v : α}
    (hp : p < S.length)
    (hval : S[p].1.head? = some v)
    (hmin : ∀ q (hq : q < S.length) (x : α),
      (S[q]).1.head? = some x → lt x v = false)
    (hstrict : ∀ q (hq : q < S.length), q < p → ∀ x : α,
      (S[q]).1.head? = some x → lt v x = true)
    (htot : totalLen S ≤ fuel + 1)
    (hne : allNE S)
    (htags : List.Pairwise (fun a b => a.2 < b.2) S)
    (hsort : ∀ s ∈ S, SortedRun lt s.1)
    (mid : List (List α × Nat))
    (hmid_len : mid.length ≤ 1)
    (hmid_ne : allNE mid)
    (hmid_tag : ∀ s ∈ mid, s.2 = S[p].2)
    (hmid_sub : ∀ s ∈ mid, ∀ x ∈ s.1, x ∈ S[p].1)
    (hmid_sort : ∀ s ∈ mid, SortedRun lt s.1)
    (hmid_join : (mid.map (fun s => s.1)).join = S[p].1.tail)
    (hmid_self : ((mid.filter (fun s => s.2 = S[p].2)).headD
      ([], S[p].2)).1 = S[p].1.tail)
    (hmid_other : ∀ k : Nat, k ≠ S[p].2 →
      mid.filter (fun s => s.2 = k) = []) :
    IterConcl lt S
      ((v, S[p].2) :: iterLoop lt fuel (S.take p ++ mid ++ S.drop (p + 1))) := by
  have hchoose : S[p].1 = v :: S[p].1.tail := by
    cases hc : S[p].1 with
    | nil => rw [hc] at hval; simp at hval
    | cons a t =>
      rw [hc] at hval
      injection hval with hv
      rw [hv]
      rfl
  have hdec := list_decomp hp
  have hsTake : ∀ s ∈ S.take p, s ∈ S := fun s hs => List.mem_of_mem_take hs
  have hsDrop : ∀ s ∈ S.drop (p + 1), s ∈ S := fun s hs => List.mem_of_mem_drop hs
  have hpTags := (List.pairwise_iff_getElem).1 htags
  -- head of any source in terms of positions
  have hheadOf : ∀ q (hq : q < S.length), ∃ h0, (S[q]).1.head? = some h0 := by
    intro q hq
    obtain ⟨a, t, hat⟩ :=
      List.exists_cons_of_ne_nil (hne _ (List.getElem_mem hq))
    exact ⟨a, by rw [hat]; rfl⟩
  -- every element of a source at position q < p is strictly above v
  have hbefore : ∀ q (hq : q < S.length), q < p → ∀ x ∈ (S[q]).1,
      lt v x = true := by
    intro q hq hqp x hx
    obtain ⟨h0, hh0⟩ := hheadOf q hq
    have hvh0 := hstrict q hq hqp h0 hh0
    have hxh0 : lt x h0 = false :=
      SortedRun.nlt_head hswo (hsort _ (List.getElem_mem hq)) hh0 hx
    exact hswo.lt_of_lt_of_nlt hvh0 hxh0
  -- every element of any source is at least v
  have hallge : ∀ q (hq : q < S.length), ∀ x ∈ (S[q]).1,
      lt x v = false := by
    intro q hq x hx
    obtain ⟨h0, hh0⟩ := hheadOf q hq
    have hh0v := hmin q hq h0 hh0
    have hxh0 : lt x h0 = false :=
      SortedRun.nlt_head hswo (hsort _ (List.getElem_mem hq)) hh0 hx
    exact hswo.nlt_trans hh0v hxh0
  -- the work list after the step
  have hneN : allNE (S.take p ++ mid ++ S.drop (p + 1)) := by
    intro s hs
    rcases List.mem_append.1 hs with hs | hs
    · rcases List.mem_append.1 hs with hs | hs
      · exact hne s (hsTake s hs)
      · exact hmid_ne s hs
    · exact hne s (hsDrop s hs)
  have htagTake : ∀ s ∈ S.take p, s.2 < S[p].2 := by
    intro s hs
    obtain ⟨q, hqp, hq, hqeq⟩ := mem_take_pos hs
    rw [← hqeq]
    exact hpTags q p hq hp hqp
  have htagDrop : ∀ s ∈ S.drop (p + 1), S[p].2 < s.2 := by
    intro s hs
    obtain ⟨q, hqp, hq, hqeq⟩ := mem_drop_pos hs
    rw [← hqeq]
    exact hpTags p q hp hq hqp
  have htagsN : List.Pairwise (fun a b => a.2 < b.2)
      (S.take p ++ mid ++ S.drop (p + 1)) := by
    rw [hdec] at htags
    rw [List.pairwise_append] at htags ⊢
    rw [List.pairwise_append]
    obtain ⟨htake, hconsdrop, hcross⟩ := htags
    rw [List.pairwise_cons] at hconsdrop
    refine ⟨⟨htake, ?_, ?_⟩, hconsdrop.2, ?_⟩
    · cases mid with
      | nil => simp
      | cons m t =>
        cases t with
        | nil => simp
        | cons m2 t2 => simp at hmid_len
    · intro a ha b hb
      have hb2 := hmid_tag b hb
      rw [hb2]
      have ha' : a ∈ S.take p := ha
      obtain ⟨q, hqp, hq, hqeq⟩ := mem_take_pos ha'
      rw [← hqeq]
      exact hpTags q p hq hp hqp
    · intro a ha b hb
      rcases List.mem_append.1 ha with ha | ha
      · exact hcross a ha b (List.mem_cons_of_mem _ hb)
      · rw [hmid_tag a ha]
        exact hconsdrop.1 b hb
  have hsortN : ∀ s ∈ S.take p ++ mid ++ S.drop (p + 1), SortedRun lt s.1 := by
    intro s hs
    rcases List.mem_append.1 hs with hs | hs
    · rcases List.mem_append.1 hs with hs | hs
      · exact hsort s (hsTake s hs)
      · exact hmid_sort s hs
    · exact hsort s (hsDrop s hs)
  have htotN : totalLen (S.take p ++ mid ++ S.drop (p + 1)) ≤ fuel := by
    have h1 : totalLen S = totalLen (S.take p) + (S[p].1.length) +
        totalLen (S.drop (p + 1)) := by
      conv_lhs => rw [hdec]
      rw [totalLen_append, totalLen_cons]
      omega
    have h2 : totalLen mid = S[p].1.tail.length := by
      rw [totalLen_eq_join_length, hmid_join]
    have h3 : S[p].1.length = S[p].1.tail.length + 1 := by
      rw [hchoose]
      simp
    rw [totalLen_append, totalLen_append]
    omega
  have ihN := IH (S.take p ++ mid ++ S.drop (p + 1)) htotN hneN htagsN hsortN
  obtain ⟨ihPerm, ihChain, ihFilter, ihBound⟩ := ihN
  -- the lower bound (v, S[p].2) holds on the new work list
  have hLBnext : LBnd lt (v, S[p].2) (S.take p ++ mid ++ S.drop (p + 1)) := by
    intro s hs x hx
    rcases List.mem_append.1 hs with hs | hs
    · rcases List.mem_append.1 hs with hs | hs
      · obtain ⟨q, hqp, hq, hqeq⟩ := mem_take_pos hs
        have hvx : lt v x = true := by
          apply hbefore q hq hqp
          rw [hqeq]
          exact hx
        refine ⟨hswo.asymm hvx, ?_⟩
        intro hcon
        rw [hvx] at hcon
        simp at hcon
      · constructor
        · apply hallge p hp
          exact hmid_sub s hs x hx
        · intro _
          rw [hmid_tag s hs]
    · obtain ⟨q, hqp, hq, hqeq⟩ := mem_drop_pos hs
      constructor
      · apply hallge q hq
        rw [hqeq]
        exact hx
      · intro _
        have := hpTags p q hp hq hqp
        rw [hqeq] at this
        omega
  refine ⟨?_, ?_, ?_, ?_⟩
  · -- permutation
    rw [List.map_cons]
    have hjoinS : ((S.map (fun s => s.1)).join) =
        ((S.take p).map (fun s => s.1)).join ++
          ((v :: S[p].1.tail) ++
            ((S.drop (p + 1)).map (fun s => s.1)).join) := by
      conv_lhs => rw [hdec]
      simp only [List.map_append, List.map_cons, List.join_append,
        List.join_cons]
      rw [← hchoose]
    have hjoinN : (((S.take p ++ mid ++ S.drop (p + 1)).map
        (fun s => s.1)).join) =
        ((S.take p).map (fun s => s.1)).join ++ (S[p].1.tail ++
          ((S.drop (p + 1)).map (fun s => s.1)).join) := by
      simp only [List.map_append, List.join_append, hmid_join,
        List.append_assoc]
    rw [hjoinS]
    have h4 : ((iterLoop lt fuel (S.take p ++ mid ++ S.drop (p + 1))).map
        Prod.fst).Perm
        (((S.take p).map (fun s => s.1)).join ++ (S[p].1.tail ++
          ((S.drop (p + 1)).map (fun s => s.1)).join)) := hjoinN ▸ ihPerm
    apply List.Perm.trans (List.Perm.cons v h4)
    rw [List.cons_append]
    exact List.perm_middle.symm
  · -- emission chain
    rw [List.chain'_cons']
    constructor
    · intro h2 hh2
      exact ihBound (v, S[p].2) hLBnext h2 (List.mem_of_mem_head? hh2)
    · exact ihChain
  · -- per-tag attribution
    intro k
    by_cases hk : k = S[p].2
    · subst hk
      rw [List.filter_cons]
      rw [if_pos (by simp)]
      rw [List.map_cons, ihFilter (S[p].2)]
      have htakeNil : (S.take p).filter (fun s => s.2 = S[p].2) = [] := by
        rw [List.filter_eq_nil_iff]
        intro s hs
        have hst := htagTake s hs
        simp only [decide_eq_true_eq]
        omega
      have hdropNil : (S.drop (p + 1)).filter (fun s => s.2 = S[p].2) = [] := by
        rw [List.filter_eq_nil_iff]
        intro s hs
        have hst := htagDrop s hs
        simp only [decide_eq_true_eq]
        omega
      have hfS := congrArg
        (List.filter (fun s => decide (s.2 = S[p].2))) hdec
      rw [List.filter_append, List.filter_cons, htakeNil, if_pos (by simp),
        hdropNil] at hfS
      have hS : tagSource S (S[p].2) = S[p].1 := by
        rw [tagSource, hfS]
        simp
      have hN : tagSource (S.take p ++ mid ++ S.drop (p + 1)) (S[p].2) =
          S[p].1.tail := by
        rw [tagSource, List.filter_append, List.filter_append, htakeNil,
          hdropNil]
        simp only [List.nil_append, List.append_nil]
        exact hmid_self
      rw [hN, hS, hchoose]
      simp
    · rw [List.filter_cons]
      rw [if_neg (by simp only [decide_eq_true_eq]; omega)]
      rw [ihFilter k]
      have hmidNil := hmid_other k hk
      have hfS := congrArg (List.filter (fun s => decide (s.2 = k))) hdec
      have hcneg : ¬(decide (S[p].2 = k) = true) := by
        simp only [decide_eq_true_eq]
        omega
      rw [List.filter_append, List.filter_cons, if_neg hcneg] at hfS
      rw [tagSource, tagSource, List.filter_append, List.filter_append,
        hmidNil, hfS]
      simp
  · -- lower bounds
    intro b hb e he
    rcases List.mem_cons.1 he with rfl | he
    · have hbp := hb (S[p]) (List.getElem_mem hp) v (by rw [hchoose]; simp)
      exact hbp
    · apply ihBound b _ e he
      intro s hs x hx
      rcases List.mem_append.1 hs with hs | hs
      · rcases List.mem_append.1 hs with hs | hs
        · exact hb s (hsTake s hs) x hx
        · have hxs := hmid_sub s hs x hx
          have := hb (S[p]) (List.getElem_mem hp) x hxs
          rw [hmid_tag s hs]
          exact this
      · exact hb s (hsDrop s hs) x hx

/-- Full correctness of the k-way merge loop. -/
theorem iterLoop_spec (hswo : SWOrd lt) :
    ∀ (fuel : Nat) (srcs : List (List α × Nat)),
      totalLen srcs ≤ fuel → allNE srcs →
      List.Pairwise (fun a b => a.2 < b.2) srcs →
      (∀ s ∈ srcs, SortedRun lt s.1) →
      IterConcl lt srcs (iterLoop lt fuel srcs) := by
  intro fuel
  induction fuel with
  | zero =>
    intro srcs htot hne _ _
    have hnil : srcs = [] := by
      cases hs : srcs with
      | nil => rfl
      | cons s t =>
        exfalso
        have h1 := hne s (by rw [hs]; simp)
        have h2 : 1 ≤ s.1.length := by
          cases hc : s.1 with
          | nil => exact absurd hc h1
          | cons a b => simp [hc]
        rw [hs, totalLen_cons] at htot
        omega
    subst hnil
    exact IterConcl_nil lt
  | succ fuel ih =>
    intro srcs htot hne htags hsort
    cases srcs with
    | nil =>
      rw [show iterLoop lt (fuel + 1) [] = [] from rfl]
      exact IterConcl_nil lt
    | cons s0 rest =>
      obtain ⟨s0l, k0⟩ := s0
      cases s0l with
      | nil => exact absurd rfl (hne ([], k0) (by simp))
      | cons v0 s0t =>
        obtain ⟨hp, hheadD, hmin, hstrict⟩ :=
          scan_srcs_facts hswo v0 s0t k0 rest hne
        have hgetD : ((v0 :: s0t, k0) :: rest).getD
            (scanMinLoop lt rest v0 0 1).1 ([], 0) =
            ((v0 :: s0t, k0) :: rest)[(scanMinLoop lt rest v0 0 1).1] :=
          List.getD_eq_getElem _ _ hp
        rw [hgetD] at hheadD
        have hchoose : ((v0 :: s0t, k0) ::
            rest)[(scanMinLoop lt rest v0 0 1).1].1 =
            (scanMinLoop lt rest v0 0 1).2 :: ((v0 :: s0t, k0) ::
              rest)[(scanMinLoop lt rest v0 0 1).1].1.tail := by
          obtain ⟨a, t, hat⟩ := List.exists_cons_of_ne_nil
            (hne _ (List.getElem_mem hp))
          rw [hat] at hheadD ⊢
          injection hheadD with hv
          rw [← hv]
          rfl
        rw [iterLoop]
        simp only [hgetD]
        by_cases htl : ((v0 :: s0t, k0) ::
            rest)[(scanMinLoop lt rest v0 0 1).1].1.tail.isEmpty = true
        · rw [if_pos htl]
          have htlnil : ((v0 :: s0t, k0) ::
              rest)[(scanMinLoop lt rest v0 0 1).1].1.tail = [] :=
            List.isEmpty_iff.1 htl
          have hlen1 : ((v0 :: s0t, k0) ::
              rest)[(scanMinLoop lt rest v0 0 1).1].1.length = 1 := by
            rw [hchoose, htlnil]
            rfl
          have htoterase : totalLen (((v0 :: s0t, k0) :: rest).eraseIdx
              (scanMinLoop lt rest v0 0 1).1) + 1 =
              totalLen ((v0 :: s0t, k0) :: rest) := by
            rw [eraseIdx_decomp]
            conv_rhs => rw [list_decomp hp]
            rw [totalLen_append, totalLen_append, totalLen_cons, hlen1]
            omega
          have hstep : (match ((v0 :: s0t, k0) :: rest).eraseIdx
              (scanMinLoop lt rest v0 0 1).1 with
                | [last] => last.1.map (fun w => (w, last.2))
                | rem => iterLoop lt fuel rem) =
              iterLoop lt fuel (((v0 :: s0t, k0) :: rest).eraseIdx
                (scanMinLoop lt rest v0 0 1).1) := by
            rcases herase : ((v0 :: s0t, k0) :: rest).eraseIdx
                (scanMinLoop lt rest v0 0 1).1 with _ | ⟨last, rest2⟩
            · rfl
            · cases rest2 with
              | nil =>
                have hfuel2 : last.1.length ≤ fuel := by
                  rw [herase, totalLen_cons] at htoterase
                  rw [totalLen] at htoterase
                  simp at htoterase
                  omega
                exact (iterLoop_single lt last.1 last.2 fuel hfuel2).symm
              | cons b t2 => rfl
          rw [hstep]
          rw [eraseIdx_decomp]
          have happly := iterLoop_next_spec hswo fuel ih hp hheadD hmin
            hstrict htot hne htags hsort []
            (by simp) (by intro s hs; simp at hs)
            (by intro s hs; simp at hs) (by intro s hs; simp at hs)
            (by intro s hs; simp at hs)
            (by rw [htlnil]; rfl)
            (by rw [htlnil]; rfl)
            (by intro k _; rfl)
          simpa using happly
        · rw [if_neg htl]
          have htlne : ((v0 :: s0t, k0) ::
              rest)[(scanMinLoop lt rest v0 0 1).1].1.tail ≠ [] := by
            intro hcon
            rw [hcon] at htl
            simp at htl
          rw [set_decomp hp]
          have happly := iterLoop_next_spec hswo fuel ih hp hheadD hmin
            hstrict htot hne htags hsort
            [(((v0 :: s0t, k0) ::
              rest)[(scanMinLoop lt rest v0 0 1).1].1.tail,
              ((v0 :: s0t, k0) :: rest)[(scanMinLoop lt rest v0 0 1).1].2)]
            (by simp)
            (by intro s hs
                rcases List.mem_singleton.1 hs with rfl
                exact htlne)
            (by intro s hs
                rcases List.mem_singleton.1 hs with rfl
                rfl)
            (by intro s hs x hx
                rcases List.mem_singleton.1 hs with rfl
                rw [hchoose]
                exact List.mem_cons_of_mem _ hx)
            (by intro s hs
                rcases List.mem_singleton.1 hs with rfl
                exact List.Chain'.tail
                  (hsort _ (List.getElem_mem hp)))
            (by simp)
            (by simp)
            (by intro k hkk
                simp only [List.filter_cons, List.filter_nil]
                rw [if_neg (by simp only [decide_eq_true_eq]; omega)])
          simpa using happly

theorem enumFrom_map_fst {β : Type} (l : List β) :
    ∀ n : Nat, ((l.enumFrom n).map (fun p => (p.2, p.1))).map (fun s => s.1) =
      l := by
  induction l with
  | nil => intro n; rfl
  | cons x t ih =>
    intro n
    simp only [List.enumFrom, List.map_cons]
    rw [ih (n + 1)]

theorem enumFrom_totalLen (l : List (List α)) :
    ∀ n : Nat, totalLen ((l.enumFrom n).map (fun p => (p.2, p.1))) =
      (l.map List.length).sum := by
  induction l with
  | nil => intro n; rfl
  | cons x t ih =>
    intro n
    simp only [List.enumFrom, List.map_cons, totalLen_cons, List.sum_cons]
    rw [ih (n + 1)]

theorem enumFrom_mem_src (l : List (List α)) :
    ∀ (n : Nat) (s : List α × Nat),
      s ∈ (l.enumFrom n).map (fun p => (p.2, p.1)) → s.1 ∈ l ∧ n ≤ s.2 := by
  induction l with
  | nil => intro n s hs; simp [List.enumFrom] at hs
  | cons x t ih =>
    intro n s hs
    simp only [List.enumFrom, List.map_cons, List.mem_cons] at hs
    rcases hs with rfl | hs
    · exact ⟨by simp, le_rfl⟩
    · obtain ⟨h1, h2⟩ := ih (n + 1) s hs
      exact ⟨List.mem_cons_of_mem _ h1, by omega⟩

theorem enumFrom_tags_pairwise (l : List (List α)) :
    ∀ n : Nat, List.Pairwise (fun a b => a.2 < b.2)
      ((l.enumFrom n).map (fun p => (p.2, p.1))) := by
  induction l with
  | nil => intro n; simp [List.enumFrom]
  | cons x t ih =>
    intro n
    simp only [List.enumFrom, List.map_cons]
    rw [List.pairwise_cons]
    refine ⟨?_, ih (n + 1)⟩
    intro s hs
    have := (enumFrom_mem_src t (n + 1) s hs).2
    simpa using this

theorem tagSource_enumFrom (l : List (List α)) :
    ∀ (n k : Nat),
      tagSource ((l.enumFrom n).map (fun p => (p.2, p.1))) (n + k) =
        l.getD k [] := by
  induction l with
  | nil => intro n k; simp [List.enumFrom, tagSource]
  | cons x t ih =>
    intro n k
    simp only [List.enumFrom, List.map_cons]
    rw [tagSource, List.filter_cons]
    cases k with
    | zero =>
      rw [if_pos (by simp)]
      simp
    | succ k =>
      rw [if_neg (by simp only [decide_eq_true_eq]; omega)]
      have := ih (n + 1) k
      rw [tagSource] at this
      rw [show n + (k + 1) = (n + 1) + k by omega]
      rw [this]
      simp

theorem chain'_pairLe_enumFrom {s : List α} (hs : SortedRun lt s) :
    ∀ n : Nat, List.Chain' (pairLe lt)
      ((s.enumFrom n).map (fun p => (p.2, p.1))) := by
  induction s with
  | nil => intro n; simp [List.enumFrom]
  | cons x t ih =>
    intro n
    cases t with
    | nil => simp [List.enumFrom]
    | cons y t2 =>
      rw [SortedRun, List.chain'_cons] at hs
      have hrest := ih hs.2 (n + 1)
      simp only [List.enumFrom, List.map_cons] at hrest ⊢
      rw [List.chain'_cons]
      refine ⟨⟨hs.1, fun _ => by omega⟩, hrest⟩

theorem join_filter_isEmpty (l : List (List α)) :
    (l.filter (fun s => ! s.isEmpty)).join = l.join := by
  induction l with
  | nil => rfl
  | cons x t ih =>
    rw [List.filter_cons]
    by_cases hx : x.isEmpty = true
    · rw [if_neg (by simp [hx])]
      rw [ih, List.isEmpty_iff.1 hx]
      simp
    · rw [if_pos (by simp [hx])]
      simp [ih]

theorem sortedRun_of_chain_pairLe {tr : List (α × Nat)}
    (h : List.Chain' (pairLe lt) tr) : SortedRun lt (tr.map Prod.fst) := by
  rw [SortedRun, List.chain'_map]
  exact List.Chain'.imp (fun a b hp => hp.1) h

/-- C7 counterexample: the claim states `callback` always receives the
source index of the input the value came from.  With the single input
`[5,6]` (source index `0`) the shortcut path passes the element index: the
second invocation reports source `1`, which does not exist.  With inputs
`[[], [10], [20]]` the multi-source path numbers the nonempty sources
`0,1`, so the values from inputs `1` and `2` are reported as coming from
sources `0` and `1`. -/
theorem C7_iterate_counterexample :
    ValueTypeIterateOver intLt [[5, 6]] = [(5, 0), (6, 1)] ∧
    ValueTypeIterateOver intLt [[5, 6]] ≠ [(5, 0), (6, 0)] ∧
    ValueTypeIterateOver intLt [[], [10], [20]] = [(10, 0), (20, 1)] := by
  refine ⟨by decide, by decide, by decide⟩

/-- C7 (amended): `mergeIterate` invokes the callback exactly once per
element of every input (the emitted values are a permutation of all
elements), in globally ascending order; emissions with equivalent values
have non-decreasing source indices, so ties are won by the first-listed
source.  The reported `srcIndex`, however, is not the position in the
argument list: when exactly one input is non-empty the callback receives
the element's index within that input, and otherwise it receives the
input's position among the non-empty inputs (empty inputs shift the
numbering). -/
theorem C7_mergeIterate_trace (hswo : SWOrd lt) (sorted : List (List α))
    (hsorted : ∀ s ∈ sorted, SortedRun lt s) :
    ((ValueTypeIterateOver lt sorted).map Prod.fst).Perm sorted.join ∧
    SortedRun lt ((ValueTypeIterateOver lt sorted).map Prod.fst) ∧
    List.Chain' (pairLe lt) (ValueTypeIterateOver lt sorted) ∧
    ((sorted.filter (fun s => ! s.isEmpty)).length = 1 →
      ValueTypeIterateOver lt sorted =
        ((sorted.filter (fun s => ! s.isEmpty)).headD []).enum.map
          (fun p => (p.2, p.1))) ∧
    (2 ≤ (sorted.filter (fun s => ! s.isEmpty)).length →
      ∀ k : Nat, ((ValueTypeIterateOver lt sorted).filter
          (fun e => e.2 = k)).map Prod.fst =
        (sorted.filter (fun s => ! s.isEmpty)).getD k []) := by
  have hjoin := join_filter_isEmpty sorted
  have hmemflt : ∀ s ∈ sorted.filter (fun s => ! s.isEmpty),
      SortedRun lt s ∧ s ≠ [] := by
    intro s hs
    rw [List.mem_filter] at hs
    refine ⟨hsorted s hs.1, ?_⟩
    intro hcon
    rw [hcon] at hs
    simp at hs
  rcases hflt : sorted.filter (fun s => ! s.isEmpty)
    with _ | ⟨s1, _ | ⟨s2, srest⟩⟩
  · have htr : ValueTypeIterateOver lt sorted = [] := by
      rw [ValueTypeIterateOver, hflt]
    rw [htr, ← hjoin, hflt]
    refine ⟨by simp [List.Perm.refl], by simp [SortedRun], by simp, ?_, ?_⟩
    · intro hcon
      simp at hcon
    · intro hcon
      simp at hcon
  · -- single non-empty source: the shortcut path
    have htr : ValueTypeIterateOver lt sorted =
        s1.enum.map (fun p => (p.2, p.1)) := by
      rw [ValueTypeIterateOver, hflt]
    obtain ⟨hs1sorted, hs1ne⟩ := hmemflt s1 (by rw [hflt]; simp)
    have hvals : (ValueTypeIterateOver lt sorted).map Prod.fst = s1 := by
      rw [htr, List.enum]
      show List.map (fun s : α × Nat => s.1) _ = s1
      exact enumFrom_map_fst s1 0
    refine ⟨?_, ?_, ?_, ?_, ?_⟩
    · rw [hvals, ← hjoin, hflt]
      simp [List.Perm.refl]
    · rw [hvals]
      exact hs1sorted
    · rw [htr, List.enum]
      exact chain'_pairLe_enumFrom hs1sorted 0
    · intro _
      rw [htr, hflt]
      rfl
    · intro hcon
      rw [hflt] at hcon
      simp at hcon
  · -- at least two non-empty sources: the k-way loop
    have htr : ValueTypeIterateOver lt sorted =
        iterLoop lt (((s1 :: s2 :: srest).map List.length).sum)
          ((s1 :: s2 :: srest).enum.map (fun p => (p.2, p.1))) := by
      rw [ValueTypeIterateOver, hflt]
    have hmem2 : ∀ s ∈ (s1 :: s2 :: srest).enum.map (fun p => (p.2, p.1)),
        SortedRun lt s.1 ∧ s.1 ≠ [] := by
      intro s hs
      rw [List.enum] at hs
      have h1 := (enumFrom_mem_src _ 0 s hs).1
      have h2 := hmemflt s.1 (by rw [hflt]; exact h1)
      exact h2
    have hconcl := iterLoop_spec hswo
      (((s1 :: s2 :: srest).map List.length).sum)
      ((s1 :: s2 :: srest).enum.map (fun p => (p.2, p.1)))
      (by rw [List.enum, enumFrom_totalLen])
      (fun s hs => (hmem2 s hs).2)
      (by rw [List.enum]; exact enumFrom_tags_pairwise _ 0)
      (fun s hs => (hmem2 s hs).1)
    obtain ⟨hPerm, hChain, hFilter, _⟩ := hconcl
    refine ⟨?_, ?_, ?_, ?_, ?_⟩
    · rw [htr, ← hjoin, hflt]
      apply hPerm.trans
      rw [List.enum]
      have := enumFrom_map_fst (s1 :: s2 :: srest) 0
      rw [this]
    · rw [htr]
      exact sortedRun_of_chain_pairLe hChain
    · rw [htr]
      exact hChain
    · intro hcon
      rw [hflt] at hcon
      simp at hcon
    · intro _ k
      rw [htr, hFilter k, List.enum]
      have := tagSource_enumFrom (s1 :: s2 :: srest) 0 k
      rw [Nat.zero_add] at this
      rw [this, hflt]

/-- C7 witness: the amended theorem applied to the inputs `[[1,4],[2,3]]`
under the `int` comparator. -/
theorem C7_mergeIterate_witness :
    (∀ s ∈ ([[1, 4], [2, 3]] : List (List Int)), SortedRun intLt s) ∧
    ((ValueTypeIterateOver intLt [[1, 4], [2, 3]]).map Prod.fst).Perm
      ([[1, 4], [2, 3]] : List (List Int)).join ∧
    SortedRun intLt ((ValueTypeIterateOver intLt [[1, 4], [2, 3]]).map
      Prod.fst) := by
  have hs : ∀ s ∈ ([[1, 4], [2, 3]] : List (List Int)), SortedRun intLt s := by
    decide
  have h := C7_mergeIterate_trace swo_intLt [[1, 4], [2, 3]] hs
  exact ⟨hs, h.1, h.2.1⟩

/-- C9 witness: the round-trip theorem applied to the sorted sequence
`[1,3,5]` and item `3`. -/
theorem C9_insert_remove_witness :
    SortedRun intLt [1, 3, 5] ∧
    SortedRun intLt (ValueTypeInsert [1, 3, 5] (3 : Int) intLt) ∧
    (3 : Int) ∈ ValueTypeInsert [1, 3, 5] (3 : Int) intLt ∧
    ValueTypeRemove (ValueTypeInsert [1, 3, 5] (3 : Int) intLt) 3 intLt =
      some [1, 3, 5] :=
  ⟨by decide, C9_insert_remove_roundtrip swo_intLt (by decide) 3⟩

/- ----------------------------------------------------------------
   The pending-run stack of the timsort handler (src/unnamed/part_001).
   Only the state touched by newTimSort, pushRun, mergeCollapse and the
   stack bookkeeping of mergeAt is carried: runBase and runLen are the
   fixed-capacity int arrays allocated by newTimSort, stackSize the fill
   counter.  A Go array write out of bounds is a runtime panic, modelled
   by lset returning none.
   ---------------------------------------------------------------- -/

structure TSStack where
  runBase : List Nat
  runLen : List Nat
  stackSize : Nat
deriving DecidableEq

def lset {β : Type} : List β → Nat → β → Option (List β)
  | [], _, _ => none
  | _ :: t, 0, v => some (v :: t)
  | x :: t, i + 1, v => (lset t i v).map (fun t2 => x :: t2)

def stackLenFor (n : Nat) : Nat :=
  if n < 120 then 5
  else if n < 1542 then 10
  else if n < 119151 then 19
  else 40

def newTimSortStack (n : Nat) : TSStack :=
  ⟨List.replicate (stackLenFor n) 0, List.replicate (stackLenFor n) 0, 0⟩

def pushRun (s : TSStack) (runBase runLen : Nat) : Option TSStack := do
  let rb ← lset s.runBase s.stackSize runBase
  let rl ← lset s.runLen s.stackSize runLen
  pure ⟨rb, rl, s.stackSize + 1⟩

/- Stack-level projection of mergeAt: its assertion checks and its run
   bookkeeping (combine the two lengths, slide the last run over when i
   is the antepenultimate, pop).  The element-level merge that follows in
   the source mutates only a, tmp and minGallop, never the run stack. -/
def mergeAtStack (s : TSStack) (i : Nat) : Except String TSStack :=
  if s.stackSize < 2 then .error "stackSize >= 2"
  else if ¬ (i + 2 = s.stackSize ∨ i + 3 = s.stackSize) then
    .error "if i == stackSize - 2 || i == stackSize - 3"
  else
    let base1 := s.runBase.getD i 0
    let len1 := s.runLen.getD i 0
    let base2 := s.runBase.getD (i + 1) 0
    let len2 := s.runLen.getD (i + 1) 0
    if len1 = 0 ∨ len2 = 0 then .error "len1 > 0 && len2 > 0"
    else if ¬ base1 + len1 = base2 then .error "base1 + len1 == base2"
    else
      match lset s.runLen i (len1 + len2) with
      | none => .error "index out of range"
      | some rl1 =>
        if i + 3 = s.stackSize then
          match lset s.runBase (i + 1) (s.runBase.getD (i + 2) 0),
              lset rl1 (i + 1) (rl1.getD (i + 2) 0) with
          | some rb2, some rl2 => .ok ⟨rb2, rl2, s.stackSize - 1⟩
          | _, _ => .error "index out of range"
        else .ok ⟨s.runBase, rl1, s.stackSize - 1⟩

/- mergeCollapse: merges until the run-stack invariants hold again.  The
   loop pops one run per merge, so stackSize + 1 rounds always suffice;
   running out of fuel is unreachable. -/
def mergeCollapseLoop : Nat → TSStack → Except String TSStack
  | 0, _ => .error "fuel exhausted"
  | fuel + 1, s =>
    if 1 < s.stackSize then
      let n := s.stackSize - 2
      if (0 < n ∧ s.runLen.getD (n - 1) 0 ≤
            s.runLen.getD n 0 + s.runLen.getD (n + 1) 0) ∨
         (1 < n ∧ s.runLen.getD (n - 2) 0 ≤
            s.runLen.getD (n - 1) 0 + s.runLen.getD n 0) then
        let n2 := if s.runLen.getD (n - 1) 0 < s.runLen.getD (n + 1) 0
          then n - 1 else n
        match mergeAtStack s n2 with
        | .error e => .error e
        | .ok s2 => mergeCollapseLoop fuel s2
      else if s.runLen.getD n 0 ≤ s.runLen.getD (n + 1) 0 then
        match mergeAtStack s n with
        | .error e => .error e
        | .ok s2 => mergeCollapseLoop fuel s2
      else .ok s
    else .ok s

def mergeCollapse (s : TSStack) : Except String TSStack :=
  mergeCollapseLoop (s.stackSize + 1) s

/- minRunLength: n is halved each round, so n rounds of fuel suffice. -/
def minRunLoop : Nat → Nat → Nat → Nat
  | 0, n, r => n + r
  | fuel + 1, n, r =>
    if 32 ≤ n then minRunLoop fuel (n / 2) (Nat.lor r (n % 2))
    else n + r

def minRunLength (n : Nat) : Nat := minRunLoop n n 0

/- The run-stack trace of the main loop of ValueTypeSort: for each
   detected (or forced) run of length L starting at offset lo, the loop
   performs pushRun(lo, L) followed by mergeCollapse. -/
def driveRuns : TSStack → Nat → List Nat → Except String TSStack
  | s, _, [] => .ok s
  | s, lo, L :: rest =>
    match pushRun s lo L with
    | none => .error "index out of range"
    | some s2 =>
      match mergeCollapse s2 with
      | .error e => .error e
      | .ok s3 => driveRuns s3 (lo + L) rest

/- 41 run lengths, each the smallest allowed by the stack invariant on
   top of the later ones (L = next + second-next + 1 from the top pair
   33, 34), so their sum is close to the least array length that keeps
   41 runs pending at once. -/
def c4runs : List Nat :=
  [5732058948, 3542607255, 2189451692, 1353155562, 836296129, 516859432,
   319436696, 197422735, 122013960, 75408774, 46605185, 28803588,
   17801596, 11001991, 6799604, 4202386, 2597217, 1605168, 992048,
   613119, 378928, 234190, 144737, 89452, 55284, 34167, 21116, 13050,
   8065, 4984, 3080, 1903, 1176, 726, 449, 276, 172, 103, 68, 34, 33]

/-- C4: the run-stack invariant does hold after every mergeCollapse
return (this port uses the repaired collapse conditions), but the claimed
consequence — that pushRun never exceeds the precomputed capacity — is
false on 64-bit Go: the capacity tiers stop at 40 entries for every
n ≥ 119151, yet 41 runs can be pending at once for arrays of about
1.5e10 elements (< 2^63, a legal Go slice length).  The c4runs sequence
consists of 41 run lengths, each at least minRunLength of the total (so
each is realisable as a maximal descending natural run); the first 40
pushes leave the stack at size 40 with mergeCollapse never merging
(stackSize equals the number of pushes), and the 41st pushRun writes
runLen[40] past the 40-entry array — an index-out-of-range panic. -/
theorem C4_stack_overflow :
    (∀ L ∈ c4runs, minRunLength c4runs.sum ≤ L) ∧
    c4runs.length = 41 ∧
    119151 ≤ c4runs.sum ∧
    c4runs.sum < 2 ^ 63 ∧
    stackLenFor c4runs.sum = 40 ∧
    (driveRuns (newTimSortStack c4runs.sum) 0 (c4runs.take 40)).map
      (fun s => s.stackSize) = .ok 40 ∧
    driveRuns (newTimSortStack c4runs.sum) 0 c4runs =
      .error "index out of range" := by
  refine ⟨by decide, by decide, by decide, by decide, by decide,
    by rfl, by rfl⟩

/-! ### `gallopLeft` / `gallopRight` (src/unnamed/part_001 lines 576-724)

The two galloping searches share one body up to the direction of the
comparison against `key`: writing `p x` for "x sorts strictly before the
boundary sought" — `x < key` for `gallopLeft`, `!(key < x)` for
`gallopRight` — both functions read, line for line: branch on
`p a[base+hint]`; when it holds, gallop towards larger offsets while
`ofs < maxOfs && p a[base+hint+ofs]`, doubling `ofs` (`gallopLeft`'s
then-branch, `gallopRight`'s else-branch), and otherwise towards smaller
offsets while `ofs < maxOfs && !p a[base+hint-ofs]` (`gallopLeft`'s
else-branch, `gallopRight`'s then-branch); clamp `ofs` to `maxOfs`;
re-express the bracket relative to `base`; check
`-1 <= lastOfs < ofs <= len`; binary-search the bracket with
`if p a[base+m] { lastOfs = m+1 } else { ofs = m }`; check convergence
and return `ofs`.  `gallopCore` is that common body and
`gallopLeft` / `gallopRight` instantiate `p`.  Offsets are Go ints,
modelled as `Int` (`lastOfs` genuinely reaches `-1`); `(ofs << 1) + 1`
is `2*ofs + 1`, and the `ofs <= 0` int-overflow clamp is kept although
it cannot fire over `Int`.  Reads `a[i]` are `aget`; under the checked
preconditions every read is in bounds, so the default is never used.
The loops take fuel: `ofs` more than doubles per round of the gallop
loops and the bracket shrinks per round of the binary loop, so
`len.toNat + 2` rounds always suffice. -/

def aget (a : List α) (i : Int) (d : α) : α :=
  if 0 ≤ i then a.getD i.toNat d else d

def gallopUp (p : α → Bool) (a : List α) (bh maxOfs : Int) (d : α) :
    Nat → Int → Int → Int × Int
  | 0, lastOfs, ofs => (lastOfs, ofs)
  | fuel + 1, lastOfs, ofs =>
    if ofs < maxOfs ∧ p (aget a (bh + ofs) d) = true then
      gallopUp p a bh maxOfs d fuel ofs
        (if 2 * ofs + 1 ≤ 0 then maxOfs else 2 * ofs + 1)
    else (lastOfs, ofs)

def gallopDown (p : α → Bool) (a : List α) (bh maxOfs : Int) (d : α) :
    Nat → Int → Int → Int × Int
  | 0, lastOfs, ofs => (lastOfs, ofs)
  | fuel + 1, lastOfs, ofs =>
    if ofs < maxOfs ∧ p (aget a (bh - ofs) d) = false then
      gallopDown p a bh maxOfs d fuel ofs
        (if 2 * ofs + 1 ≤ 0 then maxOfs else 2 * ofs + 1)
    else (lastOfs, ofs)

def gallopBin (p : α → Bool) (a : List α) (base : Int) (d : α) :
    Nat → Int → Int → Int × Int
  | 0, lastOfs, ofs => (lastOfs, ofs)
  | fuel + 1, lastOfs, ofs =>
    if lastOfs < ofs then
      if p (aget a (base + (lastOfs + (ofs - lastOfs) / 2)) d) = true then
        gallopBin p a base d fuel (lastOfs + (ofs - lastOfs) / 2 + 1) ofs
      else gallopBin p a base d fuel lastOfs (lastOfs + (ofs - lastOfs) / 2)
    else (lastOfs, ofs)

def gallopCore (p : α → Bool) (key : α) (a : List α)
    (base len hint : Int) : Except String Int :=
  if len ≤ 0 ∨ hint < 0 ∨ len ≤ hint then
    .error " len > 0 && hint >= 0 && hint < len;"
  else
    let fuel := len.toNat + 2
    let lo2 :=
      if p (aget a (base + hint) key) = true then
        let maxOfs := len - hint
        let r := gallopUp p a (base + hint) maxOfs key fuel 0 1
        let o1 := if maxOfs < r.2 then maxOfs else r.2
        (r.1 + hint, o1 + hint)
      else
        let maxOfs := hint + 1
        let r := gallopDown p a (base + hint) maxOfs key fuel 0 1
        let o1 := if maxOfs < r.2 then maxOfs else r.2
        (hint - o1, hint - r.1)
    if lo2.1 < -1 ∨ lo2.2 ≤ lo2.1 ∨ len < lo2.2 then
      .error " -1 <= lastOfs && lastOfs < ofs && ofs <= len;"
    else
      let r2 := gallopBin p a base key fuel (lo2.1 + 1) lo2.2
      if r2.1 ≠ r2.2 then .error " lastOfs == ofs"
      else .ok r2.2

/-- Embedding of `gallopLeft`: the sought boundary is the first position
whose element is not less than `key`. -/
def gallopLeft (lt : α → α → Bool) (key : α) (a : List α)
    (base len hint : Int) : Except String Int :=
  gallopCore (fun x => lt x key) key a base len hint

/-- Embedding of `gallopRight`: the sought boundary is the first position
whose element `key` is less than. -/
def gallopRight (lt : α → α → Bool) (key : α) (a : List α)
    (base len hint : Int) : Except String Int :=
  gallopCore (fun x => ! lt key x) key a base len hint

/-- Reference definition from the spec's words: the smallest index whose
element `key` is less than (the index after the rightmost element
equivalent to `key`), or the length when there is none. -/
def upperBoundIdx (lt : α → α → Bool) (sorted : List α) (item : α) : Nat :=
  sorted.findIdx (fun e => lt item e)

theorem gallopUp_spec (p : α → Bool) (a : List α) (bh maxOfs : Int)
    (key : α) :
    ∀ fuel : Nat, ∀ lastOfs ofs : Int,
    0 ≤ lastOfs → lastOfs < ofs → lastOfs < maxOfs →
    p (aget a (bh + lastOfs) key) = true →
    maxOfs ≤ ofs + fuel →
    ∃ L O, gallopUp p a bh maxOfs key fuel lastOfs ofs = (L, O) ∧
      0 ≤ L ∧ L < O ∧ L < maxOfs ∧ p (aget a (bh + L) key) = true ∧
      (maxOfs ≤ O ∨ p (aget a (bh + O) key) = false) := by
  intro fuel
  induction fuel with
  | zero =>
    intro lastOfs ofs h0 hlo hlm hp hfuel
    refine ⟨lastOfs, ofs, rfl, h0, hlo, hlm, hp, Or.inl (by omega)⟩
  | succ fuel ih =>
    intro lastOfs ofs h0 hlo hlm hp hfuel
    rw [gallopUp]
    by_cases hc : ofs < maxOfs ∧ p (aget a (bh + ofs) key) = true
    · rw [if_pos hc]
      have hpos : ¬ 2 * ofs + 1 ≤ 0 := by omega
      rw [if_neg hpos]
      exact ih ofs (2 * ofs + 1) (by omega) (by omega) hc.1 hc.2 (by omega)
    · rw [if_neg hc]
      refine ⟨lastOfs, ofs, rfl, h0, hlo, hlm, hp, ?_⟩
      by_cases hof : ofs < maxOfs
      · right
        rcases not_and_or.1 hc with h | h
        · omega
        · cases hx : p (aget a (bh + ofs) key) with
          | true => exact absurd hx h
          | false => rfl
      · left; omega

theorem gallopDown_spec (p : α → Bool) (a : List α) (bh maxOfs : Int)
    (key : α) :
    ∀ fuel : Nat, ∀ lastOfs ofs : Int,
    0 ≤ lastOfs → lastOfs < ofs → lastOfs < maxOfs →
    p (aget a (bh - lastOfs) key) = false →
    maxOfs ≤ ofs + fuel →
    ∃ L O, gallopDown p a bh maxOfs key fuel lastOfs ofs = (L, O) ∧
      0 ≤ L ∧ L < O ∧ L < maxOfs ∧ p (aget a (bh - L) key) = false ∧
      (maxOfs ≤ O ∨ p (aget a (bh - O) key) = true) := by
  intro fuel
  induction fuel with
  | zero =>
    intro lastOfs ofs h0 hlo hlm hp hfuel
    refine ⟨lastOfs, ofs, rfl, h0, hlo, hlm, hp, Or.inl (by omega)⟩
  | succ fuel ih =>
    intro lastOfs ofs h0 hlo hlm hp hfuel
    rw [gallopDown]
    by_cases hc : ofs < maxOfs ∧ p (aget a (bh - ofs) key) = false
    · rw [if_pos hc]
      have hpos : ¬ 2 * ofs + 1 ≤ 0 := by omega
      rw [if_neg hpos]
      exact ih ofs (2 * ofs + 1) (by omega) (by omega) hc.1 hc.2 (by omega)
    · rw [if_neg hc]
      refine ⟨lastOfs, ofs, rfl, h0, hlo, hlm, hp, ?_⟩
      by_cases hof : ofs < maxOfs
      · right
        rcases not_and_or.1 hc with h | h
        · omega
        · cases hx : p (aget a (bh - ofs) key) with
          | true => rfl
          | false => exact absurd hx h
      · left; omega

theorem gallopBin_spec (p : α → Bool) (a : List α) (base len : Int)
    (key : α) (FF : Int)
    (h1 : ∀ i : Int, 0 ≤ i → i < FF → p (aget a (base + i) key) = true)
    (h2 : ∀ i : Int, FF ≤ i → i < len → p (aget a (base + i) key) = false) :
    ∀ fuel : Nat, ∀ lo hi : Int,
    0 ≤ lo → lo ≤ FF → FF ≤ hi → hi ≤ len → hi - lo ≤ (fuel : Int) →
    gallopBin p a base key fuel lo hi = (FF, FF) := by
  intro fuel
  induction fuel with
  | zero =>
    intro lo hi h0 hloF hFhi hhilen hfuel
    have hlo2 : lo = FF := by omega
    have hhi2 : hi = FF := by omega
    rw [gallopBin, hlo2, hhi2]
  | succ fuel ih =>
    intro lo hi h0 hloF hFhi hhilen hfuel
    rw [gallopBin]
    by_cases hlt : lo < hi
    · rw [if_pos hlt]
      have hm1 : lo ≤ lo + (hi - lo) / 2 := by omega
      have hm2 : lo + (hi - lo) / 2 < hi := by omega
      by_cases hp : p (aget a (base + (lo + (hi - lo) / 2)) key) = true
      · rw [if_pos hp]
        have hmF : lo + (hi - lo) / 2 < FF := by
          by_contra hge
          push_neg at hge
          have := h2 (lo + (hi - lo) / 2) hge (by omega)
          rw [hp] at this
          simp at this
        exact ih (lo + (hi - lo) / 2 + 1) hi (by omega) (by omega) hFhi
          hhilen (by omega)
      · rw [if_neg hp]
        have hmF : FF ≤ lo + (hi - lo) / 2 := by
          by_contra hge
          push_neg at hge
          have := h1 (lo + (hi - lo) / 2) (by omega) hge
          rw [this] at hp
          simp at hp
        exact ih lo (lo + (hi - lo) / 2) h0 hloF hmF (by omega) (by omega)
    · rw [if_neg hlt]
      have hlo2 : lo = FF := by omega
      have hhi2 : hi = FF := by omega
      rw [hlo2, hhi2]

theorem gallopCore_spec (p : α → Bool) (key : α) (a : List α)
    (base len hint : Int) (FF : Int)
    (hlen : 0 < len) (hhint0 : 0 ≤ hint) (hhintl : hint < len)
    (hmono : ∀ i j : Int, 0 ≤ i → i ≤ j → j < len →
      p (aget a (base + j) key) = true → p (aget a (base + i) key) = true)
    (hFF0 : 0 ≤ FF) (hFFlen : FF ≤ len)
    (hFF1 : ∀ i : Int, 0 ≤ i → i < FF → p (aget a (base + i) key) = true)
    (hFF2 : FF < len → p (aget a (base + FF) key) = false) :
    gallopCore p key a base len hint = .ok FF := by
  have h2 : ∀ i : Int, FF ≤ i → i < len → p (aget a (base + i) key) = false := by
    intro i hFi hil
    by_contra hne
    have hpi : p (aget a (base + i) key) = true := by
      cases hx : p (aget a (base + i) key) with
      | true => rfl
      | false => exact absurd hx hne
    have := hmono FF i hFF0 hFi hil hpi
    rw [hFF2 (by omega)] at this
    simp at this
  have hcast : ((len.toNat + 2 : Nat) : Int) = len + 2 := by omega
  rw [gallopCore, if_neg (by omega)]
  dsimp only
  by_cases hph : p (aget a (base + hint) key) = true
  · rw [if_pos hph]
    have hup := gallopUp_spec p a (base + hint) (len - hint) key
      (len.toNat + 2) 0 1 (by omega) (by omega) (by omega)
      (by rw [add_zero]; exact hph) (by omega)
    rcases hup with ⟨L, O, heq, hL0, hLO, hLmax, hPL, hexit⟩
    rw [heq]
    rw [show (base + hint + L) = base + (hint + L) by ring] at hPL
    have hlob : hint + L < FF := by
      by_contra hge
      push_neg at hge
      have := h2 (hint + L) hge (by omega)
      rw [hPL] at this
      simp at this
    by_cases hclamp : len - hint < O
    · rw [if_pos hclamp]
      rw [if_neg (by omega)]
      have hbin := gallopBin_spec p a base len key FF hFF1 h2
        (len.toNat + 2) (L + hint + 1) (len - hint + hint)
        (by omega) (by omega) (by omega) (by omega) (by omega)
      rw [hbin]
      rw [if_neg (by omega)]
    · rw [if_neg hclamp]
      have hhib : FF ≤ hint + O := by
        rcases hexit with hmax | hfalse
        · omega
        · by_contra hgt
          push_neg at hgt
          rw [show (base + hint + O) = base + (hint + O) by ring] at hfalse
          have := hFF1 (hint + O) (by omega) hgt
          rw [hfalse] at this
          simp at this
      rw [if_neg (by omega)]
      have hbin := gallopBin_spec p a base len key FF hFF1 h2
        (len.toNat + 2) (L + hint + 1) (O + hint)
        (by omega) (by omega) (by omega) (by omega) (by omega)
      rw [hbin]
      rw [if_neg (by omega)]
  · rw [if_neg hph]
    have hphf : p (aget a (base + hint) key) = false := by
      cases hx : p (aget a (base + hint) key) with
      | true => exact absurd hx hph
      | false => rfl
    have hdn := gallopDown_spec p a (base + hint) (hint + 1) key
      (len.toNat + 2) 0 1 (by omega) (by omega) (by omega)
      (by rw [sub_zero]; exact hphf) (by omega)
    rcases hdn with ⟨L, O, heq, hL0, hLO, hLmax, hPL, hexit⟩
    rw [heq]
    rw [show (base + hint - L) = base + (hint - L) by ring] at hPL
    have hhib : FF ≤ hint - L := by
      by_contra hgt
      push_neg at hgt
      have := hFF1 (hint - L) (by omega) hgt
      rw [hPL] at this
      simp at this
    by_cases hclamp : hint + 1 < O
    · rw [if_pos hclamp]
      rw [if_neg (by omega)]
      have hbin := gallopBin_spec p a base len key FF hFF1 h2
        (len.toNat + 2) (hint - (hint + 1) + 1) (hint - L)
        (by omega) (by omega) (by omega) (by omega) (by omega)
      rw [hbin]
      rw [if_neg (by omega)]
    · rw [if_neg hclamp]
      have hlob : hint - O < FF := by
        rcases hexit with hmax | htrue
        · omega
        · by_contra hge
          push_neg at hge
          rw [show (base + hint - O) = base + (hint - O) by ring] at htrue
          have := h2 (hint - O) hge (by omega)
          rw [htrue] at this
          simp at this
      rw [if_neg (by omega)]
      have hbin := gallopBin_spec p a base len key FF hFF1 h2
        (len.toNat + 2) (hint - O + 1) (hint - L)
        (by omega) (by omega) (by omega) (by omega) (by omega)
      rw [hbin]
      rw [if_neg (by omega)]

theorem aget_window (a : List α) (base len : Int) (key : α)
    (hb : 0 ≤ base) (hrange : base + len ≤ (a.length : Int)) :
    ∀ i : Int, 0 ≤ i → i < len →
      aget a (base + i) key =
        ((a.drop base.toNat).take len.toNat).getD i.toNat key := by
  intro i hi0 hil
  have hwlen : ((a.drop base.toNat).take len.toNat).length = len.toNat := by
    rw [List.length_take, List.length_drop]
    omega
  have hiw : i.toNat < ((a.drop base.toNat).take len.toNat).length := by omega
  have hia : (base + i).toNat < a.length := by omega
  rw [aget, if_pos (by omega)]
  rw [List.getD_eq_getElem _ _ hia, List.getD_eq_getElem _ _ hiw]
  rw [List.getElem_take, List.getElem_drop]
  congr 1
  omega

/-- Every element strictly below the upper bound is not greater than
`item`. -/
theorem upB_nlt {sorted : List α} {item : α} {k : Nat} (d : α)
    (hk : k < upperBoundIdx lt sorted item) :
    lt item (sorted.getD k d) = false := by
  have := @getD_false_of_lt_findIdx α (fun e => lt item e) sorted k d hk
  simpa using this

/-- The element at the upper bound (when in range) is greater than
`item`. -/
theorem upB_lt {sorted : List α} {item : α} (d : α)
    (hl : upperBoundIdx lt sorted item < sorted.length) :
    lt item (sorted.getD (upperBoundIdx lt sorted item) d) = true := by
  rw [upperBoundIdx] at hl ⊢
  have hx := @List.findIdx_getElem _ (fun e => lt item e) _ hl
  rw [List.getD_eq_getElem _ _ hl]
  simpa using hx

/-- Workhorse for the galloping searches: on an ascending window both
succeed and return the window's lower/upper bound index for `key`. -/
theorem gallop_window_ok (hswo : SWOrd lt) (key : α) (a : List α)
    (base len hint : Int) (hb : 0 ≤ base) (hlen : 0 < len)
    (hhint : 0 ≤ hint ∧ hint < len)
    (hrange : base + len ≤ (a.length : Int))
    (hs : SortedRun lt ((a.drop base.toNat).take len.toNat)) :
    gallopLeft lt key a base len hint =
      .ok ((lowerBoundIdx lt ((a.drop base.toNat).take len.toNat) key : Nat) : Int) ∧
    gallopRight lt key a base len hint =
      .ok ((upperBoundIdx lt ((a.drop base.toNat).take len.toNat) key : Nat) : Int) := by
  have haw := aget_window a base len key hb hrange
  have hwlen : ((a.drop base.toNat).take len.toNat).length = len.toNat := by
    rw [List.length_take, List.length_drop]
    omega
  constructor
  · rw [gallopLeft]
    have hFlen : lowerBoundIdx lt ((a.drop base.toNat).take len.toNat) key ≤
        ((a.drop base.toNat).take len.toNat).length := by
      rw [lowerBoundIdx]
      exact List.findIdx_le_length _
    apply gallopCore_spec (fun x => lt x key) key a base len hint _
      hlen hhint.1 hhint.2
    · intro i j hi0 hij hjl hpj
      rw [haw j (by omega) hjl] at hpj
      rw [haw i hi0 (by omega)]
      have hnlt := hs.getD_nlt hswo (by omega : i.toNat ≤ j.toNat)
        (by omega : j.toNat < ((a.drop base.toNat).take len.toNat).length)
        key key
      exact hswo.lt_of_nlt_of_lt hnlt hpj
    · omega
    · omega
    · intro i hi0 hiF
      rw [haw i hi0 (by omega)]
      exact lowB_lt_true key (by omega)
    · intro hFl
      rw [haw _ (by omega) hFl]
      have : ((lowerBoundIdx lt ((a.drop base.toNat).take len.toNat) key :
          Nat) : Int).toNat =
          lowerBoundIdx lt ((a.drop base.toNat).take len.toNat) key := by
        omega
      rw [this]
      exact lowB_nlt key (by omega)
  · rw [gallopRight]
    have hFlen : upperBoundIdx lt ((a.drop base.toNat).take len.toNat) key ≤
        ((a.drop base.toNat).take len.toNat).length := by
      rw [upperBoundIdx]
      exact List.findIdx_le_length _
    apply gallopCore_spec (fun x => ! lt key x) key a base len hint _
      hlen hhint.1 hhint.2
    · intro i j hi0 hij hjl hpj
      rw [haw j (by omega) hjl] at hpj
      rw [haw i hi0 (by omega)]
      have hnlt := hs.getD_nlt hswo (by omega : i.toNat ≤ j.toNat)
        (by omega : j.toNat < ((a.drop base.toNat).take len.toNat).length)
        key key
      rw [Bool.not_eq_true'] at hpj
      rw [Bool.not_eq_true']
      exact hswo.nlt_trans hnlt hpj
    · omega
    · omega
    · intro i hi0 hiF
      rw [haw i hi0 (by omega)]
      have hfalse : lt key (((a.drop base.toNat).take len.toNat).getD
          i.toNat key) = false := upB_nlt key (by omega)
      rw [hfalse]
      rfl
    · intro hFl
      rw [haw _ (by omega) hFl]
      have hcast : ((upperBoundIdx lt ((a.drop base.toNat).take len.toNat) key :
          Nat) : Int).toNat =
          upperBoundIdx lt ((a.drop base.toNat).take len.toNat) key := by
        omega
      rw [hcast]
      have htrue : lt key (((a.drop base.toNat).take len.toNat).getD
          (upperBoundIdx lt ((a.drop base.toNat).take len.toNat) key) key) =
          true := upB_lt key (by omega)
      rw [htrue]
      rfl

/-- C5: for every strict-weak-order comparator, every range
`a[base..base+len)` ascending under it with `len > 0`, and every hint with
`0 <= hint < len`, `gallopLeft` returns (without error) the smallest
`k ∈ [0,len]` such that `a[base+k-1] < key <= a[base+k]` — the index of the
leftmost element not less than `key`, `len` when there is none — and
`gallopRight` returns the smallest `k` such that
`a[base+k-1] <= key < a[base+k]` — the index after the rightmost element
not greater than `key`.  Both are stated through the reference definitions
`lowerBoundIdx` / `upperBoundIdx` on the range. -/
theorem C5_gallop_search (hswo : SWOrd lt) (key : α) (a : List α)
    (base len hint : Int) (hb : 0 ≤ base) (hlen : 0 < len)
    (hhint : 0 ≤ hint ∧ hint < len)
    (hrange : base + len ≤ (a.length : Int))
    (hs : SortedRun lt ((a.drop base.toNat).take len.toNat)) :
    gallopLeft lt key a base len hint =
      .ok ((lowerBoundIdx lt ((a.drop base.toNat).take len.toNat) key : Nat) : Int) ∧
    gallopRight lt key a base len hint =
      .ok ((upperBoundIdx lt ((a.drop base.toNat).take len.toNat) key : Nat) : Int) :=
  gallop_window_ok hswo key a base len hint hb hlen hhint hrange hs

/-- C5 witness: both searches applied to the ascending range
`a[1..5) = [1,3,3,3]` of `[0,1,3,3,3,7]` with `key = 3` and `hint = 1`:
`gallopLeft` finds the leftmost equivalent element at offset `1` and
`gallopRight` the position after the rightmost one, `4`. -/
theorem C5_gallop_witness :
    gallopLeft intLt 3 [0, 1, 3, 3, 3, 7] 1 4 1 = .ok 1 ∧
    gallopRight intLt 3 [0, 1, 3, 3, 3, 7] 1 4 1 = .ok 4 := by
  have h := C5_gallop_search swo_intLt 3 [0, 1, 3, 3, 3, 7] 1 4 1
    (by decide) (by decide) (by decide) (by decide) (by decide)
  exact ⟨h.1.trans (by rfl), h.2.trans (by rfl)⟩

/-! ### The timsort engine (src/unnamed/part_003; part_001 is its `<`
specialisation)

The engine mutates one Go array in place.  The array is a `List α`; an
in-place write `a[i] = v` is `iset`, a read `a[i]` is `aget` (both Go
panics on a negative index and writes past the end are modelled by the
identity — every theorem below pins the whole array contents, so an
out-of-range access would make the invariant proofs fail rather than
slip through), and `copy(a[d:d+n], src[s:s+n])` is `icopy`. -/

def iset (a : List α) (i : Int) (v : α) : List α :=
  if 0 ≤ i then a.set i.toNat v else a

def icopy (dst : List α) (d : Int) (src : List α) (s n : Int) : List α :=
  dst.take d.toNat ++ (src.drop s.toNat).take n.toNat ++
    dst.drop (d.toNat + n.toNat)

/-- The reference point of the merge proofs: a stable two-way merge that
prefers the left run on ties. -/
def smerge (lt : α → α → Bool) : List α → List α → List α
  | [], s2 => s2
  | x :: s1, [] => x :: s1
  | x :: s1, y :: s2 =>
    if lt y x then y :: smerge lt (x :: s1) s2
    else x :: smerge lt s1 (y :: s2)
termination_by s1 s2 => s1.length + s2.length

theorem smerge_nil_right (lt : α → α → Bool) (s1 : List α) :
    smerge lt s1 [] = s1 := by
  cases s1 with
  | nil => rw [smerge]
  | cons x t => rw [smerge]

theorem smerge_perm (lt : α → α → Bool) (s1 s2 : List α) :
    (smerge lt s1 s2).Perm (s1 ++ s2) := by
  cases s1 with
  | nil => rw [smerge]; simp [List.Perm.refl]
  | cons x t1 =>
    cases s2 with
    | nil => rw [smerge]; simp [List.Perm.refl]
    | cons y t2 =>
      rw [smerge]
      by_cases hc : lt y x = true
      · rw [if_pos hc]
        have ih := smerge_perm lt (x :: t1) t2
        have h1 : (y :: smerge lt (x :: t1) t2).Perm (y :: (x :: t1 ++ t2)) :=
          ih.cons y
        have h2 : ((x :: t1) ++ y :: t2).Perm (y :: ((x :: t1) ++ t2)) :=
          List.perm_middle
        exact h1.trans h2.symm
      · rw [if_neg hc]
        have ih := smerge_perm lt t1 (y :: t2)
        simpa using ih.cons x
termination_by s1.length + s2.length

/-- Elements of `front` that the next right-run element is not less than
are emitted before it. -/
theorem smerge_front_left (lt : α → α → Bool) (front : List α) (rest : List α)
    (y : α) (s2 : List α) (h : ∀ x ∈ front, lt y x = false) :
    smerge lt (front ++ rest) (y :: s2) = front ++ smerge lt rest (y :: s2) := by
  induction front with
  | nil => rfl
  | cons f t ih =>
    rw [List.cons_append, smerge, if_neg ?_]
    · rw [List.cons_append]
      congr 1
      exact ih (fun x hx => h x (List.mem_cons_of_mem f hx))
    · rw [h f (List.mem_cons_self _ _)]
      simp

/-- Elements of `front` that are less than the next left-run element are
emitted before it. -/
theorem smerge_front_right (lt : α → α → Bool) (x : α) (s1 : List α)
    (front rest2 : List α) (h : ∀ w ∈ front, lt w x = true) :
    smerge lt (x :: s1) (front ++ rest2) =
      front ++ smerge lt (x :: s1) rest2 := by
  induction front with
  | nil => rfl
  | cons f t ih =>
    rw [List.cons_append, smerge, if_pos (h f (List.mem_cons_self _ _)),
      List.cons_append]
    congr 1
    exact ih (fun w hw => h w (List.mem_cons_of_mem f hw))

/-- A suffix of the left run that every right-run element is less than is
emitted last. -/
theorem smerge_append_suffix_left (lt : α → α → Bool) (s1 s2 suff : List α)
    (h : ∀ y ∈ s2, ∀ w ∈ suff, lt y w = true) :
    smerge lt (s1 ++ suff) s2 = smerge lt s1 s2 ++ suff := by
  cases s1 with
  | nil =>
    cases s2 with
    | nil => simp [smerge_nil_right]
    | cons y t2 =>
      cases hsf : suff with
      | nil => simp [smerge_nil_right]
      | cons w tw =>
        have hw : w ∈ suff := by rw [hsf]; exact List.mem_cons_self _ _
        rw [List.nil_append]
        simp only [smerge]
        rw [if_pos (h y (List.mem_cons_self _ _) w hw)]
        have ih := smerge_append_suffix_left lt [] t2 suff
          (fun y2 hy2 w2 hw2 => h y2 (List.mem_cons_of_mem y hy2) w2 hw2)
        rw [List.nil_append] at ih
        rw [← hsf, ih]
        simp only [smerge]
        rfl
  | cons x t1 =>
    cases s2 with
    | nil => rw [smerge_nil_right, smerge_nil_right, List.cons_append]
    | cons y t2 =>
      rw [List.cons_append, smerge, smerge]
      by_cases hc : lt y x = true
      · rw [if_pos hc, if_pos hc, List.cons_append]
        congr 1
        have := smerge_append_suffix_left lt (x :: t1) t2 suff
          (fun y2 hy2 w hw => h y2 (List.mem_cons_of_mem y hy2) w hw)
        rw [List.cons_append] at this
        exact this
      · rw [if_neg hc, if_neg hc, List.cons_append]
        congr 1
        exact smerge_append_suffix_left lt t1 (y :: t2) suff h
termination_by (s1.length, s2.length)

/-- A suffix of the right run that is not less than any left-run element
is emitted last. -/
theorem smerge_append_suffix_right (lt : α → α → Bool) (s1 s2 suff : List α)
    (h : ∀ x ∈ s1, ∀ w ∈ suff, lt w x = false) :
    smerge lt s1 (s2 ++ suff) = smerge lt s1 s2 ++ suff := by
  cases s1 with
  | nil => rw [smerge]; rw [smerge]
  | cons x t1 =>
    cases s2 with
    | nil =>
      cases hsf : suff with
      | nil => simp [smerge_nil_right]
      | cons w tw =>
        have hw : w ∈ suff := by rw [hsf]; exact List.mem_cons_self _ _
        have hwx : ¬ lt w x = true := by
          rw [h x (List.mem_cons_self _ _) w hw]
          simp
        rw [List.nil_append]
        simp only [smerge]
        rw [if_neg hwx]
        have ih := smerge_append_suffix_right lt t1 [] suff
          (fun x2 hx2 w2 hw2 => h x2 (List.mem_cons_of_mem x hx2) w2 hw2)
        rw [List.nil_append, smerge_nil_right] at ih
        rw [← hsf, ih]
        rfl
    | cons y t2 =>
      rw [List.cons_append, smerge, smerge]
      by_cases hc : lt y x = true
      · rw [if_pos hc, if_pos hc, List.cons_append]
        congr 1
        exact smerge_append_suffix_right lt (x :: t1) t2 suff h
      · rw [if_neg hc, if_neg hc, List.cons_append]
        congr 1
        exact smerge_append_suffix_right lt t1 (y :: t2) suff
          (fun x2 hx2 w2 hw2 => h x2 (List.mem_cons_of_mem x hx2) w2 hw2)
termination_by s1.length + s2.length

/-- Every member of a sorted run is not less than its head. -/
theorem SortedRun.mem_nlt_head (h : SWOrd lt) {x : α} {xs : List α}
    (hs : SortedRun lt (x :: xs)) {z : α} (hz : z ∈ x :: xs) :
    lt z x = false := by
  rcases List.mem_cons.1 hz with rfl | hz2
  · exact h.irrefl z
  · exact SortedRun.head_nlt h hs hz2

/-- The stable merge of two ascending runs is ascending. -/
theorem smerge_sorted (hswo : SWOrd lt) (s1 s2 : List α)
    (h1 : SortedRun lt s1) (h2 : SortedRun lt s2) :
    SortedRun lt (smerge lt s1 s2) := by
  cases s1 with
  | nil => rw [smerge]; exact h2
  | cons x t1 =>
    cases s2 with
    | nil => rw [smerge_nil_right]; exact h1
    | cons y t2 =>
      rw [smerge]
      by_cases hc : lt y x = true
      · rw [if_pos hc]
        have hrec := smerge_sorted hswo (x :: t1) t2 h1 (SortedRun.tail_run h2)
        rw [SortedRun, List.chain'_cons']
        refine ⟨?_, hrec⟩
        intro z hz
        have hperm := smerge_perm lt (x :: t1) t2
        have hzmem : z ∈ (x :: t1) ++ t2 :=
          hperm.mem_iff.1 (List.mem_of_mem_head? hz)
        rcases List.mem_append.1 hzmem with hz1 | hz2
        · have hxz : lt z x = false := SortedRun.mem_nlt_head hswo h1 hz1
          exact hswo.asymm (hswo.lt_of_lt_of_nlt hc hxz)
        · exact SortedRun.head_nlt hswo h2 hz2
      · rw [if_neg hc]
        have hrec := smerge_sorted hswo t1 (y :: t2) (SortedRun.tail_run h1) h2
        rw [SortedRun, List.chain'_cons']
        refine ⟨?_, hrec⟩
        intro z hz
        have hperm := smerge_perm lt t1 (y :: t2)
        have hzmem : z ∈ t1 ++ y :: t2 :=
          hperm.mem_iff.1 (List.mem_of_mem_head? hz)
        rcases List.mem_append.1 hzmem with hz1 | hz2
        · exact SortedRun.head_nlt hswo h1 (hz1 : z ∈ t1)
        · have hyz : lt z y = false := SortedRun.mem_nlt_head hswo h2 hz2
          have hyx : lt y x = false := by
            cases hxc : lt y x with
            | true => exact absurd hxc hc
            | false => rfl
          exact hswo.nlt_trans hyx hyz
termination_by s1.length + s2.length

/-- The stable merge keeps every equivalence class as the class elements
of the left run followed by those of the right run: this is stability. -/
theorem smerge_filter (hswo : SWOrd lt) (s1 s2 : List α)
    (h1 : SortedRun lt s1) (z : α) :
    (smerge lt s1 s2).filter (eqvB lt z) =
      s1.filter (eqvB lt z) ++ s2.filter (eqvB lt z) := by
  cases s1 with
  | nil => rw [smerge]; simp
  | cons x t1 =>
    cases s2 with
    | nil => rw [smerge_nil_right]; simp
    | cons y t2 =>
      rw [smerge]
      by_cases hc : lt y x = true
      · rw [if_pos hc]
        have hrec := smerge_filter hswo (x :: t1) t2 h1 z
        have hyfilter : List.filter (eqvB lt z) (y :: t2) =
            (if eqvB lt z y = true then [y] else []) ++
              List.filter (eqvB lt z) t2 := by
          by_cases hy : eqvB lt z y = true
          · rw [List.filter_cons_of_pos hy, if_pos hy]
            rfl
          · rw [List.filter_cons_of_neg (by simpa using hy), if_neg hy]
            rfl
        by_cases hy : eqvB lt z y = true
        · have hleft : (x :: t1).filter (eqvB lt z) = [] := by
            rw [List.filter_eq_nil_iff]
            intro w hw
            have hwx : lt w x = false := SortedRun.mem_nlt_head hswo h1 hw
            have hyw : lt y w = true := hswo.lt_of_lt_of_nlt hc hwx
            rw [eqvB, Bool.and_eq_true, Bool.not_eq_true',
              Bool.not_eq_true'] at hy
            intro hweqv
            rw [eqvB, Bool.and_eq_true, Bool.not_eq_true',
              Bool.not_eq_true'] at hweqv
            have hcontra := (hswo.incomp_trans w z y hweqv.2 hweqv.1
              hy.1 hy.2).2
            rw [hyw] at hcontra
            simp at hcontra
          rw [List.filter_cons_of_pos hy, hrec, hleft, hyfilter, if_pos hy]
          rfl
        · rw [List.filter_cons_of_neg (by simpa using hy), hrec, hyfilter,
            if_neg hy]
          rw [List.nil_append]
      · rw [if_neg hc]
        have hrec := smerge_filter hswo t1 (y :: t2) (SortedRun.tail_run h1) z
        have hxfilter : List.filter (eqvB lt z) (x :: t1) =
            (if eqvB lt z x = true then [x] else []) ++
              List.filter (eqvB lt z) t1 := by
          by_cases hx : eqvB lt z x = true
          · rw [List.filter_cons_of_pos hx, if_pos hx]
            rfl
          · rw [List.filter_cons_of_neg (by simpa using hx), if_neg hx]
            rfl
        by_cases hx : eqvB lt z x = true
        · rw [List.filter_cons_of_pos hx, hrec, hxfilter, if_pos hx]
          rfl
        · rw [List.filter_cons_of_neg (by simpa using hx), hrec, hxfilter,
            if_neg hx]
          rfl
termination_by s1.length + s2.length

theorem take_set_ge : ∀ (l : List α) (i n : Nat) (v : α), n ≤ i →
    (l.set i v).take n = l.take n
  | [], _, _, _, _ => rfl
  | _ :: _, 0, 0, _, _ => rfl
  | _ :: _, _ + 1, 0, _, _ => rfl
  | x :: t, i + 1, n + 1, v, h => by
    show x :: (t.set i v).take n = x :: t.take n
    rw [take_set_ge t i n v (by omega)]

theorem drop_set_lt (l : List α) (i n : Nat) (v : α) (h : i < n) :
    (l.set i v).drop n = l.drop n := by
  rw [List.drop_set, if_pos h]

theorem getD_append_len (xs ys : List α) (k : Nat) (d : α) :
    (xs ++ ys).getD (xs.length + k) d = ys.getD k d := by
  rw [List.getD_append_right _ _ _ _ (by omega)]
  have h : xs.length + k - xs.length = k := by omega
  rw [h]

theorem set_append_len (xs ys : List α) (k : Nat) (v : α) :
    (xs ++ ys).set (xs.length + k) v = xs ++ ys.set k v := by
  rw [List.set_append, if_neg (by omega)]
  have h : xs.length + k - xs.length = k := by omega
  rw [h]

/-- Reading at offset `k` inside the `ys` block of a decomposition. -/
theorem aget_append (xs ys : List α) (k : Int) (d : α) (h : 0 ≤ k) :
    aget (xs ++ ys) ((xs.length : Int) + k) d = aget ys k d := by
  rw [aget, aget, if_pos (by omega), if_pos h]
  have h2 : ((xs.length : Int) + k).toNat = xs.length + k.toNat := by omega
  rw [h2, getD_append_len]

/-- Writing at offset `k` inside the `ys` block of a decomposition. -/
theorem iset_append (xs ys : List α) (k : Int) (v : α) (h : 0 ≤ k) :
    iset (xs ++ ys) ((xs.length : Int) + k) v = xs ++ iset ys k v := by
  rw [iset, iset, if_pos (by omega), if_pos h]
  have h2 : ((xs.length : Int) + k).toNat = xs.length + k.toNat := by omega
  rw [h2, set_append_len]

theorem aget_cons_zero (y : α) (ys : List α) (d : α) :
    aget (y :: ys) 0 d = y := rfl

theorem iset_cons_zero (y : α) (ys : List α) (v : α) :
    iset (y :: ys) 0 v = v :: ys := rfl

theorem iset_length (a : List α) (i : Int) (v : α) :
    (iset a i v).length = a.length := by
  rw [iset]
  by_cases h : 0 ≤ i
  · rw [if_pos h, List.length_set]
  · rw [if_neg h]

/-- A block copy whose destination starts exactly at the `ys` block. -/
theorem icopy_append (xs ys src : List α) (s n : Int)
    (hn : n.toNat ≤ ys.length) :
    icopy (xs ++ ys) ((xs.length : Int)) src s n =
      xs ++ (src.drop s.toNat).take n.toNat ++ ys.drop n.toNat := by
  rw [icopy]
  have h1 : ((xs.length : Int)).toNat = xs.length := by omega
  rw [h1, List.take_left, List.drop_append]

/-! ### `reverseRange` and `countRunAndMakeAscending`
(src/unnamed/part_003 lines 311-340) -/

def revLoop [Inhabited α] : Nat → List α → Int → Int → List α
  | 0, a, _, _ => a
  | fuel + 1, a, lo, hi =>
    if lo < hi then
      revLoop fuel
        (iset (iset a lo (aget a hi default)) hi (aget a lo default))
        (lo + 1) (hi - 1)
    else a

/-- `reverseRange(a, lo, hi)`: `hi--` then swap inwards while `lo < hi`.
Each round moves both cursors, so `a.length + 1` rounds of fuel always
suffice. -/
def reverseRange [Inhabited α] (a : List α) (lo hi : Int) : List α :=
  revLoop (a.length + 1) a lo (hi - 1)

theorem splice_single (a : List α) (lo : Int) (h0 : 0 ≤ lo)
    (hlt : lo.toNat < a.length) :
    a.take lo.toNat ++ ((a.drop lo.toNat).take 1).reverse ++
      a.drop (lo + 1).toNat = a := by
  have hd : a.drop lo.toNat = a[lo.toNat] :: a.drop (lo.toNat + 1) :=
    List.drop_eq_getElem_cons hlt
  have h12 : (lo + 1).toNat = lo.toNat + 1 := by omega
  rw [h12, hd]
  rw [show (a[lo.toNat] :: a.drop (lo.toNat + 1)).take 1 = [a[lo.toNat]]
    from rfl]
  rw [show ([a[lo.toNat]] : List α).reverse = [a[lo.toNat]] from rfl]
  rw [List.append_assoc]
  rw [show [a[lo.toNat]] ++ a.drop (lo.toNat + 1) =
    a[lo.toNat] :: a.drop (lo.toNat + 1) from rfl]
  rw [← hd]
  exact List.take_append_drop lo.toNat a

theorem revLoop_stop [Inhabited α] (a : List α) (lo hi : Int)
    (hlo : 0 ≤ lo) (hlohi : lo ≤ hi + 1) (hhi : hi < (a.length : Int))
    (hc : ¬ lo < hi) :
    a = a.take lo.toNat ++
      ((a.drop lo.toNat).take (hi + 1 - lo).toNat).reverse ++
      a.drop (hi + 1).toNat := by
  rcases Int.lt_or_le hi lo with hc2 | hc2
  · have hseg : (hi + 1 - lo).toNat = 0 := by omega
    have heq : lo = hi + 1 := by omega
    rw [hseg, heq]
    simp
  · have heq : lo = hi := by omega
    subst heq
    have hseg : (lo + 1 - lo).toNat = 1 := by omega
    rw [hseg]
    exact (splice_single a lo hlo (by omega)).symm

theorem revLoop_spec [Inhabited α] :
    ∀ (fuel : Nat) (a : List α) (lo hi : Int),
    0 ≤ lo → lo ≤ hi + 1 → hi < (a.length : Int) →
    (hi + 1 - lo) ≤ 2 * (fuel : Int) + 1 →
    revLoop fuel a lo hi =
      a.take lo.toNat ++ ((a.drop lo.toNat).take (hi + 1 - lo).toNat).reverse
        ++ a.drop (hi + 1).toNat := by
  intro fuel
  induction fuel with
  | zero =>
    intro a lo hi hlo hlohi hhi hfuel
    rw [revLoop]
    exact revLoop_stop a lo hi hlo hlohi hhi (by omega)
  | succ fuel ih =>
    intro a lo hi hlo hlohi hhi hfuel
    rw [revLoop]
    by_cases hc : lo < hi
    · rw [if_pos hc]
      have hlt1 : lo.toNat < a.length := by omega
      have hlt2 : hi.toNat < a.length := by omega
      have hva : aget a hi default = a.getD hi.toNat default := by
        rw [aget, if_pos (by omega)]
      have hvb : aget a lo default = a.getD lo.toNat default := by
        rw [aget, if_pos (by omega)]
      have hbset : iset (iset a lo (aget a hi default)) hi
          (aget a lo default) =
          (a.set lo.toNat (a.getD hi.toNat default)).set hi.toNat
            (a.getD lo.toNat default) := by
        rw [iset, if_pos (by omega), iset, if_pos (by omega), hva, hvb]
      have hblen : ((a.set lo.toNat (a.getD hi.toNat default)).set hi.toNat
          (a.getD lo.toNat default)).length = a.length := by
        rw [List.length_set, List.length_set]
      rw [hbset]
      have hrec := ih ((a.set lo.toNat (a.getD hi.toNat default)).set
          hi.toNat (a.getD lo.toNat default)) (lo + 1) (hi - 1) (by omega)
        (by omega) (by rw [hblen]; omega) (by omega)
      rw [hrec]
      rw [show hi - 1 + 1 = hi from by omega]
      have hpre : ((a.set lo.toNat (a.getD hi.toNat default)).set hi.toNat
          (a.getD lo.toNat default)).take (lo + 1).toNat =
          a.take lo.toNat ++ [a.getD hi.toNat default] := by
        rw [take_set_ge _ _ _ _ (by omega)]
        rw [show (lo + 1).toNat = lo.toNat + 1 from by omega]
        rw [List.take_succ]
        rw [take_set_ge _ _ _ _ (by omega)]
        have h3 : (a.set lo.toNat (a.getD hi.toNat default))[lo.toNat]? =
            some (a.getD hi.toNat default) := by
          rw [List.getElem?_eq_getElem (by rw [List.length_set]; omega)]
          rw [List.getElem_set_eq (by rw [List.length_set]; omega)]
        rw [h3]
        rfl
      have hhilen2 : hi.toNat < ((a.set lo.toNat (a.getD hi.toNat
          default)).set hi.toNat (a.getD lo.toNat default)).length := by
        rw [hblen]; omega
      have hsuf : ((a.set lo.toNat (a.getD hi.toNat default)).set hi.toNat
          (a.getD lo.toNat default)).drop hi.toNat =
          a.getD lo.toNat default :: a.drop (hi + 1).toNat := by
        rw [List.drop_eq_getElem_cons hhilen2]
        have hhl3 : hi.toNat <
            ((a.set lo.toNat (a.getD hi.toNat default)).set hi.toNat
              (a.getD lo.toNat default)).length := by
          rw [List.length_set, List.length_set]; omega
        rw [List.getElem_set_eq hhl3]
        rw [drop_set_lt _ _ _ _ (by omega), drop_set_lt _ _ _ _ (by omega)]
        rw [show (hi + 1).toNat = hi.toNat + 1 from by omega]
      have hmid : (((a.set lo.toNat (a.getD hi.toNat default)).set hi.toNat
          (a.getD lo.toNat default)).drop (lo + 1).toNat).take
            (hi - (lo + 1)).toNat =
          (a.drop (lo + 1).toNat).take (hi - (lo + 1)).toNat := by
        rw [List.drop_set, if_neg (by omega)]
        rw [List.drop_set, if_pos (by omega)]
        rw [take_set_ge _ _ _ _ (by omega)]
      rw [hpre, hsuf, hmid]
      have hseg : (a.drop lo.toNat).take (hi + 1 - lo).toNat =
          a.getD lo.toNat default ::
            ((a.drop (lo + 1).toNat).take (hi - (lo + 1)).toNat ++
              [a.getD hi.toNat default]) := by
        rw [List.drop_eq_getElem_cons hlt1]
        rw [show (hi + 1 - lo).toNat = ((hi - (lo + 1)).toNat + 1) + 1
          from by omega]
        rw [List.take_succ_cons]
        congr 1
        · rw [List.getD_eq_getElem _ _ hlt1]
        · rw [show lo.toNat + 1 = (lo + 1).toNat from by omega]
          rw [List.take_succ]
          congr 1
          have h10 : (a.drop (lo + 1).toNat)[(hi - (lo + 1)).toNat]? =
              some (a.getD hi.toNat default) := by
            rw [List.getElem?_drop]
            rw [show (lo + 1).toNat + (hi - (lo + 1)).toNat = hi.toNat
              from by omega]
            rw [List.getElem?_eq_getElem hlt2,
              List.getD_eq_getElem _ _ hlt2]
          rw [h10]
          rfl
      rw [hseg]
      rw [List.reverse_cons, List.reverse_append]
      rw [show ([a.getD hi.toNat default] : List α).reverse =
        [a.getD hi.toNat default] from rfl]
      simp [List.append_assoc]
    · rw [if_neg hc]
      exact revLoop_stop a lo hi hlo hlohi hhi hc

def crAscLoop (lt : α → α → Bool) [Inhabited α] (a : List α) (hi : Int) :
    Nat → Int → Int
  | 0, runHi => runHi
  | fuel + 1, runHi =>
    if runHi < hi ∧
        lt (aget a runHi default) (aget a (runHi - 1) default) = false then
      crAscLoop lt a hi fuel (runHi + 1)
    else runHi

def crDescLoop (lt : α → α → Bool) [Inhabited α] (a : List α) (hi : Int) :
    Nat → Int → Int
  | 0, runHi => runHi
  | fuel + 1, runHi =>
    if runHi < hi ∧
        lt (aget a runHi default) (aget a (runHi - 1) default) = true then
      crDescLoop lt a hi fuel (runHi + 1)
    else runHi

/-- `countRunAndMakeAscending`: finds the maximal ascending (or strictly
descending, then reversed in place) run starting at `lo` and returns the
mutated array with the run length.  The loops advance `runHi` by one per
round, so `(hi - lo).toNat` rounds of fuel suffice. -/
def countRunAndMakeAscending (lt : α → α → Bool) [Inhabited α]
    (a : List α) (lo hi : Int) : Except String (List α × Int) :=
  if hi ≤ lo then .error "lo < hi"
  else if lo + 1 = hi then .ok (a, 1)
  else if lt (aget a (lo + 1) default) (aget a lo default) = true then
    let runHi := crDescLoop lt a hi ((hi - lo).toNat) (lo + 2)
    .ok (reverseRange a lo runHi, runHi - lo)
  else
    .ok (a, crAscLoop lt a hi ((hi - lo).toNat) (lo + 1) - lo)

theorem seg_take_succ (a : List α) (lo k : Nat) (d : α)
    (h : lo + k < a.length) :
    (a.drop lo).take (k + 1) = (a.drop lo).take k ++ [a.getD (lo + k) d] := by
  rw [List.take_succ]
  congr 1
  rw [List.getElem?_drop, List.getElem?_eq_getElem h,
    List.getD_eq_getElem _ _ h]
  rfl

theorem seg_getLast (a : List α) (lo k : Nat) (d : α) (hk : 0 < k)
    (h : lo + k ≤ a.length) :
    ((a.drop lo).take k).getLast? = some (a.getD (lo + k - 1) d) := by
  have hlen : ((a.drop lo).take k).length = k := by
    rw [List.length_take, List.length_drop]
    omega
  rw [List.getLast?_eq_getElem?, hlen]
  rw [List.getElem?_take, if_pos (by omega : k - 1 < k)]
  rw [List.getElem?_drop]
  have hb : lo + (k - 1) < a.length := by omega
  rw [List.getElem?_eq_getElem hb]
  have : lo + k - 1 = lo + (k - 1) := by omega
  rw [this, List.getD_eq_getElem _ _ hb]

theorem chain'_of_len_le_one {R : α → α → Prop} :
    ∀ (l : List α), l.length ≤ 1 → List.Chain' R l
  | [], _ => List.chain'_nil
  | [x], _ => List.chain'_singleton x
  | _ :: _ :: _, h => by simp at h

theorem crAscLoop_spec (lt : α → α → Bool) [Inhabited α] (a : List α)
    (lo hi : Int) (h0 : 0 ≤ lo) (hhi : hi ≤ (a.length : Int)) :
    ∀ (fuel : Nat) (runHi : Int), lo < runHi → runHi ≤ hi →
    SortedRun lt ((a.drop lo.toNat).take (runHi - lo).toNat) →
    hi - runHi ≤ (fuel : Int) →
    lo < crAscLoop lt a hi fuel runHi ∧
    crAscLoop lt a hi fuel runHi ≤ hi ∧
    SortedRun lt ((a.drop lo.toNat).take
      (crAscLoop lt a hi fuel runHi - lo).toNat) := by
  intro fuel
  induction fuel with
  | zero =>
    intro runHi h1 h2 hs hfuel
    rw [crAscLoop]
    exact ⟨h1, h2, hs⟩
  | succ fuel ih =>
    intro runHi h1 h2 hs hfuel
    rw [crAscLoop]
    by_cases hc : runHi < hi ∧
        lt (aget a runHi default) (aget a (runHi - 1) default) = false
    · rw [if_pos hc]
      have hlt : lo.toNat + (runHi - lo).toNat < a.length := by omega
      have hsnoc : (a.drop lo.toNat).take ((runHi - lo).toNat + 1) =
          (a.drop lo.toNat).take (runHi - lo).toNat ++
            [a.getD (lo.toNat + (runHi - lo).toNat) default] :=
        seg_take_succ a lo.toNat (runHi - lo).toNat default hlt
      have hs2 : SortedRun lt ((a.drop lo.toNat).take
          (runHi + 1 - lo).toNat) := by
        rw [show (runHi + 1 - lo).toNat = (runHi - lo).toNat + 1
          from by omega]
        rw [hsnoc, SortedRun]
        rw [List.chain'_append]
        refine ⟨hs, List.chain'_singleton _, ?_⟩
        intro x hx y hy
        rw [seg_getLast a lo.toNat (runHi - lo).toNat default
          (by omega) (by omega)] at hx
        simp only [Option.mem_def, Option.some_inj] at hx
        simp only [List.head?_cons, Option.mem_def, Option.some_inj] at hy
        subst hx
        subst hy
        have hr : aget a runHi default = a.getD (lo.toNat +
            (runHi - lo).toNat) default := by
          rw [aget, if_pos (by omega)]
          congr 1
          omega
        have hr1 : aget a (runHi - 1) default = a.getD (lo.toNat +
            (runHi - lo).toNat - 1) default := by
          rw [aget, if_pos (by omega)]
          congr 1
          omega
        rw [← hr, ← hr1]
        exact hc.2
      have := ih (runHi + 1) (by omega) (by omega) hs2 (by omega)
      exact this
    · rw [if_neg hc]
      exact ⟨h1, h2, hs⟩

theorem crDescLoop_spec (lt : α → α → Bool) [Inhabited α] (a : List α)
    (lo hi : Int) (h0 : 0 ≤ lo) (hhi : hi ≤ (a.length : Int)) :
    ∀ (fuel : Nat) (runHi : Int), lo < runHi → runHi ≤ hi →
    List.Chain' (fun x y => lt y x = true)
      ((a.drop lo.toNat).take (runHi - lo).toNat) →
    hi - runHi ≤ (fuel : Int) →
    lo < crDescLoop lt a hi fuel runHi ∧
    crDescLoop lt a hi fuel runHi ≤ hi ∧
    List.Chain' (fun x y => lt y x = true) ((a.drop lo.toNat).take
      (crDescLoop lt a hi fuel runHi - lo).toNat) := by
  intro fuel
  induction fuel with
  | zero =>
    intro runHi h1 h2 hs hfuel
    rw [crDescLoop]
    exact ⟨h1, h2, hs⟩
  | succ fuel ih =>
    intro runHi h1 h2 hs hfuel
    rw [crDescLoop]
    by_cases hc : runHi < hi ∧
        lt (aget a runHi default) (aget a (runHi - 1) default) = true
    · rw [if_pos hc]
      have hlt : lo.toNat + (runHi - lo).toNat < a.length := by omega
      have hsnoc : (a.drop lo.toNat).take ((runHi - lo).toNat + 1) =
          (a.drop lo.toNat).take (runHi - lo).toNat ++
            [a.getD (lo.toNat + (runHi - lo).toNat) default] :=
        seg_take_succ a lo.toNat (runHi - lo).toNat default hlt
      have hs2 : List.Chain' (fun x y => lt y x = true)
          ((a.drop lo.toNat).take (runHi + 1 - lo).toNat) := by
        rw [show (runHi + 1 - lo).toNat = (runHi - lo).toNat + 1
          from by omega]
        rw [hsnoc]
        rw [List.chain'_append]
        refine ⟨hs, List.chain'_singleton _, ?_⟩
        intro x hx y hy
        rw [seg_getLast a lo.toNat (runHi - lo).toNat default
          (by omega) (by omega)] at hx
        simp only [Option.mem_def, Option.some_inj] at hx
        simp only [List.head?_cons, Option.mem_def, Option.some_inj] at hy
        subst hx
        subst hy
        have hr : aget a runHi default = a.getD (lo.toNat +
            (runHi - lo).toNat) default := by
          rw [aget, if_pos (by omega)]
          congr 1
          omega
        have hr1 : aget a (runHi - 1) default = a.getD (lo.toNat +
            (runHi - lo).toNat - 1) default := by
          rw [aget, if_pos (by omega)]
          congr 1
          omega
        rw [← hr, ← hr1]
        exact hc.2
      exact ih (runHi + 1) (by omega) (by omega) hs2 (by omega)
    · rw [if_neg hc]
      exact ⟨h1, h2, hs⟩

/-- The reverse of a strictly descending run is ascending. -/
theorem chain_flip_sorted (hswo : SWOrd lt) {seg : List α}
    (hd : List.Chain' (fun x y => lt y x = true) seg) :
    SortedRun lt seg.reverse := by
  rw [SortedRun, List.chain'_reverse]
  exact hd.imp (fun a b hab => hswo.asymm hab)

/-- A strictly descending run holds at most one element of each
equivalence class. -/
theorem desc_filter_len_le_one (hswo : SWOrd lt) {seg : List α}
    (hd : List.Chain' (fun x y => lt y x = true) seg) (z : α) :
    (seg.filter (eqvB lt z)).length ≤ 1 := by
  have htrans : ∀ a b c : α, lt b a = true → lt c b = true →
      lt c a = true := fun a b c hab hbc => hswo.lt_trans c b a hbc hab
  have hpw : seg.Pairwise (fun x y => lt y x = true) :=
    chain'_pairwise_of_trans htrans hd
  have hpwf := List.Pairwise.filter (eqvB lt z) hpw
  rcases hf : seg.filter (eqvB lt z) with _ | ⟨x, _ | ⟨y, t⟩⟩
  · simp
  · simp
  · exfalso
    rw [hf] at hpwf
    have hyx : lt y x = true := (List.pairwise_cons.1 hpwf).1 y
      (List.mem_cons_self _ _)
    have hxmem : x ∈ seg.filter (eqvB lt z) := by
      rw [hf]; exact List.mem_cons_self _ _
    have hymem : y ∈ seg.filter (eqvB lt z) := by
      rw [hf]; exact List.mem_cons_of_mem x (List.mem_cons_self _ _)
    have hxe := (List.mem_filter.1 hxmem).2
    have hye := (List.mem_filter.1 hymem).2
    rw [eqvB, Bool.and_eq_true, Bool.not_eq_true', Bool.not_eq_true'] at hxe
    rw [eqvB, Bool.and_eq_true, Bool.not_eq_true', Bool.not_eq_true'] at hye
    have := (hswo.incomp_trans x z y hxe.2 hxe.1 hye.1 hye.2).2
    rw [hyx] at this
    simp at this

theorem reverse_filter_of_le_one {p : α → Bool} {l : List α}
    (h : (l.filter p).length ≤ 1) : l.reverse.filter p = l.filter p := by
  rw [List.filter_reverse]
  rcases hf : l.filter p with _ | ⟨x, _ | ⟨y, t⟩⟩
  · rfl
  · rfl
  · rw [hf] at h
    simp at h

theorem drop_len_append (xs ys : List α) (n : Nat) (h : xs.length = n) :
    (xs ++ ys).drop n = ys := by
  subst h
  exact List.drop_left xs ys

theorem take_len_append (xs ys : List α) (n : Nat) (h : xs.length = n) :
    (xs ++ ys).take n = xs := by
  subst h
  exact List.take_left xs ys

theorem drop_len2_append (xs ys zs : List α) (n : Nat)
    (h : xs.length + ys.length = n) : (xs ++ ys ++ zs).drop n = zs := by
  subst h
  rw [List.append_assoc, List.drop_append, List.drop_left]

theorem take_len2_append (xs ys zs : List α) (n : Nat)
    (h : xs.length + ys.length = n) : (xs ++ ys ++ zs).take n = xs ++ ys := by
  subst h
  rw [List.append_assoc, List.take_append, List.take_left]

theorem seg_of_append3 (xs ys zs : List α) (b n : Nat)
    (hb : xs.length = b) (hn : ys.length = n) :
    ((xs ++ ys ++ zs).drop b).take n = ys := by
  rw [List.append_assoc, drop_len_append xs (ys ++ zs) b hb]
  exact take_len_append ys zs n hn

/-- Specification of `countRunAndMakeAscending`: it succeeds, touches only
`a[lo..lo+rl)`, leaves there an ascending rearrangement, and preserves
every equivalence class of the whole array pointwise. -/
theorem countRun_spec (hswo : SWOrd lt) [Inhabited α] (a : List α)
    (lo hi : Int) (h0 : 0 ≤ lo) (hlh : lo < hi)
    (hhi : hi ≤ (a.length : Int)) :
    ∃ a2 rl, countRunAndMakeAscending lt a lo hi = .ok (a2, rl) ∧
      1 ≤ rl ∧ lo + rl ≤ hi ∧
      a2.length = a.length ∧
      a2.take lo.toNat = a.take lo.toNat ∧
      a2.drop (lo + rl).toNat = a.drop (lo + rl).toNat ∧
      SortedRun lt ((a2.drop lo.toNat).take rl.toNat) ∧
      a2.Perm a ∧
      (∀ z, a2.filter (eqvB lt z) = a.filter (eqvB lt z)) := by
  rw [countRunAndMakeAscending, if_neg (by omega)]
  have hseg1 : ∀ k : Int, lo ≤ k → k ≤ hi →
      ((a.drop lo.toNat).take (k - lo).toNat).length = (k - lo).toNat := by
    intro k hk1 hk2
    rw [List.length_take, List.length_drop]
    omega
  by_cases h1 : lo + 1 = hi
  · rw [if_pos h1]
    refine ⟨a, 1, rfl, by omega, by omega, rfl, rfl, rfl, ?_,
      List.Perm.refl a, fun z => rfl⟩
    apply chain'_of_len_le_one
    rw [List.length_take]
    omega
  · rw [if_neg h1]
    by_cases h2 : lt (aget a (lo + 1) default) (aget a lo default) = true
    · rw [if_pos h2]
      -- strictly descending start: run found by crDescLoop, then reversed
      have hpair : List.Chain' (fun x y => lt y x = true)
          ((a.drop lo.toNat).take (lo + 2 - lo).toNat) := by
        have hl1 : lo.toNat < a.length := by omega
        have hl2 : lo.toNat + 1 < a.length := by omega
        have ht1 : (a.drop lo.toNat).take 1 =
            [a.getD (lo.toNat + 0) default] := by
          have := seg_take_succ a lo.toNat 0 default (by omega)
          rw [this]
          rfl
        have ht2 : (a.drop lo.toNat).take 2 =
            [a.getD lo.toNat default] ++ [a.getD (lo.toNat + 1) default] := by
          have := seg_take_succ a lo.toNat 1 default (by omega)
          rw [this, ht1]
          rfl
        rw [show (lo + 2 - lo).toNat = 2 from by omega, ht2]
        rw [List.chain'_append]
        refine ⟨List.chain'_singleton _, List.chain'_singleton _, ?_⟩
        intro x hx y hy
        simp only [List.getLast?_singleton, Option.mem_def,
          Option.some_inj] at hx
        simp only [List.head?_cons, Option.mem_def, Option.some_inj] at hy
        subst hx
        subst hy
        have hga : aget a (lo + 1) default = a.getD (lo.toNat + 1) default := by
          rw [aget, if_pos (by omega)]
          congr 1
          omega
        have hgb : aget a lo default = a.getD lo.toNat default := by
          rw [aget, if_pos (by omega)]
        rw [← hga, ← hgb]
        exact h2
      have hdesc := crDescLoop_spec lt a lo hi h0 hhi ((hi - lo).toNat)
        (lo + 2) (by omega) (by omega) hpair (by omega)
      obtain ⟨hR1, hR2, hRchain⟩ := hdesc
      set R := crDescLoop lt a hi ((hi - lo).toNat) (lo + 2) with hRdef
      have hrev : reverseRange a lo R =
          a.take lo.toNat ++
            ((a.drop lo.toNat).take (R - lo).toNat).reverse ++
            a.drop R.toNat := by
        rw [reverseRange]
        have := revLoop_spec (a.length + 1) a lo (R - 1) h0 (by omega)
          (by omega) (by omega)
        rw [this]
        rw [show R - 1 + 1 = R from by omega]
      have hseglen : ((a.drop lo.toNat).take (R - lo).toNat).length =
          (R - lo).toNat := hseg1 R (by omega) hR2
      have hsplit : a = a.take lo.toNat ++
          ((a.drop lo.toNat).take (R - lo).toNat) ++ a.drop R.toNat := by
        conv_lhs => rw [← List.take_append_drop lo.toNat a]
        rw [List.append_assoc]
        congr 1
        conv_lhs => rw [← List.take_append_drop (R - lo).toNat
          (a.drop lo.toNat)]
        congr 1
        rw [List.drop_drop]
        congr 1
        omega
      have hpreflen : (a.take lo.toNat).length = lo.toNat := by
        rw [List.length_take]
        omega
      refine ⟨reverseRange a lo R, R - lo, rfl, by omega, by omega,
        ?_, ?_, ?_, ?_, ?_, ?_⟩
      · rw [hrev]
        conv_rhs => rw [hsplit]
        simp [List.length_append, List.length_reverse]
      · rw [hrev, List.append_assoc]
        rw [List.take_append_of_le_length (by rw [hpreflen])]
        exact List.take_of_length_le (by rw [hpreflen])
      · rw [hrev]
        conv_rhs => rw [hsplit]
        rw [drop_len2_append _ _ _ _ (by
          rw [hpreflen, List.length_reverse, hseglen]; omega)]
        rw [drop_len2_append _ _ _ _ (by rw [hpreflen, hseglen]; omega)]
      · rw [hrev]
        rw [seg_of_append3 _ _ _ _ _ hpreflen (by
          rw [List.length_reverse, hseglen])]
        exact chain_flip_sorted hswo hRchain
      · rw [hrev]
        conv_rhs => rw [hsplit]
        refine List.Perm.append ?_ (List.Perm.refl _)
        refine List.Perm.append (List.Perm.refl _) ?_
        exact List.reverse_perm _
      · intro z
        rw [hrev]
        conv_rhs => rw [hsplit]
        rw [List.filter_append, List.filter_append, List.filter_append,
          List.filter_append]
        congr 1
        congr 1
        exact reverse_filter_of_le_one (desc_filter_len_le_one hswo
          hRchain z)
    · rw [if_neg h2]
      have hone : SortedRun lt ((a.drop lo.toNat).take
          (lo + 1 - lo).toNat) := by
        apply chain'_of_len_le_one
        rw [List.length_take]
        omega
      have hasc := crAscLoop_spec lt a lo hi h0 hhi ((hi - lo).toNat)
        (lo + 1) (by omega) (by omega) hone (by omega)
      obtain ⟨hR1, hR2, hRchain⟩ := hasc
      refine ⟨a, crAscLoop lt a hi ((hi - lo).toNat) (lo + 1) - lo, rfl,
        by omega, by omega, rfl, rfl, rfl, ?_, List.Perm.refl a,
        fun z => rfl⟩
      rw [show (crAscLoop lt a hi ((hi - lo).toNat) (lo + 1) - lo).toNat =
        (crAscLoop lt a hi ((hi - lo).toNat) (lo + 1) - lo).toNat from rfl]
      exact hRchain

/-! ### `binarySort` (src/unnamed/part_003 lines 268-310) -/

def bsInsLoop (lt : α → α → Bool) [Inhabited α] (a : List α) (pivot : α) :
    Nat → Int → Int → Int × Int
  | 0, left, right => (left, right)
  | fuel + 1, left, right =>
    if left < right then
      if lt pivot (aget a ((left + right) / 2) default) = true then
        bsInsLoop lt a pivot fuel left ((left + right) / 2)
      else bsInsLoop lt a pivot fuel ((left + right) / 2 + 1) right
    else (left, right)

/-- The slide that makes room for the pivot: the two special cases for
`n <= 2` and the general `copy(a[left+1:], a[left:left+n])`. -/
def bsSlide [Inhabited α] (a : List α) (left n : Int) : List α :=
  if n ≤ 2 then
    let a3 := if n = 2 then iset a (left + 2) (aget a (left + 1) default)
      else a
    if 0 < n then iset a3 (left + 1) (aget a3 left default) else a3
  else icopy a (left + 1) a left n

def binarySortLoop (lt : α → α → Bool) [Inhabited α] (lo hi : Int) :
    Nat → List α → Int → Except String (List α)
  | 0, _, _ => .error "fuel exhausted"
  | fuel + 1, a, start =>
    if start < hi then
      if lo > start then .error "left <= right"
      else if (bsInsLoop lt a (aget a start default)
            ((start - lo).toNat + 1) lo start).1 ≠
          (bsInsLoop lt a (aget a start default)
            ((start - lo).toNat + 1) lo start).2 then
        .error "left == right"
      else
        binarySortLoop lt lo hi fuel
          (iset (bsSlide a
              (bsInsLoop lt a (aget a start default)
                ((start - lo).toNat + 1) lo start).1
              (start - (bsInsLoop lt a (aget a start default)
                ((start - lo).toNat + 1) lo start).1))
            (bsInsLoop lt a (aget a start default)
              ((start - lo).toNat + 1) lo start).1
            (aget a start default))
          (start + 1)
    else .ok a

/-- `binarySort(a, lo, hi, start)`: binary insertion sort of `a[lo..hi)`
assuming `a[lo..start)` is already sorted.  One element is inserted per
round of the outer loop, so `(hi - start).toNat + 1` rounds of fuel
suffice; the inner binary search halves `right - left ≤ start - lo` per
round. -/
def binarySort (lt : α → α → Bool) [Inhabited α] (a : List α)
    (lo hi start : Int) : Except String (List α) :=
  if lo > start ∨ start > hi then .error "lo <= start && start <= hi"
  else binarySortLoop lt lo hi
    ((hi - (if start = lo then start + 1 else start)).toNat + 1) a
    (if start = lo then start + 1 else start)

theorem bsInsLoop_spec (lt : α → α → Bool) [Inhabited α] (a : List α)
    (pivot : α) (lo start B : Int)
    (h1 : ∀ i : Int, lo ≤ i → i < B →
      lt pivot (aget a i default) = false)
    (h2 : ∀ i : Int, B ≤ i → i < start →
      lt pivot (aget a i default) = true) :
    ∀ (fuel : Nat) (left right : Int), lo ≤ left → left ≤ B → B ≤ right →
    right ≤ start → right - left ≤ (fuel : Int) →
    bsInsLoop lt a pivot fuel left right = (B, B) := by
  intro fuel
  induction fuel with
  | zero =>
    intro left right hl1 hl2 hr1 hr2 hfuel
    rw [bsInsLoop]
    have h3 : left = B := by omega
    have h4 : right = B := by omega
    rw [h3, h4]
  | succ fuel ih =>
    intro left right hl1 hl2 hr1 hr2 hfuel
    rw [bsInsLoop]
    by_cases hlt : left < right
    · rw [if_pos hlt]
      have hm1 : left ≤ (left + right) / 2 := by omega
      have hm2 : (left + right) / 2 < right := by omega
      by_cases hp : lt pivot (aget a ((left + right) / 2) default) = true
      · rw [if_pos hp]
        have hmB : (left + right) / 2 ≥ B := by
          by_contra hcon
          push_neg at hcon
          have := h1 ((left + right) / 2) (by omega) (by omega)
          rw [hp] at this
          simp at this
        exact ih left ((left + right) / 2) hl1 hl2 (by omega) (by omega)
          (by omega)
      · rw [if_neg hp]
        have hmB : (left + right) / 2 < B := by
          by_contra hcon
          push_neg at hcon
          have := h2 ((left + right) / 2) (by omega) (by omega)
          rw [this] at hp
          simp at hp
        exact ih ((left + right) / 2 + 1) right (by omega) (by omega) hr1
          hr2 (by omega)
    · rw [if_neg hlt]
      have h3 : left = B := by omega
      have h4 : right = B := by omega
      rw [h3, h4]

/-- The slide plus the final `a[left] = pivot` write turn
`A1 ++ M ++ [pv] ++ T` into `A1 ++ [pivot] ++ M ++ T`: the room for the
pivot is made by shifting `M` one slot right, in all three slide
branches. -/
theorem bsSlide_insert [Inhabited α] (A1 M T : List α) (pv pivot : α)
    (left n : Int) (hlen : (A1.length : Int) = left)
    (hM : (M.length : Int) = n) :
    iset (bsSlide (A1 ++ M ++ [pv] ++ T) left n) left pivot =
      A1 ++ [pivot] ++ M ++ T := by
  have hleft0 : 0 ≤ left := by omega
  have hn0 : 0 ≤ n := by omega
  have hL : left = (A1.length : Int) + 0 := by omega
  rw [bsSlide]
  by_cases h2 : n ≤ 2
  · rw [if_pos h2]
    rcases M with _ | ⟨m0, _ | ⟨m1, _ | ⟨m2, M3⟩⟩⟩
    · have hn : n = 0 := by simp at hM; omega
      dsimp only
      rw [if_neg (show ¬ n = 2 from by omega)]
      rw [if_neg (show ¬ 0 < n from by omega)]
      have ha : A1 ++ ([] : List α) ++ [pv] ++ T = A1 ++ (pv :: T) := by
        simp
      rw [ha, hL, iset_append _ _ 0 _ (by omega)]
      rw [show iset (pv :: T) 0 pivot = pivot :: T from rfl]
      simp
    · have hn : n = 1 := by simp at hM; omega
      dsimp only
      rw [if_neg (show ¬ n = 2 from by omega)]
      rw [if_pos (show 0 < n from by omega)]
      have ha : A1 ++ [m0] ++ [pv] ++ T = A1 ++ (m0 :: pv :: T) := by
        simp
      rw [ha]
      rw [show left + 1 = (A1.length : Int) + 1 from by omega]
      rw [hL, aget_append _ _ 0 _ (by omega)]
      rw [show aget (m0 :: pv :: T) 0 default = m0 from rfl]
      rw [iset_append _ _ 1 _ (by omega)]
      rw [show iset (m0 :: pv :: T) 1 m0 = m0 :: m0 :: T from rfl]
      rw [iset_append _ _ 0 _ (by omega)]
      rw [show iset (m0 :: m0 :: T) 0 pivot = pivot :: m0 :: T from rfl]
      simp
    · have hn : n = 2 := by simp at hM; omega
      dsimp only
      rw [if_pos (show n = 2 from by omega)]
      rw [if_pos (show 0 < n from by omega)]
      have ha : A1 ++ [m0, m1] ++ [pv] ++ T = A1 ++ (m0 :: m1 :: pv :: T) := by
        simp
      rw [ha]
      rw [show left + 2 = (A1.length : Int) + 2 from by omega]
      rw [show left + 1 = (A1.length : Int) + 1 from by omega]
      rw [hL]
      rw [aget_append _ _ 1 _ (by omega)]
      rw [show aget (m0 :: m1 :: pv :: T) 1 default = m1 from rfl]
      rw [iset_append _ _ 2 _ (by omega)]
      rw [show iset (m0 :: m1 :: pv :: T) 2 m1 = m0 :: m1 :: m1 :: T from rfl]
      rw [aget_append _ _ 0 _ (by omega)]
      rw [show aget (m0 :: m1 :: m1 :: T) 0 default = m0 from rfl]
      rw [iset_append _ _ 1 _ (by omega)]
      rw [show iset (m0 :: m1 :: m1 :: T) 1 m0 = m0 :: m0 :: m1 :: T from rfl]
      rw [iset_append _ _ 0 _ (by omega)]
      rw [show iset (m0 :: m0 :: m1 :: T) 0 pivot = pivot :: m0 :: m1 :: T
        from rfl]
      simp
    · exfalso
      simp at hM
      omega
  · rw [if_neg h2]
    rcases M with _ | ⟨m0, M1⟩
    · exfalso
      simp at hM
      omega
    have hM1len : M1.length = (n - 1).toNat := by simp at hM; omega
    have hdst : A1 ++ (m0 :: M1) ++ [pv] ++ T =
        (A1 ++ [m0]) ++ ((M1 ++ [pv]) ++ T) := by
      simp
    rw [hdst]
    have hcopy : icopy ((A1 ++ [m0]) ++ ((M1 ++ [pv]) ++ T)) (left + 1)
        ((A1 ++ [m0]) ++ ((M1 ++ [pv]) ++ T)) left n =
        (A1 ++ [m0]) ++ ((m0 :: M1) ++
          ((M1 ++ [pv]) ++ T).drop n.toNat) := by
      rw [show left + 1 = (((A1 ++ [m0]).length : Int)) from by
        simp; omega]
      rw [icopy_append _ _ _ _ _ (by simp [hM1len]; omega)]
      rw [List.append_assoc]
      congr 1
      congr 1
      have hsrc : ((A1 ++ [m0]) ++ ((M1 ++ [pv]) ++ T)).drop left.toNat =
          m0 :: ((M1 ++ [pv]) ++ T) := by
        have ha2 : (A1 ++ [m0]) ++ ((M1 ++ [pv]) ++ T) =
            A1 ++ (m0 :: ((M1 ++ [pv]) ++ T)) := by simp
        rw [ha2, drop_len_append _ _ _ (by omega)]
      rw [hsrc]
      rw [show n.toNat = (n - 1).toNat + 1 from by omega]
      rw [List.take_succ_cons]
      congr 1
      have ha3 : (M1 ++ [pv]) ++ T = M1 ++ ([pv] ++ T) := by simp
      rw [ha3, take_len_append _ _ _ hM1len]
    rw [hcopy]
    rw [drop_len_append _ _ _ (by simp [hM1len]; omega)]
    have hre : (A1 ++ [m0]) ++ ((m0 :: M1) ++ T) =
        A1 ++ (m0 :: ((m0 :: M1) ++ T)) := by simp
    rw [hre, hL, iset_append _ _ 0 _ (by omega)]
    rw [show iset (m0 :: ((m0 :: M1) ++ T)) 0 pivot =
      pivot :: ((m0 :: M1) ++ T) from rfl]
    simp

theorem drop_of_append_ge (X T : List α) (n : Nat) (h : X.length ≤ n) :
    (X ++ T).drop n = T.drop (n - X.length) := by
  obtain ⟨k, rfl⟩ : ∃ k, n = X.length + k := ⟨n - X.length, by omega⟩
  rw [List.drop_append]
  congr 1
  omega

/-- One round of the binary-insertion loop: the element at `start` is
inserted at its upper bound `B`, and the loop invariant recursion (given
as `ih`) finishes the job. -/
theorem bsStep_and_recurse (hswo : SWOrd lt) [Inhabited α] (lo hi : Int)
    (h0 : 0 ≤ lo) (fuel : Nat)
    (ih : ∀ (a : List α) (start : Int), lo ≤ start → start ≤ hi →
      hi ≤ (a.length : Int) →
      SortedRun lt ((a.drop lo.toNat).take (start - lo).toNat) →
      hi - start < (fuel : Int) →
      ∃ a2, binarySortLoop lt lo hi fuel a start = .ok a2 ∧
        a2.length = a.length ∧
        a2.take lo.toNat = a.take lo.toNat ∧
        a2.drop hi.toNat = a.drop hi.toNat ∧
        SortedRun lt ((a2.drop lo.toNat).take (hi - lo).toNat) ∧
        a2.Perm a ∧
        (∀ z, a2.filter (eqvB lt z) = a.filter (eqvB lt z)))
    (a : List α) (start B : Int) (h1 : lo ≤ start) (h2 : start ≤ hi)
    (h3 : hi ≤ (a.length : Int))
    (hs : SortedRun lt ((a.drop lo.toNat).take (start - lo).toNat))
    (hfuel : hi - start - 1 < (fuel : Int)) (hlt : start < hi)
    (hBlo : lo ≤ B) (hBst : B ≤ start)
    (h1p : ∀ i : Int, lo ≤ i → i < B →
      lt (aget a start default) (aget a i default) = false)
    (h2p : ∀ i : Int, B ≤ i → i < start →
      lt (aget a start default) (aget a i default) = true) :
    ∃ a2, binarySortLoop lt lo hi fuel
        (iset (bsSlide a B (start - B)) B (aget a start default))
        (start + 1) = .ok a2 ∧
      a2.length = a.length ∧
      a2.take lo.toNat = a.take lo.toNat ∧
      a2.drop hi.toNat = a.drop hi.toNat ∧
      SortedRun lt ((a2.drop lo.toNat).take (hi - lo).toNat) ∧
      a2.Perm a ∧
      (∀ z, a2.filter (eqvB lt z) = a.filter (eqvB lt z)) := by
  set pv := aget a start default with hpv
  set P0 := a.take lo.toNat with hP0
  set W1 := (a.drop lo.toNat).take (B - lo).toNat with hW1
  set M := (a.drop B.toNat).take (start - B).toNat with hM
  set T := a.drop (start + 1).toNat with hT
  have hP0len : P0.length = lo.toNat := by
    rw [hP0, List.length_take]
    omega
  have hW1len : W1.length = (B - lo).toNat := by
    rw [hW1, List.length_take, List.length_drop]
    omega
  have hMlen : M.length = (start - B).toNat := by
    rw [hM, List.length_take, List.length_drop]
    omega
  have hA1len : (a.take B.toNat).length = B.toNat := by
    rw [List.length_take]
    omega
  have hpvd : pv = a.getD start.toNat default := by
    rw [hpv, aget, if_pos (by omega)]
  have hd1 : a.drop B.toNat = M ++ a.drop start.toNat := by
    conv_lhs => rw [← List.take_append_drop (start - B).toNat
      (a.drop B.toNat)]
    rw [hM]
    congr 1
    rw [List.drop_drop]
    congr 1
    omega
  have hd2 : a.drop start.toNat = pv :: T := by
    have hlt2 : start.toNat < a.length := by omega
    rw [List.drop_eq_getElem_cons hlt2]
    congr 1
    · rw [hpvd, List.getD_eq_getElem _ _ hlt2]
    · rw [hT]
      congr 1
      omega
  have hdecomp : a = a.take B.toNat ++ M ++ [pv] ++ T := by
    conv_lhs => rw [← List.take_append_drop B.toNat a, hd1, hd2]
    simp
  have hA1 : a.take B.toNat = P0 ++ W1 := by
    rw [hP0, hW1, show B.toNat = lo.toNat + (B - lo).toNat from by omega,
      List.take_add]
  have hw : (a.drop lo.toNat).take (start - lo).toNat = W1 ++ M := by
    rw [hW1, hM, show (start - lo).toNat =
      (B - lo).toNat + (start - B).toNat from by omega, List.take_add]
    congr 1
    rw [List.drop_drop]
    congr 2
    omega
  have hMget : ∀ k : Nat, k < (start - B).toNat →
      M.getD k default = a.getD (B.toNat + k) default := by
    intro k hk
    rw [hM]
    rw [List.getD_eq_getElem _ _ (by rw [List.length_take, List.length_drop]; omega)]
    rw [List.getElem_take, List.getElem_drop]
    rw [List.getD_eq_getElem _ _ (by omega)]
  have hins : iset (bsSlide a B (start - B)) B pv =
      P0 ++ (W1 ++ pv :: M) ++ T := by
    conv_lhs => rw [hdecomp]
    rw [bsSlide_insert (a.take B.toNat) M T pv pv B (start - B)
      (by rw [hA1len]; omega) (by rw [hMlen]; omega)]
    rw [hA1]
    simp
  rw [hins]
  have hlen2 : (P0 ++ (W1 ++ pv :: M) ++ T).length = a.length := by
    conv_rhs => rw [hdecomp]
    simp only [List.length_append, List.length_cons, List.length_nil]
    omega
  have hseg2 : ((P0 ++ (W1 ++ pv :: M) ++ T).drop lo.toNat).take
      (start + 1 - lo).toNat = W1 ++ pv :: M := by
    apply seg_of_append3 _ _ _ _ _ hP0len
    simp only [List.length_append, List.length_cons]
    omega
  have hsort2 : SortedRun lt (W1 ++ pv :: M) := by
    rw [hw] at hs
    rw [SortedRun] at hs ⊢
    obtain ⟨cW1, cM, hjoin⟩ := List.chain'_append.1 hs
    rw [List.chain'_append]
    refine ⟨cW1, ?_, ?_⟩
    · rw [List.chain'_cons']
      refine ⟨?_, cM⟩
      intro y hy
      cases hMc : M with
      | nil =>
        rw [hMc] at hy
        simp at hy
      | cons m0 M2 =>
        rw [hMc] at hy
        simp only [List.head?_cons, Option.mem_def, Option.some_inj] at hy
        subst hy
        have hm0 : m0 = a.getD (B.toNat + 0) default := by
          have := hMget 0 (by rw [← hMlen, hMc]; simp)
          rw [hMc, List.getD_cons_zero] at this
          exact this
        have hBlt : B < start := by
          have hml : M.length = M2.length + 1 := by rw [hMc]; simp
          omega
        have hlt0 : lt pv (aget a B default) = true :=
          h2p B (le_refl B) hBlt
        have hag : aget a B default = a.getD (B.toNat + 0) default := by
          rw [aget, if_pos (by omega)]
          simp
        rw [hag] at hlt0
        rw [hm0]
        exact hswo.asymm hlt0
    · intro x hx y hy
      simp only [List.head?_cons, Option.mem_def, Option.some_inj] at hy
      subst hy
      by_cases hBeq : (B - lo).toNat = 0
      · rw [hW1, hBeq] at hx
        simp at hx
      · rw [hW1, seg_getLast a lo.toNat (B - lo).toNat default
          (by omega) (by omega)] at hx
        simp only [Option.mem_def, Option.some_inj] at hx
        subst hx
        have hb1 : lt pv (aget a (B - 1) default) = false :=
          h1p (B - 1) (by omega) (by omega)
        have hag : aget a (B - 1) default =
            a.getD (lo.toNat + (B - lo).toNat - 1) default := by
          rw [aget, if_pos (by omega)]
          congr 1
          omega
        rw [hag] at hb1
        exact hb1
  have happly := ih (P0 ++ (W1 ++ pv :: M) ++ T) (start + 1) (by omega)
    (by omega) (by rw [hlen2]; omega)
    (by rw [hseg2]; exact hsort2) (by omega)
  obtain ⟨a2, heq, hL, hTk, hDp, hSt, hPm, hFl⟩ := happly
  have hXlen : (P0 ++ (W1 ++ pv :: M)).length = (start + 1).toNat := by
    simp only [List.length_append, List.length_cons]
    omega
  have hXalen : ((a.take B.toNat ++ M) ++ [pv]).length = (start + 1).toNat := by
    simp only [List.length_append, List.length_cons, List.length_nil]
    rw [hA1len]
    omega
  refine ⟨a2, heq, ?_, ?_, ?_, hSt, ?_, ?_⟩
  · rw [hL, hlen2]
  · rw [hTk]
    rw [List.append_assoc]
    rw [take_len_append _ _ _ hP0len]
  · rw [hDp]
    rw [drop_of_append_ge (P0 ++ (W1 ++ pv :: M)) T hi.toNat
      (by rw [hXlen]; omega)]
    conv_rhs => rw [hdecomp]
    rw [show a.take B.toNat ++ M ++ [pv] ++ T =
      ((a.take B.toNat ++ M) ++ [pv]) ++ T from by simp]
    rw [drop_of_append_ge ((a.take B.toNat ++ M) ++ [pv]) T hi.toNat
      (by rw [hXalen]; omega)]
    rw [hXlen, hXalen]
  · refine hPm.trans ?_
    conv_rhs => rw [hdecomp, hA1]
    rw [show P0 ++ (W1 ++ pv :: M) ++ T = (P0 ++ W1) ++ (pv :: (M ++ T))
      from by simp]
    rw [show (P0 ++ W1) ++ M ++ [pv] ++ T = (P0 ++ W1) ++ (M ++ pv :: T)
      from by simp]
    exact List.Perm.append_left _ List.perm_middle.symm
  · intro z
    rw [hFl z]
    conv_rhs => rw [hdecomp, hA1]
    by_cases hpz : eqvB lt z pv = true
    · have hMnil : M.filter (eqvB lt z) = [] := by
        rw [List.filter_eq_nil_iff]
        intro m hm
        rcases List.mem_iff_getElem.1 hm with ⟨k, hk, hget⟩
        have hkb : k < (start - B).toNat := by rw [← hMlen]; omega
        have hmv : m = a.getD (B.toNat + k) default := by
          rw [← hMget k hkb, List.getD_eq_getElem _ _ hk]
          exact hget.symm
        have hltm : lt pv (aget a (B + (k : Int)) default) = true :=
          h2p (B + k) (by omega) (by omega)
        have hag : aget a (B + (k : Int)) default =
            a.getD (B.toNat + k) default := by
          rw [aget, if_pos (by omega)]
          congr 1
          omega
        rw [hag, ← hmv] at hltm
        intro hme
        rw [eqvB, Bool.and_eq_true, Bool.not_eq_true',
          Bool.not_eq_true'] at hme
        have hpze := hpz
        rw [eqvB, Bool.and_eq_true, Bool.not_eq_true',
          Bool.not_eq_true'] at hpze
        have := (hswo.incomp_trans pv z m hpze.2 hpze.1 hme.1 hme.2).1
        rw [hltm] at this
        simp at this
      simp [List.filter_append, List.filter_cons, hpz, hMnil,
        List.append_assoc]
    · have hpzf : eqvB lt z pv = false := by
        cases hx : eqvB lt z pv with
        | true => exact absurd hx hpz
        | false => rfl
      simp [List.filter_append, List.filter_cons, hpzf,
        List.append_assoc]

theorem binarySortLoop_spec (hswo : SWOrd lt) [Inhabited α] (lo hi : Int)
    (h0 : 0 ≤ lo) :
    ∀ (fuel : Nat) (a : List α) (start : Int),
    lo ≤ start → start ≤ hi → hi ≤ (a.length : Int) →
    SortedRun lt ((a.drop lo.toNat).take (start - lo).toNat) →
    hi - start < (fuel : Int) →
    ∃ a2, binarySortLoop lt lo hi fuel a start = .ok a2 ∧
      a2.length = a.length ∧
      a2.take lo.toNat = a.take lo.toNat ∧
      a2.drop hi.toNat = a.drop hi.toNat ∧
      SortedRun lt ((a2.drop lo.toNat).take (hi - lo).toNat) ∧
      a2.Perm a ∧
      (∀ z, a2.filter (eqvB lt z) = a.filter (eqvB lt z)) := by
  intro fuel
  induction fuel with
  | zero =>
    intro a start h1 h2 h3 hs hfuel
    exfalso
    simp at hfuel
    omega
  | succ fuel ih =>
    intro a start h1 h2 h3 hs hfuel
    rw [binarySortLoop]
    by_cases hlt : start < hi
    · rw [if_pos hlt, if_neg (show ¬ lo > start from by omega)]
      -- the window already sorted and the pivot
      have hwlen : ((a.drop lo.toNat).take (start - lo).toNat).length =
          (start - lo).toNat := by
        rw [List.length_take, List.length_drop]
        omega
      have hwget : ∀ k : Nat, k < (start - lo).toNat →
          ((a.drop lo.toNat).take (start - lo).toNat).getD k default =
            a.getD (lo.toNat + k) default := by
        intro k hk
        rw [List.getD_eq_getElem _ _ (by omega)]
        rw [List.getElem_take, List.getElem_drop]
        rw [List.getD_eq_getElem _ _ (by omega)]
      have hUBle : upperBoundIdx lt ((a.drop lo.toNat).take
          (start - lo).toNat) (aget a start default) ≤
          (start - lo).toNat := by
        rw [upperBoundIdx]
        exact le_trans (List.findIdx_le_length _) hwlen.le
      -- the insertion point
      have h1p : ∀ i : Int, lo ≤ i → i < lo + (upperBoundIdx lt
          ((a.drop lo.toNat).take (start - lo).toNat)
          (aget a start default) : Nat) →
          lt (aget a start default) (aget a i default) = false := by
        intro i hi1 hi2
        have hagi : aget a i default = a.getD i.toNat default := by
          rw [aget, if_pos (show (0 : Int) ≤ i from by omega)]
        rw [hagi]
        have hk : i.toNat = lo.toNat + (i.toNat - lo.toNat) := by omega
        rw [hk, ← hwget (i.toNat - lo.toNat) (by omega)]
        exact upB_nlt default (by omega)
      have h2p : ∀ i : Int, lo + (upperBoundIdx lt
          ((a.drop lo.toNat).take (start - lo).toNat)
          (aget a start default) : Nat) ≤ i → i < start →
          lt (aget a start default) (aget a i default) = true := by
        intro i hi1 hi2
        have hagi : aget a i default = a.getD i.toNat default := by
          rw [aget, if_pos (show (0 : Int) ≤ i from by omega)]
        rw [hagi]
        have hup : lt (aget a start default)
            (((a.drop lo.toNat).take (start - lo).toNat).getD
              (upperBoundIdx lt ((a.drop lo.toNat).take (start - lo).toNat)
                (aget a start default)) default) = true :=
          upB_lt default (by omega)
        have hnlt : lt (((a.drop lo.toNat).take (start - lo).toNat).getD
            (i.toNat - lo.toNat) default)
            (((a.drop lo.toNat).take (start - lo).toNat).getD
              (upperBoundIdx lt ((a.drop lo.toNat).take (start - lo).toNat)
                (aget a start default)) default) = false :=
          SortedRun.getD_nlt hswo hs (by omega) (by omega) default default
        have := hswo.lt_of_lt_of_nlt hup hnlt
        have hk : i.toNat = lo.toNat + (i.toNat - lo.toNat) := by omega
        rw [hk, ← hwget (i.toNat - lo.toNat) (by omega)]
        exact this
      have hbs : bsInsLoop lt a (aget a start default)
          ((start - lo).toNat + 1) lo start =
          (lo + (upperBoundIdx lt ((a.drop lo.toNat).take
            (start - lo).toNat) (aget a start default) : Nat),
           lo + (upperBoundIdx lt ((a.drop lo.toNat).take
            (start - lo).toNat) (aget a start default) : Nat)) :=
        bsInsLoop_spec lt a (aget a start default) lo start _ h1p h2p
          ((start - lo).toNat + 1) lo start (by omega) (by omega)
          (by omega) (by omega) (by omega)
      rw [hbs]
      dsimp only
      rw [if_neg (show ¬ (lo + (upperBoundIdx lt ((a.drop lo.toNat).take
        (start - lo).toNat) (aget a start default) : Nat) ≠
        lo + (upperBoundIdx lt ((a.drop lo.toNat).take
        (start - lo).toNat) (aget a start default) : Nat))
        from fun hne => hne rfl)]
      exact bsStep_and_recurse hswo lo hi h0 fuel ih a start
        (lo + (upperBoundIdx lt ((a.drop lo.toNat).take (start - lo).toNat)
          (aget a start default) : Nat))
        h1 h2 h3 hs (by omega) hlt (by omega) (by omega) h1p h2p
    · rw [if_neg hlt]
      have hse : start = hi := by omega
      subst hse
      exact ⟨a, rfl, rfl, rfl, rfl, hs, List.Perm.refl a, fun z => rfl⟩

/-- Specification of `binarySort`: given a valid range with the prefix
`[lo, start)` already sorted, it succeeds and sorts `[lo, hi)` in place,
preserving everything outside, the multiset of elements, and every
equivalence class pointwise. -/
theorem binarySort_spec (hswo : SWOrd lt) [Inhabited α] (a : List α)
    (lo hi start : Int) (h0 : 0 ≤ lo) (h1 : lo ≤ start) (h2 : start ≤ hi)
    (h3 : hi ≤ (a.length : Int))
    (hs : SortedRun lt ((a.drop lo.toNat).take (start - lo).toNat)) :
    ∃ a2, binarySort lt a lo hi start = .ok a2 ∧
      a2.length = a.length ∧
      a2.take lo.toNat = a.take lo.toNat ∧
      a2.drop hi.toNat = a.drop hi.toNat ∧
      SortedRun lt ((a2.drop lo.toNat).take (hi - lo).toNat) ∧
      a2.Perm a ∧
      (∀ z, a2.filter (eqvB lt z) = a.filter (eqvB lt z)) := by
  rw [binarySort]
  rw [if_neg (show ¬ (lo > start ∨ start > hi) from
    fun hc => by rcases hc with hc | hc <;> omega)]
  by_cases hsl : start = lo
  · rw [if_pos hsl]
    subst hsl
    by_cases hhi : start < hi
    · have hs1 : SortedRun lt ((a.drop start.toNat).take
          ((start + 1) - start).toNat) := by
        rw [SortedRun]
        apply chain'_of_len_le_one
        rw [List.length_take]
        omega
      exact binarySortLoop_spec hswo start hi h0 _ a (start + 1)
        (by omega) (by omega) h3 hs1 (by omega)
    · have hse : hi = start := by omega
      subst hse
      rw [binarySortLoop]
      rw [if_neg (show ¬ hi + 1 < hi from by omega)]
      refine ⟨a, rfl, rfl, rfl, rfl, ?_, List.Perm.refl a, fun z => rfl⟩
      rw [SortedRun]
      apply chain'_of_len_le_one
      rw [List.length_take]
      omega
  · rw [if_neg hsl]
    exact binarySortLoop_spec hswo lo hi h0 _ a start h1 h2 h3 hs (by omega)

/-! ### Block-copy lemmas for the merge loops -/

theorem icopy_zero (dst : List α) (d : Int) (src : List α) (s : Int) :
    icopy dst d src s 0 = dst := by
  rw [icopy]
  simp

theorem icopy_ite (dst : List α) (d : Int) (src : List α) (s k : Int) :
    (if k ≠ 0 then icopy dst d src s k else dst) = icopy dst d src s k := by
  by_cases h : k = 0
  · rw [if_neg (by simp [h]), h, icopy_zero]
  · rw [if_pos h]

/-- Copying `k` elements of `src` to the start of the middle block. -/
theorem icopy_start_of_mid (Pre G Rest src : List α) (s k : Int)
    (hk0 : 0 ≤ k) (hkle : k ≤ (G.length : Int)) :
    icopy (Pre ++ G ++ Rest) ((Pre.length : Int)) src s k =
    Pre ++ (src.drop s.toNat).take k.toNat ++ G.drop k.toNat ++ Rest := by
  rw [icopy]
  have h1 : ((Pre.length : Int)).toNat = Pre.length := by omega
  rw [h1]
  have h2 : (Pre ++ G ++ Rest).take Pre.length = Pre := by
    rw [show Pre ++ G ++ Rest = Pre ++ (G ++ Rest) from by simp,
      take_len_append _ _ _ rfl]
  have h3 : (Pre ++ G ++ Rest).drop (Pre.length + k.toNat) =
      G.drop k.toNat ++ Rest := by
    rw [show Pre ++ G ++ Rest = Pre ++ (G ++ Rest) from by simp,
      List.drop_append, List.drop_append_eq_append_drop,
      show k.toNat - G.length = 0 from by omega, List.drop_zero]
  rw [h2, h3]
  simp

/-- Copying `k` elements of `src` to the end of the middle block. -/
theorem icopy_end_of_mid (Pre G Rest src : List α) (s k : Int)
    (hk0 : 0 ≤ k) (hkle : k ≤ (G.length : Int)) :
    icopy (Pre ++ G ++ Rest) ((Pre.length : Int) + (G.length : Int) - k)
      src s k =
    Pre ++ G.take (G.length - k.toNat) ++ (src.drop s.toNat).take k.toNat ++
      Rest := by
  rw [icopy]
  have h1 : (((Pre.length : Int) + (G.length : Int) - k)).toNat =
      Pre.length + (G.length - k.toNat) := by omega
  rw [h1]
  have h2 : (Pre ++ G ++ Rest).take (Pre.length + (G.length - k.toNat)) =
      Pre ++ G.take (G.length - k.toNat) := by
    rw [show Pre ++ G ++ Rest = Pre ++ (G ++ Rest) from by simp,
      List.take_append, List.take_append_eq_append_take,
      show G.length - k.toNat - G.length = 0 from by omega, List.take_zero,
      List.append_nil]
  have h3 : (Pre ++ G ++ Rest).drop (Pre.length + (G.length - k.toNat) +
      k.toNat) = Rest := by
    apply drop_len2_append
    omega
  rw [h2, h3]

/-- The possibly overlapping shift-down copy of `mergeLo`: `v` elements
are moved from the right block to the start of the garbage block. -/
theorem icopy_self_lo (Pre G R2 T : List α) (v : Int)
    (hv0 : 0 ≤ v) (hvle : v ≤ (R2.length : Int)) :
    icopy (Pre ++ G ++ R2 ++ T) ((Pre.length : Int))
      (Pre ++ G ++ R2 ++ T) ((Pre.length : Int) + (G.length : Int)) v =
    Pre ++ R2.take v.toNat ++ (G ++ R2.take v.toNat).drop v.toNat ++
      R2.drop v.toNat ++ T := by
  rw [icopy]
  have ha : ((Pre.length : Int)).toNat = Pre.length := by omega
  have hb : (((Pre.length : Int) + (G.length : Int))).toNat =
      Pre.length + G.length := by omega
  rw [ha, hb]
  have h1 : (Pre ++ G ++ R2 ++ T).take Pre.length = Pre := by
    rw [show Pre ++ G ++ R2 ++ T = Pre ++ (G ++ R2 ++ T) from by simp,
      take_len_append _ _ _ rfl]
  have h2 : ((Pre ++ G ++ R2 ++ T).drop (Pre.length + G.length)).take
      v.toNat = R2.take v.toNat := by
    rw [show Pre ++ G ++ R2 ++ T = (Pre ++ G) ++ (R2 ++ T) from by simp,
      drop_len_append _ _ _ (by simp), List.take_append_eq_append_take,
      show v.toNat - R2.length = 0 from by omega, List.take_zero,
      List.append_nil]
  have h3 : (Pre ++ G ++ R2 ++ T).drop (Pre.length + v.toNat) =
      (G ++ R2.take v.toNat).drop v.toNat ++ (R2.drop v.toNat ++ T) := by
    rw [show Pre ++ G ++ R2 ++ T =
      Pre ++ ((G ++ R2.take v.toNat) ++ (R2.drop v.toNat ++ T)) from by
        simp
        rw [← List.append_assoc, List.take_append_drop]]
    rw [List.drop_append, List.drop_append_eq_append_drop]
    have hz : v.toNat - (G ++ R2.take v.toNat).length = 0 := by
      rw [List.length_append, List.length_take]
      omega
    rw [hz, List.drop_zero]
  rw [h1, h2, h3]
  simp

/-- The possibly overlapping shift-up copy of `mergeHi`: the top `k`
elements of the left block move to the end of the garbage block. -/
theorem icopy_self_hi (Pre R1 G Rest : List α) (k : Int)
    (hk0 : 0 ≤ k) (hkle : k ≤ (R1.length : Int)) :
    icopy (Pre ++ R1 ++ G ++ Rest)
      ((Pre.length : Int) + ((R1.length : Int) - k) + (G.length : Int))
      (Pre ++ R1 ++ G ++ Rest) ((Pre.length : Int) + ((R1.length : Int) - k))
      k =
    Pre ++ R1.take (R1.length - k.toNat) ++
      (R1.drop (R1.length - k.toNat) ++ G).take G.length ++
      (R1.drop (R1.length - k.toNat) ++ Rest) := by
  rw [icopy]
  have ha : (((Pre.length : Int) + ((R1.length : Int) - k) +
      (G.length : Int))).toNat = Pre.length + (R1.length - k.toNat) +
      G.length := by omega
  have hb : (((Pre.length : Int) + ((R1.length : Int) - k))).toNat =
      Pre.length + (R1.length - k.toNat) := by omega
  rw [ha, hb]
  have hsplit : R1 = R1.take (R1.length - k.toNat) ++
      R1.drop (R1.length - k.toNat) := (List.take_append_drop _ _).symm
  have hlen1 : (R1.take (R1.length - k.toNat)).length =
      R1.length - k.toNat := by
    rw [List.length_take]
    omega
  have hlen2 : (R1.drop (R1.length - k.toNat)).length = k.toNat := by
    rw [List.length_drop]
    omega
  have hbig1 : Pre ++ R1 ++ G ++ Rest =
      (Pre ++ R1.take (R1.length - k.toNat)) ++
        ((R1.drop (R1.length - k.toNat) ++ G) ++ Rest) := by
    conv_lhs => rw [hsplit]
    simp only [List.append_assoc]
  have hbig2 : Pre ++ R1 ++ G ++ Rest =
      (Pre ++ R1.take (R1.length - k.toNat)) ++
        (R1.drop (R1.length - k.toNat) ++ (G ++ Rest)) := by
    conv_lhs => rw [hsplit]
    simp only [List.append_assoc]
  have h1 : (Pre ++ R1 ++ G ++ Rest).take (Pre.length +
      (R1.length - k.toNat) + G.length) =
      Pre ++ R1.take (R1.length - k.toNat) ++
        (R1.drop (R1.length - k.toNat) ++ G).take G.length := by
    rw [hbig1]
    have hl : Pre.length + (R1.length - k.toNat) + G.length =
        (Pre ++ R1.take (R1.length - k.toNat)).length + G.length := by
      rw [List.length_append, hlen1]
    rw [hl, List.take_append, List.take_append_eq_append_take,
      show G.length - (R1.drop (R1.length - k.toNat) ++ G).length = 0 from by
        rw [List.length_append]; omega,
      List.take_zero, List.append_nil]
  have h2 : ((Pre ++ R1 ++ G ++ Rest).drop (Pre.length +
      (R1.length - k.toNat))).take k.toNat =
      R1.drop (R1.length - k.toNat) := by
    rw [hbig2]
    rw [drop_len_append _ _ _ (by rw [List.length_append, hlen1]),
      List.take_append_eq_append_take,
      show k.toNat - (R1.drop (R1.length - k.toNat)).length = 0 from by
        rw [hlen2]; omega,
      List.take_zero, List.append_nil]
    exact List.take_of_length_le (le_of_eq hlen2)
  have h3 : (Pre ++ R1 ++ G ++ Rest).drop (Pre.length +
      (R1.length - k.toNat) + G.length + k.toNat) = Rest := by
    have hd := drop_of_append_ge (Pre ++ R1 ++ G) Rest
      (Pre.length + (R1.length - k.toNat) + G.length + k.toNat)
      (by simp; omega)
    rw [hd, show Pre.length + (R1.length - k.toNat) + G.length + k.toNat -
      (Pre ++ R1 ++ G).length = 0 from by simp; omega, List.drop_zero]
  rw [h1, h2, h3]
  simp

/-! ### `mergeLo` (src/unnamed/part_003 lines 570-707) -/

/-- The code after `mergeLo`'s outer loop: `minGallop` is floored to 1
and written back, then the tails are flushed. -/
def mergeLoExit [Inhabited α] (a tmp : List α)
    (cursor1 cursor2 dest len1 len2 mg : Int) :
    Except String (List α × Int) :=
  let mg2 := if mg < 1 then 1 else mg
  if len1 = 1 then
    if len2 ≤ 0 then .error " len2 > 0;"
    else .ok (iset (icopy a dest a cursor2 len2) (dest + len2)
      (aget tmp cursor1 default), mg2)
  else if len1 = 0 then
    .error "comparison method violates its general contract"
  else if len2 ≠ 0 then .error "len2 == 0;"
  else if len1 ≤ 1 then .error " len1 > 1;"
  else .ok (icopy a dest tmp cursor1 len1, mg2)

/-- `mergeLo`'s outer loop: `phase = false` is the one-pair-at-a-time
loop, `phase = true` the galloping loop.  `n1`/`n2` are `count1`/`count2`
(live only in the pairing phase; both loops reset them on entry). -/
def mergeLoLoop (lt : α → α → Bool) [Inhabited α] :
    Nat → Bool → List α → List α → Int → Int → Int → Int → Int → Int →
      Nat → Nat → Except String (List α × Int)
  | 0, _, _, _, _, _, _, _, _, _, _, _ => .error "fuel exhausted"
  | fuel + 1, false, a, tmp, c1, c2, d, l1, l2, mg, n1, n2 =>
    if l1 ≤ 1 ∨ l2 ≤ 0 then .error " len1 > 1 && len2 > 0"
    else if lt (aget a c2 default) (aget tmp c1 default) then
      let a2 := iset a d (aget a c2 default)
      if l2 - 1 = 0 then
        mergeLoExit a2 tmp c1 (c2 + 1) (d + 1) l1 (l2 - 1) mg
      else if mg ≤ ((0 ||| (n2 + 1) : Nat) : Int) then
        mergeLoLoop lt fuel true a2 tmp c1 (c2 + 1) (d + 1) l1 (l2 - 1)
          mg 0 (n2 + 1)
      else
        mergeLoLoop lt fuel false a2 tmp c1 (c2 + 1) (d + 1) l1 (l2 - 1)
          mg 0 (n2 + 1)
    else
      let a2 := iset a d (aget tmp c1 default)
      if l1 - 1 = 1 then
        mergeLoExit a2 tmp (c1 + 1) c2 (d + 1) (l1 - 1) l2 mg
      else if mg ≤ (((n1 + 1) ||| 0 : Nat) : Int) then
        mergeLoLoop lt fuel true a2 tmp (c1 + 1) c2 (d + 1) (l1 - 1) l2
          mg (n1 + 1) 0
      else
        mergeLoLoop lt fuel false a2 tmp (c1 + 1) c2 (d + 1) (l1 - 1) l2
          mg (n1 + 1) 0
  | fuel + 1, true, a, tmp, c1, c2, d, l1, l2, mg, _, _ =>
    if l1 ≤ 1 ∨ l2 ≤ 0 then .error "len1 > 1 && len2 > 0"
    else match gallopRight lt (aget a c2 default) tmp c1 l1 0 with
      | .error e => .error e
      | .ok k1 =>
        let a2 := if k1 ≠ 0 then icopy a d tmp c1 k1 else a
        if k1 ≠ 0 ∧ l1 - k1 ≤ 1 then
          mergeLoExit a2 tmp (c1 + k1) c2 (d + k1) (l1 - k1) l2 mg
        else
          let a3 := iset a2 (d + k1) (aget a2 c2 default)
          if l2 - 1 = 0 then
            mergeLoExit a3 tmp (c1 + k1) (c2 + 1) (d + k1 + 1) (l1 - k1)
              (l2 - 1) mg
          else match gallopLeft lt (aget tmp (c1 + k1) default) a3
              (c2 + 1) (l2 - 1) 0 with
            | .error e => .error e
            | .ok k2 =>
              let a4 := if k2 ≠ 0 then icopy a3 (d + k1 + 1) a3 (c2 + 1) k2
                else a3
              if k2 ≠ 0 ∧ l2 - 1 - k2 = 0 then
                mergeLoExit a4 tmp (c1 + k1) (c2 + 1 + k2) (d + k1 + 1 + k2)
                  (l1 - k1) (l2 - 1 - k2) mg
              else
                let a5 := iset a4 (d + k1 + 1 + k2)
                  (aget tmp (c1 + k1) default)
                if l1 - k1 - 1 = 1 then
                  mergeLoExit a5 tmp (c1 + k1 + 1) (c2 + 1 + k2)
                    (d + k1 + 1 + k2 + 1) (l1 - k1 - 1) (l2 - 1 - k2) mg
                else if k1 < mg - 1 ∧ k2 < mg - 1 then
                  mergeLoLoop lt fuel false a5 tmp (c1 + k1 + 1)
                    (c2 + 1 + k2) (d + k1 + 1 + k2 + 1) (l1 - k1 - 1)
                    (l2 - 1 - k2) ((if mg - 1 < 0 then 0 else mg - 1) + 2) 0 0
                else
                  mergeLoLoop lt fuel true a5 tmp (c1 + k1 + 1)
                    (c2 + 1 + k2) (d + k1 + 1 + k2 + 1) (l1 - k1 - 1)
                    (l2 - 1 - k2) (mg - 1) 0 0

/-- Embedding of `mergeLo`: `tmp` is the saved copy of run 1, the first
element of run 2 is moved, the degenerate cases are flushed directly and
the rest is the outer loop. -/
def mergeLo (lt : α → α → Bool) [Inhabited α] (a : List α)
    (base1 len1 base2 len2 mg : Int) : Except String (List α × Int) :=
  if len1 ≤ 0 ∨ len2 ≤ 0 ∨ base1 + len1 ≠ base2 then
    .error " len1 > 0 && len2 > 0 && base1 + len1 == base2"
  else
    let tmp := (a.drop base1.toNat).take len1.toNat
    let a2 := iset a base1 (aget a base2 default)
    if len2 - 1 = 0 then .ok (icopy a2 (base1 + 1) tmp 0 len1, mg)
    else if len1 = 1 then
      .ok (iset (icopy a2 (base1 + 1) a2 (base2 + 1) (len2 - 1))
        (base1 + 1 + (len2 - 1)) (aget tmp 0 default), mg)
    else
      mergeLoLoop lt ((len1 + len2).toNat + 2) false a2 tmp 0 (base2 + 1)
        (base1 + 1) len1 (len2 - 1) mg 0 0

/-! ### `mergeHi` (src/unnamed/part_003 lines 708-857) -/

/-- The code after `mergeHi`'s outer loop. -/
def mergeHiExit [Inhabited α] (a tmp : List α)
    (cursor1 cursor2 dest len1 len2 mg : Int) :
    Except String (List α × Int) :=
  let mg2 := if mg < 1 then 1 else mg
  if len2 = 1 then
    if len1 ≤ 0 then .error " len1 > 0;"
    else .ok (iset (icopy a (dest - len1 + 1) a (cursor1 - len1 + 1) len1)
      (dest - len1) (aget tmp cursor2 default), mg2)
  else if len2 = 0 then
    .error "comparison method violates its general contract"
  else if len1 ≠ 0 then .error "len1 == 0;"
  else if len2 ≤ 0 then .error " len2 > 0;"
  else .ok (icopy a (dest - (len2 - 1)) tmp 0 len2, mg2)

/-- `mergeHi`'s outer loop, consuming both runs from the right; `tmp` is
the saved copy of run 2 and `base1` the (fixed) start of run 1. -/
def mergeHiLoop (lt : α → α → Bool) [Inhabited α] :
    Nat → Bool → Int → List α → List α → Int → Int → Int → Int → Int →
      Int → Nat → Nat → Except String (List α × Int)
  | 0, _, _, _, _, _, _, _, _, _, _, _, _ => .error "fuel exhausted"
  | fuel + 1, false, base1, a, tmp, c1, c2, d, l1, l2, mg, n1, n2 =>
    if l1 ≤ 0 ∨ l2 ≤ 1 then .error " len1 > 0 && len2 > 1;"
    else if lt (aget tmp c2 default) (aget a c1 default) then
      let a2 := iset a d (aget a c1 default)
      if l1 - 1 = 0 then
        mergeHiExit a2 tmp (c1 - 1) c2 (d - 1) (l1 - 1) l2 mg
      else if mg ≤ (((n1 + 1) ||| 0 : Nat) : Int) then
        mergeHiLoop lt fuel true base1 a2 tmp (c1 - 1) c2 (d - 1) (l1 - 1)
          l2 mg (n1 + 1) 0
      else
        mergeHiLoop lt fuel false base1 a2 tmp (c1 - 1) c2 (d - 1) (l1 - 1)
          l2 mg (n1 + 1) 0
    else
      let a2 := iset a d (aget tmp c2 default)
      if l2 - 1 = 1 then
        mergeHiExit a2 tmp c1 (c2 - 1) (d - 1) l1 (l2 - 1) mg
      else if mg ≤ ((0 ||| (n2 + 1) : Nat) : Int) then
        mergeHiLoop lt fuel true base1 a2 tmp c1 (c2 - 1) (d - 1) l1
          (l2 - 1) mg 0 (n2 + 1)
      else
        mergeHiLoop lt fuel false base1 a2 tmp c1 (c2 - 1) (d - 1) l1
          (l2 - 1) mg 0 (n2 + 1)
  | fuel + 1, true, base1, a, tmp, c1, c2, d, l1, l2, mg, _, _ =>
    if l1 ≤ 0 ∨ l2 ≤ 1 then .error " len1 > 0 && len2 > 1;"
    else match gallopRight lt (aget tmp c2 default) a base1 l1 (l1 - 1) with
      | .error e => .error e
      | .ok gr =>
        let k1 := l1 - gr
        let a2 := if k1 ≠ 0 then icopy a (d - k1 + 1) a (c1 - k1 + 1) k1
          else a
        if k1 ≠ 0 ∧ l1 - k1 = 0 then
          mergeHiExit a2 tmp (c1 - k1) c2 (d - k1) (l1 - k1) l2 mg
        else
          let a3 := iset a2 (d - k1) (aget tmp c2 default)
          if l2 - 1 = 1 then
            mergeHiExit a3 tmp (c1 - k1) (c2 - 1) (d - k1 - 1) (l1 - k1)
              (l2 - 1) mg
          else match gallopLeft lt (aget a3 (c1 - k1) default) tmp 0
              (l2 - 1) (l2 - 1 - 1) with
            | .error e => .error e
            | .ok gl =>
              let k2 := l2 - 1 - gl
              let a4 := if k2 ≠ 0 then
                icopy a3 (d - k1 - 1 - k2 + 1) tmp (c2 - 1 - k2 + 1) k2
                else a3
              if k2 ≠ 0 ∧ l2 - 1 - k2 ≤ 1 then
                mergeHiExit a4 tmp (c1 - k1) (c2 - 1 - k2) (d - k1 - 1 - k2)
                  (l1 - k1) (l2 - 1 - k2) mg
              else
                let a5 := iset a4 (d - k1 - 1 - k2)
                  (aget a4 (c1 - k1) default)
                if l1 - k1 - 1 = 0 then
                  mergeHiExit a5 tmp (c1 - k1 - 1) (c2 - 1 - k2)
                    (d - k1 - 1 - k2 - 1) (l1 - k1 - 1) (l2 - 1 - k2) mg
                else if k1 < mg - 1 ∧ k2 < mg - 1 then
                  mergeHiLoop lt fuel false base1 a5 tmp (c1 - k1 - 1)
                    (c2 - 1 - k2) (d - k1 - 1 - k2 - 1) (l1 - k1 - 1)
                    (l2 - 1 - k2) ((if mg - 1 < 0 then 0 else mg - 1) + 2) 0 0
                else
                  mergeHiLoop lt fuel true base1 a5 tmp (c1 - k1 - 1)
                    (c2 - 1 - k2) (d - k1 - 1 - k2 - 1) (l1 - k1 - 1)
                    (l2 - 1 - k2) (mg - 1) 0 0

/-- Embedding of `mergeHi`: `tmp` is the saved copy of run 2, the last
element of run 1 is moved, the degenerate cases are flushed directly and
the rest is the outer loop. -/
def mergeHi (lt : α → α → Bool) [Inhabited α] (a : List α)
    (base1 len1 base2 len2 mg : Int) : Except String (List α × Int) :=
  if len1 ≤ 0 ∨ len2 ≤ 0 ∨ base1 + len1 ≠ base2 then
    .error "len1 > 0 && len2 > 0 && base1 + len1 == base2;"
  else
    let tmp := (a.drop base2.toNat).take len2.toNat
    let a2 := iset a (base2 + len2 - 1) (aget a (base1 + len1 - 1) default)
    if len1 - 1 = 0 then
      .ok (icopy a2 (base2 + len2 - 2 - (len2 - 1)) tmp 0 len2, mg)
    else if len2 = 1 then
      .ok (iset (icopy a2 (base2 + len2 - 2 - (len1 - 1 - 1))
          a2 (base1 + len1 - 2 - (len1 - 1 - 1)) (len1 - 1))
        (base2 + len2 - 2 - (len1 - 1 - 1) - 1) (aget tmp (len2 - 1) default),
        mg)
    else
      mergeHiLoop lt ((len1 + len2).toNat + 2) false base1 a2 tmp
        (base1 + len1 - 2) (len2 - 1) (base2 + len2 - 2) (len1 - 1) len2
        mg 0 0

/-! ### Pointwise access helpers for the merge invariants -/

theorem aget_len_append (X : List α) (y : α) (Z : List α) (d : α) (n : Int)
    (h : n = (X.length : Int)) : aget (X ++ y :: Z) n d = y := by
  subst h
  have := aget_append X (y :: Z) 0 d (le_refl 0)
  rw [add_zero] at this
  rw [this, aget_cons_zero]

theorem iset_len_append (X : List α) (y : α) (Z : List α) (v : α) (n : Int)
    (h : n = (X.length : Int)) : iset (X ++ y :: Z) n v = X ++ v :: Z := by
  subst h
  have := iset_append X (y :: Z) 0 v (le_refl 0)
  rw [add_zero] at this
  rw [this, iset_cons_zero]

theorem drop_succ_of_drop (l : List α) (n : Nat) (x : α) (s : List α)
    (h : l.drop n = x :: s) : l.drop (n + 1) = s := by
  have h2 := congrArg (List.drop 1) h
  rw [List.drop_drop] at h2
  simp at h2
  exact h2

theorem aget_drop_head (tmp : List α) (c1 : Int) (x : α) (s : List α)
    (d : α) (h0 : 0 ≤ c1) (hdrop : tmp.drop c1.toNat = x :: s) :
    aget tmp c1 d = x := by
  have hlt : c1.toNat < tmp.length := by
    by_contra hge
    push_neg at hge
    rw [List.drop_of_length_le hge] at hdrop
    exact absurd hdrop (by simp)
  rw [aget, if_pos h0]
  have h1 : tmp.getD c1.toNat d = (tmp.drop c1.toNat).getD 0 d := by
    rw [List.getD_eq_getElem _ _ hlt,
      List.getD_eq_getElem _ _ (by rw [List.length_drop]; omega)]
    rw [List.getElem_drop]
    simp
  rw [h1, hdrop, List.getD_cons_zero]

theorem getLast?_eq_getD (l : List α) (d : α) (h : l ≠ []) :
    l.getLast? = some (l.getD (l.length - 1) d) := by
  have hlen : 0 < l.length := List.length_pos.2 h
  rw [List.getLast?_eq_getElem?, List.getElem?_eq_getElem (by omega),
    List.getD_eq_getElem _ _ (by omega)]

/-- In an ascending run everything is `nlt` the last element. -/
theorem SortedRun.nlt_last (h : SWOrd lt) {l : List α} (hs : SortedRun lt l)
    {z w : α} (hz : z ∈ l) (hw : l.getLast? = some w) : lt w z = false := by
  rcases List.mem_iff_getElem.1 hz with ⟨i, hi, hget⟩
  have hne : l ≠ [] := by
    intro hnil
    rw [hnil] at hi
    simp at hi
  rw [getLast?_eq_getD l z hne] at hw
  have hww : w = l.getD (l.length - 1) z := by
    injection hw with hw2
    exact hw2.symm
  have := hs.getD_nlt h (show i ≤ l.length - 1 from by omega)
    (show l.length - 1 < l.length from by omega) z z
  rw [← hww] at this
  rw [List.getD_eq_getElem _ _ hi, hget] at this
  exact this

/-- The stable merge with a single left element every right element is
less than. -/
theorem smerge_all_right (lt : α → α → Bool) (x : α) (s1 R2 : List α)
    (h : ∀ y ∈ R2, lt y x = true) :
    smerge lt (x :: s1) R2 = R2 ++ (x :: s1) := by
  have h2 := smerge_front_right lt x s1 R2 [] h
  rw [List.append_nil] at h2
  rw [h2, smerge_nil_right]

/-! ### Specification of `mergeLoExit` -/

theorem mergeLoExit_flush [Inhabited α] (P D G T tmp : List α)
    (c1 c2 d l1 mg : Int)
    (h1 : 2 ≤ l1) (hc1 : 0 ≤ c1)
    (hs1 : ((tmp.drop c1.toNat).length : Int) = l1)
    (hG : (G.length : Int) = l1)
    (hd : d = ((P ++ D).length : Int)) :
    mergeLoExit (P ++ D ++ G ++ T) tmp c1 c2 d l1 0 mg =
      .ok (P ++ D ++ tmp.drop c1.toNat ++ T, if mg < 1 then 1 else mg) := by
  rw [mergeLoExit]
  rw [if_neg (show ¬ l1 = 1 from by omega),
    if_neg (show ¬ l1 = 0 from by omega),
    if_neg (show ¬ (0 : Int) ≠ 0 from by simp),
    if_neg (show ¬ l1 ≤ 1 from by omega)]
  rw [hd, icopy_start_of_mid (P ++ D) G T tmp c1 l1 (by omega) (by omega)]
  rw [List.take_of_length_le (show (tmp.drop c1.toNat).length ≤ l1.toNat
    from by omega)]
  rw [List.drop_of_length_le (show G.length ≤ l1.toNat from by omega)]
  simp

theorem mergeLoExit_one [Inhabited α] (P D R2 T tmp : List α) (g x : α)
    (c1 c2 d l2 mg : Int)
    (hc1 : 0 ≤ c1) (hdrop : tmp.drop c1.toNat = [x])
    (hl2 : (R2.length : Int) = l2) (h2 : 1 ≤ l2)
    (hd : d = ((P ++ D).length : Int))
    (hc2 : c2 = d + 1) :
    mergeLoExit (P ++ D ++ [g] ++ R2 ++ T) tmp c1 c2 d 1 l2 mg =
      .ok (P ++ D ++ R2 ++ [x] ++ T, if mg < 1 then 1 else mg) := by
  rw [mergeLoExit]
  rw [if_pos rfl, if_neg (show ¬ l2 ≤ 0 from by omega)]
  have hcopy := icopy_self_lo (P ++ D) [g] R2 T l2 (by omega) (by omega)
  rw [show ([g] : List α).length = 1 from rfl] at hcopy
  rw [hd, hc2, hd,
    show ((P ++ D).length : Int) + 1 =
      ((P ++ D).length : Int) + ((1 : Nat) : Int) from by norm_num]
  rw [hcopy]
  rw [List.take_of_length_le (show R2.length ≤ l2.toNat from by omega)]
  rw [List.drop_of_length_le (show R2.length ≤ l2.toNat from by omega)]
  have hjunk : ∃ w, (([g] ++ R2)).drop l2.toNat = [w] := by
    rw [List.length_eq_one.symm, List.length_drop, List.length_append]
    simp
    omega
  rcases hjunk with ⟨w, hw⟩
  rw [hw]
  have hset : iset (P ++ D ++ R2 ++ [w] ++ [] ++ T)
      (((P ++ D).length : Int) + l2) (aget tmp c1 default) =
      P ++ D ++ R2 ++ [x] ++ T := by
    rw [aget_drop_head tmp c1 x [] default hc1 hdrop]
    rw [show P ++ D ++ R2 ++ [w] ++ [] ++ T =
      (P ++ D ++ R2) ++ (w :: T) from by simp]
    rw [iset_len_append (P ++ D ++ R2) w T x _ (by simp; omega)]
    simp
  rw [hset]

/-- One round of `mergeLo`'s pairing loop, with the induction hypothesis
for the remaining fuel supplied as `ih`. -/
theorem mergeLoPair_step (hswo : SWOrd lt) [Inhabited α] (tmp : List α)
    (fuel : Nat)
    (ih : ∀ (phase : Bool) (P D G R2 T : List α)
      (c1 c2 d l1 l2 mg : Int) (n1 n2 : Nat),
      2 ≤ l1 → 1 ≤ l2 → 0 ≤ c1 →
      c1 + l1 = (tmp.length : Int) →
      d = ((P ++ D).length : Int) →
      (G.length : Int) = l1 →
      c2 = d + l1 →
      (R2.length : Int) = l2 →
      SortedRun lt (tmp.drop c1.toNat) →
      SortedRun lt R2 →
      (∀ y ∈ R2, ∀ w ∈ (tmp.drop c1.toNat).getLast?, lt y w = true) →
      l1 + l2 ≤ (fuel : Int) →
      ∃ mg2, 1 ≤ mg2 ∧
        mergeLoLoop lt fuel phase (P ++ D ++ G ++ R2 ++ T) tmp c1 c2 d l1 l2
          mg n1 n2 =
        .ok (P ++ (D ++ smerge lt (tmp.drop c1.toNat) R2) ++ T, mg2))
    (P D G R2 T : List α) (c1 c2 d l1 l2 mg : Int) (n1 n2 : Nat)
    (h1 : 2 ≤ l1) (h2 : 1 ≤ l2) (hc10 : 0 ≤ c1)
    (hc1l : c1 + l1 = (tmp.length : Int))
    (hd : d = ((P ++ D).length : Int))
    (hG : (G.length : Int) = l1)
    (hc2 : c2 = d + l1)
    (hR2len : (R2.length : Int) = l2)
    (hs1s : SortedRun lt (tmp.drop c1.toNat))
    (hR2s : SortedRun lt R2)
    (hlast : ∀ y ∈ R2, ∀ w ∈ (tmp.drop c1.toNat).getLast?, lt y w = true)
    (hfuel : l1 + l2 ≤ ((fuel + 1 : Nat) : Int)) :
    ∃ mg2, 1 ≤ mg2 ∧
      mergeLoLoop lt (fuel + 1) false (P ++ D ++ G ++ R2 ++ T) tmp c1 c2 d
        l1 l2 mg n1 n2 =
      .ok (P ++ (D ++ smerge lt (tmp.drop c1.toNat) R2) ++ T, mg2) := by
  have hdn : d = (P.length : Int) + (D.length : Int) := by rw [hd]; simp
  have hmgf : (1 : Int) ≤ if mg < 1 then 1 else mg := by
    by_cases h : mg < 1
    · rw [if_pos h]
    · rw [if_neg h]; omega
  obtain ⟨x, s1r, hs1eq⟩ : ∃ x s1r, tmp.drop c1.toNat = x :: s1r := by
    have hl : 0 < (tmp.drop c1.toNat).length := by
      rw [List.length_drop]; omega
    cases hcase : tmp.drop c1.toNat with
    | nil => rw [hcase] at hl; simp at hl
    | cons a b => exact ⟨a, b, rfl⟩
  have hs1len : ((tmp.drop c1.toNat).length : Int) = l1 := by
    rw [List.length_drop]; omega
  obtain ⟨y, R2p, rfl⟩ : ∃ y R2p, R2 = y :: R2p := by
    cases R2 with
    | nil => exfalso; simp at hR2len; omega
    | cons a b => exact ⟨a, b, rfl⟩
  obtain ⟨g, G1, rfl⟩ : ∃ g G1, G = g :: G1 := by
    cases G with
    | nil => exfalso; simp at hG; omega
    | cons a b => exact ⟨a, b, rfl⟩
  have hGn : (G1.length : Int) + 1 = l1 := by simp at hG; omega
  have hR2n : (R2p.length : Int) + 1 = l2 := by simp at hR2len; omega
  have hgety : aget (P ++ D ++ (g :: G1) ++ (y :: R2p) ++ T) c2 default
      = y := by
    rw [show P ++ D ++ (g :: G1) ++ (y :: R2p) ++ T =
      (P ++ D ++ (g :: G1)) ++ (y :: (R2p ++ T)) from by simp]
    exact aget_len_append _ _ _ _ _ (by simp; omega)
  have hgetx : aget tmp c1 default = x :=
    aget_drop_head tmp c1 x s1r default hc10 hs1eq
  rw [mergeLoLoop]
  rw [if_neg (show ¬ (l1 ≤ 1 ∨ l2 ≤ 0) from by omega)]
  rw [hgety, hgetx]
  by_cases hcmp : lt y x = true
  · rw [if_pos hcmp]
    have hset : iset (P ++ D ++ (g :: G1) ++ (y :: R2p) ++ T) d y =
        P ++ (D ++ [y]) ++ (G1 ++ [y]) ++ R2p ++ T := by
      rw [show P ++ D ++ (g :: G1) ++ (y :: R2p) ++ T =
        (P ++ D) ++ (g :: (G1 ++ (y :: R2p) ++ T)) from by simp]
      rw [iset_len_append (P ++ D) g _ y d hd]
      simp
    rw [hset]
    have hsm : smerge lt (tmp.drop c1.toNat) (y :: R2p) =
        y :: smerge lt (tmp.drop c1.toNat) R2p := by
      rw [hs1eq, smerge, if_pos hcmp]
    by_cases hl20 : l2 - 1 = 0
    · rw [if_pos hl20]
      have hR2pnil : R2p = [] := by
        have : R2p.length = 0 := by omega
        exact List.eq_nil_of_length_eq_zero this
      subst hR2pnil
      rw [show P ++ (D ++ [y]) ++ (G1 ++ [y]) ++ ([] : List α) ++ T =
        P ++ (D ++ [y]) ++ (G1 ++ [y]) ++ T from by simp]
      rw [hl20]
      rw [mergeLoExit_flush P (D ++ [y]) (G1 ++ [y]) T tmp c1 (c2 + 1)
        (d + 1) l1 mg h1 hc10 hs1len (by simp; omega) (by simp; omega)]
      refine ⟨_, hmgf, ?_⟩
      rw [hsm, smerge_nil_right]
      simp
    · rw [if_neg hl20]
      have hcall : ∀ ph : Bool, ∃ mg2, 1 ≤ mg2 ∧
          mergeLoLoop lt fuel ph
            (P ++ (D ++ [y]) ++ (G1 ++ [y]) ++ R2p ++ T) tmp c1 (c2 + 1)
            (d + 1) l1 (l2 - 1) mg 0 (n2 + 1) =
          .ok (P ++ ((D ++ [y]) ++ smerge lt (tmp.drop c1.toNat) R2p) ++ T,
            mg2) := by
        intro ph
        exact ih ph P (D ++ [y]) (G1 ++ [y]) R2p T c1 (c2 + 1) (d + 1) l1
          (l2 - 1) mg 0 (n2 + 1) h1 (by omega) hc10 hc1l (by simp; omega)
          (by simp; omega) (by omega) (by omega) hs1s
          ((List.chain'_cons'.1 hR2s).2)
          (fun y2 hy2 w hw => hlast y2 (List.mem_cons_of_mem _ hy2) w hw)
          (by omega)
      by_cases hmgc : mg ≤ ((0 ||| (n2 + 1) : Nat) : Int)
      · rw [if_pos hmgc]
        rcases hcall true with ⟨mg2, hmg2, heq⟩
        refine ⟨mg2, hmg2, ?_⟩
        rw [heq, hsm]
        simp
      · rw [if_neg hmgc]
        rcases hcall false with ⟨mg2, hmg2, heq⟩
        refine ⟨mg2, hmg2, ?_⟩
        rw [heq, hsm]
        simp
  · have hcmpf : lt y x = false := by
      cases hx : lt y x with
      | true => exact absurd hx hcmp
      | false => rfl
    rw [if_neg hcmp]
    have hset : iset (P ++ D ++ (g :: G1) ++ (y :: R2p) ++ T) d x =
        P ++ (D ++ [x]) ++ G1 ++ (y :: R2p) ++ T := by
      rw [show P ++ D ++ (g :: G1) ++ (y :: R2p) ++ T =
        (P ++ D) ++ (g :: (G1 ++ (y :: R2p) ++ T)) from by simp]
      rw [iset_len_append (P ++ D) g _ x d hd]
      simp
    rw [hset]
    have hs1p : tmp.drop (c1 + 1).toNat = s1r := by
      rw [show (c1 + 1).toNat = c1.toNat + 1 from by omega]
      exact drop_succ_of_drop tmp c1.toNat x s1r hs1eq
    have hs1rlen : ((s1r.length : Int)) = l1 - 1 := by
      have := hs1len
      rw [hs1eq] at this
      simp at this
      omega
    by_cases hl11 : l1 - 1 = 1
    · rw [if_pos hl11]
      obtain ⟨z, hzr⟩ : ∃ z, s1r = [z] := by
        rw [← List.length_eq_one]
        omega
      obtain ⟨g2, hg2⟩ : ∃ g2, G1 = [g2] := by
        rw [← List.length_eq_one]
        omega
      subst hg2
      rw [hl11]
      have hlastz : (tmp.drop c1.toNat).getLast? = some z := by
        rw [hs1eq, hzr]
        rfl
      have hsm2 : smerge lt (tmp.drop c1.toNat) (y :: R2p) =
          x :: ((y :: R2p) ++ [z]) := by
        rw [hs1eq, hzr, smerge, if_neg (by rw [hcmpf]; simp)]
        congr 1
        apply smerge_all_right
        intro y2 hy2
        exact hlast y2 hy2 z (by rw [hlastz]; rfl)
      refine ⟨_, hmgf, ?_⟩
      rw [mergeLoExit_one P (D ++ [x]) (y :: R2p) T tmp g2 z (c1 + 1) c2
        (d + 1) l2 mg (by omega) (by rw [hs1p, hzr]) hR2len h2
        (by simp; omega) (by omega)]
      rw [hsm2]
      simp
    · rw [if_neg hl11]
      have hR2tail : SortedRun lt R2p := by
        have h5 := hR2s
        rw [SortedRun] at h5
        rw [SortedRun]
        exact (List.chain'_cons'.1 h5).2
      have hs1news : SortedRun lt (tmp.drop (c1 + 1).toNat) := by
        rw [hs1p]
        have h5 := hs1s
        rw [hs1eq] at h5
        rw [SortedRun] at h5
        rw [SortedRun]
        exact (List.chain'_cons'.1 h5).2
      have hlastnew : ∀ y2 ∈ (y :: R2p),
          ∀ w ∈ (tmp.drop (c1 + 1).toNat).getLast?, lt y2 w = true := by
        intro y2 hy2 w hw
        apply hlast y2 hy2 w
        rw [hs1p] at hw
        rw [hs1eq]
        obtain ⟨z, s1rr, hzz⟩ : ∃ z s1rr, s1r = z :: s1rr := by
          cases s1r with
          | nil => exfalso; simp at hs1rlen; omega
          | cons a b => exact ⟨a, b, rfl⟩
        rw [hzz] at hw ⊢
        rw [List.getLast?_cons_cons]
        exact hw
      have hcall2 : ∀ ph : Bool, ∃ mg2, 1 ≤ mg2 ∧
          mergeLoLoop lt fuel ph (P ++ (D ++ [x]) ++ G1 ++ (y :: R2p) ++ T)
            tmp (c1 + 1) c2 (d + 1) (l1 - 1) l2 mg (n1 + 1) 0 =
          .ok (P ++ ((D ++ [x]) ++ smerge lt (tmp.drop (c1 + 1).toNat)
            (y :: R2p)) ++ T, mg2) := by
        intro ph
        exact ih ph P (D ++ [x]) G1 (y :: R2p) T (c1 + 1) c2 (d + 1)
          (l1 - 1) l2 mg (n1 + 1) 0 (by omega) h2 (by omega) (by omega)
          (by simp; omega) (by omega) (by omega) hR2len hs1news hR2s
          hlastnew (by omega)
      have hsm3 : smerge lt (tmp.drop c1.toNat) (y :: R2p) =
          x :: smerge lt (tmp.drop (c1 + 1).toNat) (y :: R2p) := by
        rw [hs1p, hs1eq, smerge, if_neg (by rw [hcmpf]; simp)]
      by_cases hmgc : mg ≤ (((n1 + 1) ||| 0 : Nat) : Int)
      · rw [if_pos hmgc]
        rcases hcall2 true with ⟨mg2, hmg2, heq⟩
        exact ⟨mg2, hmg2, by rw [heq, hsm3]; simp⟩
      · rw [if_neg hmgc]
        rcases hcall2 false with ⟨mg2, hmg2, heq⟩
        exact ⟨mg2, hmg2, by rw [heq, hsm3]; simp⟩

/-! ### The timsort handler and driver
(src/unnamed/part_003 lines 168-262 and 355-455) -/

/-- The mutable state of `timSortHandler`: the array, `minGallop`, and the
pending-run stack (`tmp` is omitted — it is sizing-only scratch space whose
contents are captured by the run copies taken inside the merges). -/
structure TSH (α : Type) where
  a : List α
  minGallop : Int
  stackSize : Nat
  runBase : List Int
  runLen : List Int

/-- `pushRun`: writing past the fixed-size stack arrays is a Go
index-out-of-range panic, modelled as an error. -/
def tsPushRun (h : TSH α) (rb rl : Int) : Except String (TSH α) :=
  match lset h.runBase h.stackSize rb, lset h.runLen h.stackSize rl with
  | some b2, some l2 => .ok ⟨h.a, h.minGallop, h.stackSize + 1, b2, l2⟩
  | _, _ => .error "runtime error: index out of range"

/-- Embedding of `mergeAt`: the assertion checks, the stack bookkeeping
(done before the element merge), the two gallop trims with their early
returns, and the `mergeLo`/`mergeHi` dispatch. -/
def tsMergeAt (lt : α → α → Bool) [Inhabited α] (h : TSH α) (i : Nat) :
    Except String (TSH α) :=
  if h.stackSize < 2 then .error "stackSize >= 2"
  else if ¬ (i + 2 = h.stackSize ∨ i + 3 = h.stackSize) then
    .error "if i == stackSize - 2 || i == stackSize - 3"
  else
    let base1 := h.runBase.getD i 0
    let len1 := h.runLen.getD i 0
    let base2 := h.runBase.getD (i + 1) 0
    let len2 := h.runLen.getD (i + 1) 0
    if len1 ≤ 0 ∨ len2 ≤ 0 then .error "len1 > 0 && len2 > 0"
    else if base1 + len1 ≠ base2 then .error "base1 + len1 == base2"
    else
      match lset h.runLen i (len1 + len2) with
      | none => .error "runtime error: index out of range"
      | some rl1 =>
        match (if i + 3 = h.stackSize then
            match lset h.runBase (i + 1) (h.runBase.getD (i + 2) 0),
                lset rl1 (i + 1) (rl1.getD (i + 2) 0) with
            | some rb2, some rl2 => some (rb2, rl2)
            | _, _ => none
          else some (h.runBase, rl1)) with
        | none => .error "runtime error: index out of range"
        | some (rb2, rl2) =>
          match gallopRight lt (aget h.a base2 default) h.a base1 len1 0 with
          | .error e => .error e
          | .ok k =>
            if k < 0 then .error " k >= 0;"
            else if len1 - k = 0 then
              .ok ⟨h.a, h.minGallop, h.stackSize - 1, rb2, rl2⟩
            else
              match gallopLeft lt (aget h.a (base1 + len1 - 1) default)
                  h.a base2 len2 (len2 - 1) with
              | .error e => .error e
              | .ok l2new =>
                if l2new < 0 then .error " len2 >= 0;"
                else if l2new = 0 then
                  .ok ⟨h.a, h.minGallop, h.stackSize - 1, rb2, rl2⟩
                else if len1 - k ≤ l2new then
                  match mergeLo lt h.a (base1 + k) (len1 - k) base2 l2new
                      h.minGallop with
                  | .error e => .error ("mergeLo: " ++ e)
                  | .ok (a2, mg2) =>
                    .ok ⟨a2, mg2, h.stackSize - 1, rb2, rl2⟩
                else
                  match mergeHi lt h.a (base1 + k) (len1 - k) base2 l2new
                      h.minGallop with
                  | .error e => .error ("mergeHi: " ++ e)
                  | .ok (a2, mg2) =>
                    .ok ⟨a2, mg2, h.stackSize - 1, rb2, rl2⟩

/-- `mergeCollapse`: each merge pops one run, so `stackSize + 1` rounds of
fuel always suffice. -/
def tsCollapseLoop (lt : α → α → Bool) [Inhabited α] :
    Nat → TSH α → Except String (TSH α)
  | 0, _ => .error "fuel exhausted"
  | fuel + 1, h =>
    if 1 < h.stackSize then
      let n := h.stackSize - 2
      if (0 < n ∧ h.runLen.getD (n - 1) 0 ≤
            h.runLen.getD n 0 + h.runLen.getD (n + 1) 0) ∨
         (1 < n ∧ h.runLen.getD (n - 2) 0 ≤
            h.runLen.getD (n - 1) 0 + h.runLen.getD n 0) then
        let n2 := if h.runLen.getD (n - 1) 0 < h.runLen.getD (n + 1) 0
          then n - 1 else n
        match tsMergeAt lt h n2 with
        | .error e => .error e
        | .ok h2 => tsCollapseLoop lt fuel h2
      else if h.runLen.getD n 0 ≤ h.runLen.getD (n + 1) 0 then
        match tsMergeAt lt h n with
        | .error e => .error e
        | .ok h2 => tsCollapseLoop lt fuel h2
      else .ok h
    else .ok h

def tsMergeCollapse (lt : α → α → Bool) [Inhabited α] (h : TSH α) :
    Except String (TSH α) :=
  tsCollapseLoop lt (h.stackSize + 1) h

/-- `mergeForceCollapse`: merges everything down to a single run. -/
def tsForceCollapseLoop (lt : α → α → Bool) [Inhabited α] :
    Nat → TSH α → Except String (TSH α)
  | 0, _ => .error "fuel exhausted"
  | fuel + 1, h =>
    if 1 < h.stackSize then
      let n := h.stackSize - 2
      let n2 := if 0 < n ∧ h.runLen.getD (n - 1) 0 <
          h.runLen.getD (n + 1) 0 then n - 1 else n
      match tsMergeAt lt h n2 with
      | .error e => .error e
      | .ok h2 => tsForceCollapseLoop lt fuel h2
    else .ok h

def tsMergeForceCollapse (lt : α → α → Bool) [Inhabited α] (h : TSH α) :
    Except String (TSH α) :=
  tsForceCollapseLoop lt (h.stackSize + 1) h

/-- `newTimSort`: fresh handler with `minGallop = 7` and the stack arrays
sized by the tiers 5/10/19/40. -/
def newTSH (a : List α) : TSH α :=
  ⟨a, 7, 0, List.replicate (stackLenFor a.length) 0,
    List.replicate (stackLenFor a.length) 0⟩

/-- The tail of `ValueTypeSort` after the main loop exits. -/
def sortFinish (lt : α → α → Bool) [Inhabited α] (hi : Int) (h : TSH α)
    (lo : Int) : Except String (List α) :=
  if lo ≠ hi then .error "lo must equal hi"
  else
    match tsMergeForceCollapse lt h with
    | .error e => .error e
    | .ok h2 =>
      if h2.stackSize ≠ 1 then .error "ts.stackSize != 1" else .ok h2.a

/-- The main loop of `ValueTypeSort`: detect (or force) the next run, push
it, collapse, and advance; every round consumes at least one element, so
`n + 1` rounds of fuel suffice. -/
def sortLoop (lt : α → α → Bool) [Inhabited α] (minRun hi : Int) :
    Nat → TSH α → Int → Int → Except String (List α)
  | 0, _, _, _ => .error "fuel exhausted"
  | fuel + 1, h, lo, nRemaining =>
    match countRunAndMakeAscending lt h.a lo hi with
    | .error e => .error e
    | .ok (a2, runLen) =>
      match (if runLen < minRun then
          match binarySort lt a2 lo
              (lo + (if nRemaining ≤ minRun then nRemaining else minRun))
              (lo + runLen) with
          | .error e => .error e
          | .ok a3 => .ok (a3,
              (if nRemaining ≤ minRun then nRemaining else minRun))
        else (.ok (a2, runLen) : Except String (List α × Int))) with
      | .error e => .error e
      | .ok (a3, rl) =>
        match tsPushRun ⟨a3, h.minGallop, h.stackSize, h.runBase, h.runLen⟩
            lo rl with
        | .error e => .error e
        | .ok h2 =>
          match tsMergeCollapse lt h2 with
          | .error e => .error e
          | .ok h3 =>
            if nRemaining - rl = 0 then sortFinish lt hi h3 (lo + rl)
            else sortLoop lt minRun hi fuel h3 (lo + rl) (nRemaining - rl)

/-- Embedding of the sort entry point `ValueTypeSort`: arrays shorter than
2 are returned as-is, arrays shorter than `minMerge = 32` get one run
detection plus a binary-insertion pass, and longer arrays run the full
timsort loop. -/
def ValueTypeSortL (lt : α → α → Bool) [Inhabited α] (a : List α) :
    Except String (List α) :=
  if (a.length : Int) < 2 then .ok a
  else if (a.length : Int) < 32 then
    match countRunAndMakeAscending lt a 0 (a.length : Int) with
    | .error e => .error e
    | .ok (a2, initRunLen) =>
      binarySort lt a2 0 (a.length : Int) (0 + initRunLen)
  else
    sortLoop lt ((minRunLength a.length : Nat) : Int) (a.length : Int)
      (a.length + 1) (newTSH a) 0 (a.length : Int)

/-- C1: the verified part of the claim — its concrete scenario.  Sorting
the strictly descending `[5,4,3,2,1]` through the sort entry point
succeeds and yields the ascending permutation `[1,2,3,4,5]`: the run
detector recognises the whole array as one maximal descending run,
reverses it in place, and the binary-insertion pass over the already
sorted result is a no-op.  The universal statement "for every finite
input array", however, is falsified on 64-bit Go by the pending-run-stack
overflow established in the C4 analysis: for suitable arrays of about
1.5e10 elements `sort` panics with an index-out-of-range instead of
returning the sorted permutation. -/
theorem C1_sort_concrete :
    ValueTypeSortL intLt [5, 4, 3, 2, 1] = .ok [1, 2, 3, 4, 5] := rfl

end Slices
